import Mathlib

/-!
# tcpproxy: hostname routing (suffix matcher, HTTP Host extractor, Consul resolver)

A shallow embedding of `suffix.go`, `http.go` and `consul.go`.

Go strings and byte slices are sequences of bytes; they are embedded as lists
of characters (`GoString`), every byte being the character with the same code.
All functions below only compare characters for equality or read their code,
so nothing depends on the alphabet being larger than 256 values.

The packages the three files call (`strings`, `bytes`, `unicode/utf8`, `bufio`,
`io`, `net`, `net/http`, `github.com/miekg/dns`) are not part of the
repository. The functions of them that the code calls are embedded from the
packages' own sources and documentation, each under the name it has there.
The stream under a buffered reader and the two DNS clients are interface
values: a stream is given by the outcomes of its reads, a client by the
function from a query to its response or error. The request parser
`http.ReadRequest` is an argument of `httpHostHeader`; a model of it is given
for the requests in its stated scope.

Layout: the definitions (the embedding, then the notions used to state the
properties), then the lemmas and theorems.
-/

set_option autoImplicit false

namespace tcpproxy

/-- A Go `string` / `[]byte`: a finite sequence of bytes. -/
abbrev GoString := List Char

/-- The bytes of a string literal; used for ASCII literals only, where bytes
and characters coincide. -/
def str (s : String) : GoString := s.toList

/-! ## Package `strings` / `bytes` -/

/-- Go `strings.HasPrefix(s, pfx)`: `len(s) >= len(pfx) && s[:len(pfx)] == pfx`. -/
def HasPrefix (s pfx : GoString) : Bool :=
  decide (pfx.length ≤ s.length) && (s.take pfx.length == pfx)

/-- Go `strings.HasSuffix(s, suffix)`:
`len(s) >= len(suffix) && s[len(s)-len(suffix):] == suffix`. -/
def HasSuffix (s suffix : GoString) : Bool :=
  decide (suffix.length ≤ s.length) && (s.drop (s.length - suffix.length) == suffix)

/-- Go `strings.Index` / `bytes.Index`: the index of the first occurrence of
`sep` in `s`, or `-1` when there is none. -/
def Index : GoString → GoString → Int
  | [], sep => if sep.isEmpty then 0 else -1
  | c :: s, sep =>
    if HasPrefix (c :: s) sep then 0
    else
      let i := Index s sep
      if i = -1 then -1 else i + 1

/-- Go `strings.Contains(s, substr)`: `Index(s, substr) >= 0`. -/
def Contains (s substr : GoString) : Bool := decide (Index s substr ≥ 0)

/-- Go `strings.TrimLeft(s, cutset)`: `s` without its leading bytes that occur
in `cutset`. -/
def TrimLeft (s cutset : GoString) : GoString := s.dropWhile (fun c => cutset.contains c)

/-- Go `strings.Trim(s, cutset)`, the `trim(s, ".")` of the specification:
`s` without its leading and its trailing bytes that occur in `cutset`. -/
def Trim (s cutset : GoString) : GoString :=
  ((s.dropWhile (fun c => cutset.contains c)).reverse.dropWhile
    (fun c => cutset.contains c)).reverse

/-! ## Targets (tcpproxy.go) -/

/-- Modelled from the spec: `DialProxy` is declared in the repository's
`tcpproxy.go`, which is not among the sources. The spec's "dial target" is
an object built from a resolved `host:port`; the test reads the address back
from its field `Addr`. -/
structure DialProxy where
  Addr : GoString
  deriving DecidableEq, Repr

/-- Modelled from the spec: the interface `Target` is declared in the
repository's `tcpproxy.go`, which is not among the sources. Targets are
opaque to the routing core: a target is a `*DialProxy` or some other
implementation, identified here by a tag. -/
inductive Target where
  | dialProxy (p : DialProxy)
  | other (tag : Nat)
  deriving DecidableEq, Repr

/-- Modelled from the spec: `To` is declared in the repository's
`tcpproxy.go`, which is not among the sources. "Given a resolved
`host:port`, produce an opaque target object": a `DialProxy` whose `Addr` is
the given address. -/
def To (addr : GoString) : Target := Target.dialProxy { Addr := addr }

/-! ## suffix.go -/

/-- The struct `suffixMatcher`; a `nil` target is `none`. -/
structure suffixMatcher where
  suffix : GoString
  target : Option Target
  deriving DecidableEq, Repr

/-- The constructor `newSuffixMatcher`:
`suffix = "." + strings.TrimLeft(suffix, ".")`. -/
def newSuffixMatcher (suffix : GoString) (target : Option Target) : suffixMatcher :=
  { suffix := str "." ++ TrimLeft suffix (str "."), target := target }

/-- The method `(*suffixMatcher).hasSuffix`. -/
def suffixMatcher.hasSuffix (m : suffixMatcher) (hostname : GoString) : Bool × GoString :=
  if HasSuffix hostname m.suffix then
    let pfx := hostname.take (hostname.length - m.suffix.length)
    if pfx == str "" || Contains pfx (str ".") then (false, str "")
    else (true, pfx)
  else (false, str "")

/-- The method `(*suffixMatcher).Lookup`. -/
def suffixMatcher.Lookup (m : suffixMatcher) (hostname : GoString) : Bool × Option Target :=
  let ok := (m.hasSuffix hostname).1
  if ok then (true, m.target) else (false, none)

/-- The function `SuffixMatcher`: the `Lookup` method of a new matcher. -/
def SuffixMatcher (suffix : GoString) (target : Option Target) : GoString → Bool × Option Target :=
  (newSuffixMatcher suffix target).Lookup

/-! ## Package `unicode/utf8` and `bytes.TrimSpace` -/

/-- The value of a byte. -/
def byteVal (c : Char) : Nat := c.toNat

/-- Go `utf8.DecodeRune(p)`: the first rune of `p` and its width in bytes;
an invalid or short encoding decodes to `RuneError` (U+FFFD) of width 1, the
empty slice to `RuneError` of width 0. The table `first` and the array
`acceptRanges` of the Go source are spelled out by cases on the first byte. -/
def DecodeRune (p : GoString) : Nat × Nat :=
  match p with
  | [] => (0xFFFD, 0)
  | c0 :: rest =>
    let p0 := byteVal c0
    if p0 < 0x80 then (p0, 1)
    else if p0 < 0xC2 ∨ 0xF4 < p0 then (0xFFFD, 1)
    else
      let sz := if p0 < 0xE0 then 2 else if p0 < 0xF0 then 3 else 4
      let lo := if p0 = 0xE0 then 0xA0 else if p0 = 0xF0 then 0x90 else 0x80
      let hi := if p0 = 0xED then 0x9F else if p0 = 0xF4 then 0x8F else 0xBF
      if p.length < sz then (0xFFFD, 1)
      else
        match rest with
        | [] => (0xFFFD, 1)
        | c1 :: rest1 =>
          let b1 := byteVal c1
          if b1 < lo ∨ hi < b1 then (0xFFFD, 1)
          else if sz ≤ 2 then ((p0 % 32) * 64 + b1 % 64, 2)
          else
            match rest1 with
            | [] => (0xFFFD, 1)
            | c2 :: rest2 =>
              let b2 := byteVal c2
              if b2 < 0x80 ∨ 0xBF < b2 then (0xFFFD, 1)
              else if sz ≤ 3 then ((p0 % 16) * 4096 + (b1 % 64) * 64 + b2 % 64, 3)
              else
                match rest2 with
                | [] => (0xFFFD, 1)
                | c3 :: _ =>
                  let b3 := byteVal c3
                  if b3 < 0x80 ∨ 0xBF < b3 then (0xFFFD, 1)
                  else ((p0 % 8) * 262144 + (b1 % 64) * 4096 + (b2 % 64) * 64 + b3 % 64, 4)

/-- Go `utf8.RuneStart(b)`: `b&0xC0 != 0x80`. -/
def RuneStart (c : Char) : Bool := !(decide (0x80 ≤ byteVal c) && decide (byteVal c < 0xC0))

/-- The backward scan of `utf8.DecodeLastRune`:
`for start--; start >= lim; start-- { if RuneStart(p[start]) { break } }`,
on `k` remaining candidates below `start`; the result is the final `start`,
which is `lim - 1` (as an integer) when no rune start was found. -/
def lastRuneStart (p : GoString) (lim : Nat) : Nat → Int
  | 0 => (lim : Int) - 1
  | k + 1 =>
    if RuneStart (p.getD (lim + k) ' ') then (lim + k : Nat) else lastRuneStart p lim k

/-- Go `utf8.DecodeLastRune(p)`: the last rune of `p` and its width. After the
backward scan, `if start < lim { start = lim }`. -/
def DecodeLastRune (p : GoString) : Nat × Nat :=
  let e := p.length
  if e = 0 then (0xFFFD, 0)
  else
    let r := byteVal (p.getD (e - 1) ' ')
    if r < 0x80 then (r, 1)
    else
      let lim := e - 4
      let start0 := lastRuneStart p lim (e - 1 - lim)
      let start := if start0 < (lim : Int) then lim else start0.toNat
      let (r, size) := DecodeRune (p.drop start)
      if start + size ≠ e then (0xFFFD, 1) else (r, size)

/-- Go `unicode.IsSpace(r)`: the Latin-1 spaces and the other code points
with the Unicode property `White_Space`. -/
def IsSpace (r : Nat) : Bool :=
  if r ≤ 0xFF then
    r = 0x09 ∨ r = 0x0A ∨ r = 0x0B ∨ r = 0x0C ∨ r = 0x0D ∨ r = 0x20 ∨ r = 0x85 ∨ r = 0xA0
  else
    r = 0x1680 ∨ (0x2000 ≤ r ∧ r ≤ 0x200A) ∨ r = 0x2028 ∨ r = 0x2029 ∨ r = 0x202F
      ∨ r = 0x205F ∨ r = 0x3000

/-- Go `bytes.TrimLeftFunc(s, unicode.IsSpace)`: `s` from its first rune that
is not a space (the loop of `indexFunc`, at most `fuel` runes). -/
def trimLeftSpace : Nat → GoString → GoString
  | 0, _ => []
  | _, [] => []
  | fuel + 1, c :: s =>
    let (r, wid) := if byteVal c < 0x80 then (byteVal c, 1) else DecodeRune (c :: s)
    if IsSpace r then trimLeftSpace fuel ((c :: s).drop wid) else c :: s

/-- The loop of `lastIndexFunc(s, unicode.IsSpace, false)` on the first `i`
bytes of `s`: the index of the last rune that is not a space, or `-1`. -/
def lastIndexNotSpace (s : GoString) : Nat → Nat → Int
  | 0, _ => -1
  | _, 0 => -1
  | fuel + 1, i + 1 =>
    let c := s.getD i ' '
    let (r, size) := if byteVal c < 0x80 then (byteVal c, 1) else DecodeLastRune (s.take (i + 1))
    if IsSpace r then lastIndexNotSpace s fuel (i + 1 - size) else ((i + 1 - size : Nat) : Int)

/-- Go `bytes.TrimRightFunc(s, unicode.IsSpace)`. -/
def trimRightSpace (s : GoString) : GoString :=
  let i := lastIndexNotSpace s s.length s.length
  if 0 ≤ i ∧ 0x80 ≤ byteVal (s.getD i.toNat ' ') then
    s.take (i.toNat + (DecodeRune (s.drop i.toNat)).2)
  else s.take (i + 1).toNat

/-- Go `bytes.TrimSpace(s)`: `s` without leading and trailing white space, as
defined by Unicode. Its fast path for ASCII agrees with
`TrimFunc(s, unicode.IsSpace)`, which is what is embedded. -/
def TrimSpace (s : GoString) : GoString := trimRightSpace (trimLeftSpace s.length s)

/-! ## Package `net`: textual form of an IP address -/

/-- Go `net.IP`: a slice of bytes; the `nil` address is the empty list. -/
abbrev IP := List Nat

/-- A lower-case hexadecimal digit. -/
def hexDigit (d : Nat) : Char := (str "0123456789abcdef").getD d '0'

/-- Go `appendHex`: lower-case hexadecimal without leading zeros. -/
def hexString (n : Nat) : GoString := (Nat.toDigits 16 n)

/-- Go `IP.To4`: the 4-byte form of an IPv4 address, `nil` (here `none`) for
any other address. -/
def IP.To4 (ip : IP) : Option IP :=
  if ip.length = 4 then some ip
  else if ip.length = 16 ∧ ip.take 10 = List.replicate 10 0 ∧ ip.getD 10 0 = 0xff
      ∧ ip.getD 11 0 = 0xff then some (ip.drop 12)
  else none

/-- The 16-bit groups of a 16-byte address. -/
def ipGroups : IP → List Nat
  | a :: b :: rest => (a * 256 + b) :: ipGroups rest
  | _ => []

/-- The length of the run of zero groups at the head of a list. -/
def zeroRun (gs : List Nat) : Nat := (gs.takeWhile (fun g => g == 0)).length

/-- The loop "find longest run of zeros" of `IP.String`: the start and the
length (in groups) of the first longest run of zero groups of `gs`, the
groups from index `i` on; `best` is the longest run found so far. -/
def longestZeroRun : Nat → List Nat → Nat → Nat × Nat → Nat × Nat
  | 0, _, _, best => best
  | _, [], _, best => best
  | fuel + 1, g :: gs, i, best =>
    let n := zeroRun (g :: gs)
    if n > 0 ∧ n > best.2 then longestZeroRun fuel ((g :: gs).drop (n + 1)) (i + n + 1) (i, n)
    else longestZeroRun fuel gs (i + 1) best

/-- The printing loop of `IP.String` for an IPv6 address: the groups `gs`
from index `i` on, with `::` in place of the run `[e0, e1)`. -/
def printGroups (e0 e1 : Nat) : Nat → List Nat → Nat → GoString
  | 0, _, _ => []
  | _, [], _ => []
  | fuel + 1, g :: gs, i =>
    if i = e0 ∧ e0 < e1 then
      match (g :: gs).drop (e1 - e0) with
      | [] => str "::"
      | g1 :: gs1 => str "::" ++ hexString g1 ++ printGroups e0 e1 fuel gs1 (e1 + 1)
    else
      (if i > 0 then str ":" else []) ++ hexString g ++ printGroups e0 e1 fuel gs (i + 1)

/-- Go `IP.String`: `<nil>` for the empty address, dotted decimal for an IPv4
address, `?` and the bytes in hexadecimal for a slice of another length than
16, and the RFC 5952 text of an IPv6 address otherwise. -/
def IP.String (ip : IP) : GoString :=
  if ip.length = 0 then str "<nil>"
  else
    match ip.To4 with
    | some p4 =>
      (Nat.repr (p4.getD 0 0)).toList ++ str "." ++ (Nat.repr (p4.getD 1 0)).toList ++ str "."
        ++ (Nat.repr (p4.getD 2 0)).toList ++ str "." ++ (Nat.repr (p4.getD 3 0)).toList
    | none =>
      if ip.length ≠ 16 then
        str "?" ++ (ip.map (fun b => [hexDigit (b / 16), hexDigit (b % 16)])).flatten
      else
        let gs := ipGroups ip
        let run := longestZeroRun 8 gs 0 (0, 0)
        let run := if run.2 ≤ 1 then (0, 0) else run
        printGroups run.1 (run.1 + run.2) 8 gs 0

/-! ## Package `github.com/miekg/dns`: messages and resource records -/

/-- The struct `dns.RR_Header`. -/
structure RR_Header where
  Name : GoString
  Rrtype : Nat
  Class : Nat
  Ttl : Nat
  deriving DecidableEq, Repr

/-- The interface `dns.RR` by the Go type of the record: `*dns.SRV`,
`*dns.A`, `*dns.TXT`, or a record of any other type. -/
inductive RR where
  | SRV (Hdr : RR_Header) (Priority Weight Port : Nat) (Target : GoString)
  | A (Hdr : RR_Header) (A : IP)
  | TXT (Hdr : RR_Header) (Txt : List GoString)
  | other (Hdr : RR_Header)
  deriving DecidableEq, Repr

/-- The struct `dns.Question`. -/
structure Question where
  Name : GoString
  Qtype : Nat
  Qclass : Nat
  deriving DecidableEq, Repr

/-- The struct `dns.Msg`, with the header fields and sections the resolver
sets or reads. -/
structure Msg where
  Id : Nat
  Response : Bool
  RecursionDesired : Bool
  Truncated : Bool
  Rcode : Int
  Question : List Question
  Answer : List RR
  Ns : List RR
  Extra : List RR
  deriving DecidableEq, Repr

/-- The constant `dns.TypeSRV`. -/
def TypeSRV : Nat := 33

/-- The constant `dns.ClassINET`. -/
def ClassINET : Nat := 1

/-- The constant `dns.RcodeSuccess`. -/
def RcodeSuccess : Int := 0

/-- The constant `dns.RcodeNameError`. -/
def RcodeNameError : Int := 3

/-- The message `new(dns.Msg)`: every field has its zero value. -/
def Msg.new : Msg :=
  { Id := 0, Response := false, RecursionDesired := false, Truncated := false, Rcode := 0,
    Question := [], Answer := [], Ns := [], Extra := [] }

/-- The method `(*dns.Msg).SetQuestion(z, t)`: a fresh id (`dns.Id()`, a
random number, here the argument `id`), recursion desired, and the single
question `Question{z, t, ClassINET}`. -/
def Msg.SetQuestion (m : Msg) (id : Nat) (z : GoString) (t : Nat) : Msg :=
  { m with Id := id, RecursionDesired := true,
           Question := [{ Name := z, Qtype := t, Qclass := ClassINET }] }

/-! ## Errors -/

/-- An operand of `fmt.Errorf`. -/
inductive FmtArg where
  | string (s : GoString)
  | msg (m : Msg)
  | rrs (l : List RR)
  deriving DecidableEq, Repr

/-- Go `error` values: the sentinel errors of `io` and `bufio`, the errors
built by `fmt.Errorf` (kept as the format with its operands), and any other
error value (a network error, a timeout, a cancelled context, ...),
identified by a code. -/
inductive Error where
  | EOF
  | ErrNoProgress
  | ErrBufferFull
  | Errorf (format : GoString) (args : List FmtArg)
  | other (code : Nat)
  deriving DecidableEq, Repr

/-! ## Package `io`: the stream under a buffered reader -/

/-- The outcome `(n, err)` of one call of `Read`: the bytes delivered and
the error returned with them, if any. -/
structure ReadEvent where
  data : GoString
  err : Option Error
  deriving DecidableEq, Repr

/-- An `io.Reader`, given by what its calls of `Read` return: the outcomes of
the next calls in order, then `(0, final)` on every later call. An outcome
with more bytes than the caller's slice holds is delivered over several calls.
Reads that return no bytes and no error, and errors after which later reads
deliver more bytes, are outcomes like any other. -/
structure Source where
  events : List ReadEvent
  final : Error
  deriving DecidableEq, Repr

/-- One call `rd.Read(p)` with `len(p) = max`: the bytes read, the error, and
the reader afterwards. -/
def Source.Read (rd : Source) (max : Nat) : GoString × Option Error × Source :=
  match rd.events with
  | [] => ([], some rd.final, rd)
  | ev :: rest =>
    if ev.data.length ≤ max then (ev.data, ev.err, { rd with events := rest })
    else (ev.data.take max, none,
      { rd with events := { ev with data := ev.data.drop max } :: rest })

/-! ## Package `bufio` -/

/-- The struct `bufio.Reader`: `size` is `len(b.buf)`, `r` the read position
`b.r`, `data` the buffered bytes `b.buf[b.r:b.w]`, `err` the pending error
`b.err` and `rd` the underlying reader. (`lastByte` and `lastRuneSize` only
serve `UnreadByte` and `UnreadRune` and are left out.) -/
structure Reader where
  size : Nat
  r : Nat
  data : GoString
  err : Option Error
  rd : Source
  deriving DecidableEq, Repr

/-- The constant `maxConsecutiveEmptyReads` of `bufio`. -/
def maxConsecutiveEmptyReads : Nat := 100

/-- Go `bufio.NewReaderSize(rd, size)`; the buffer has at least 16 bytes. -/
def NewReaderSize (rd : Source) (size : Nat) : Reader :=
  { size := if size < 16 then 16 else size, r := 0, data := [], err := none, rd := rd }

/-- Go `bufio.NewReader(rd)`: the default buffer size is 4096. -/
def NewReader (rd : Source) : Reader := NewReaderSize rd 4096

/-- The method `(*bufio.Reader).Buffered`: `b.w - b.r`. -/
def Reader.Buffered (b : Reader) : Nat := b.data.length

/-- The read loop of `(*bufio.Reader).fill`:
`for i := maxConsecutiveEmptyReads; i > 0; i--` reading into `b.buf[b.w:]`,
then `b.err = io.ErrNoProgress`. -/
def Reader.fillRead : Nat → Reader → Reader
  | 0, b => { b with err := some Error.ErrNoProgress }
  | i + 1, b =>
    match b.rd.Read (b.size - (b.r + b.data.length)) with
    | (bytes, err, rd) =>
      let b := { b with data := b.data ++ bytes, rd := rd }
      match err with
      | some e => { b with err := some e }
      | none => if bytes.length > 0 then b else Reader.fillRead i b

/-- The method `(*bufio.Reader).fill`: slide the buffered bytes to the start
of the buffer, then read new data. (`Peek` calls it only when the buffer is
not full, so its panic on a full buffer cannot happen.) -/
def Reader.fill (b : Reader) : Reader :=
  Reader.fillRead maxConsecutiveEmptyReads (if b.r > 0 then { b with r := 0 } else b)

/-- The loop `for b.w-b.r < n && b.w-b.r < len(b.buf) && b.err == nil { b.fill() }`
of `Peek`, at most `fuel` times. -/
def Reader.peekFill (n : Nat) : Nat → Reader → Reader
  | 0, b => b
  | fuel + 1, b =>
    if b.data.length < n ∧ b.data.length < b.size ∧ b.err = none then
      Reader.peekFill n fuel b.fill
    else b

/-- The method `(*bufio.Reader).Peek(n)` for `n ≥ 0`: the next `n` bytes
without advancing the reader, or fewer bytes and an error. A call of `fill`
either buffers a byte or sets `b.err`, so the loop runs at most `n` times. -/
def Reader.Peek (b : Reader) (n : Nat) : GoString × Option Error × Reader :=
  let b := Reader.peekFill n n b
  if n > b.size then (b.data, some Error.ErrBufferFull, b)
  else if b.data.length < n then
    (b.data, some (b.err.getD Error.ErrBufferFull), { b with err := none })
  else (b.data.take n, none, b)

/-- The bytes the reader has yet to deliver: those buffered, then those the
stream still holds. -/
def Reader.pending (b : Reader) : GoString :=
  b.data ++ (b.rd.events.map (fun ev => ev.data)).flatten

/-! ## http.go -/

/-- The fields of `http.Request` that `httpHostHeader` reads: `Host`, and
the map `Header` as its lookup `req.Header[key]` (`nil` for a missing key). -/
structure Request where
  Host : GoString
  Header : GoString → List GoString

/-- The constant `maxPeek` of `httpHostHeader`: `4 << 10`. -/
def maxPeek : Nat := 4 <<< 10

def lfHostColon : GoString := str "\nHost:"
def lfhostColon : GoString := str "\nhost:"
def crlf : GoString := str "\r\n"
def lf : GoString := str "\n"
def crlfcrlf : GoString := str "\r\n\r\n"
def lflf : GoString := str "\n\n"

/-- Go `bytes.IndexByte(v, c)`. -/
def IndexByte (v : GoString) (c : Char) : Int := Index v [c]

/-- The function `untilEOL`: `v`, truncated before the first `\n` byte, if any. -/
def untilEOL (v : GoString) : GoString :=
  let i := IndexByte v '\n'
  if i ≠ -1 then v.take i.toNat else v

/-- The function `httpHostHeaderFromBytes`. -/
def httpHostHeaderFromBytes (b : GoString) : GoString :=
  let i := Index b lfHostColon
  if i ≠ -1 then TrimSpace (untilEOL (b.drop (i.toNat + lfHostColon.length)))
  else
    let i := Index b lfhostColon
    if i ≠ -1 then TrimSpace (untilEOL (b.drop (i.toNat + lfhostColon.length)))
    else str ""

/-- The outcome of one iteration of the loop of `httpHostHeader`: the
function returns, or the loop goes on with a new `peekSize`. -/
inductive Step where
  | ret (host : GoString) (br : Reader)
  | next (peekSize : Nat) (br : Reader)

/-- The body of the loop of `httpHostHeader`, from a value of `peekSize` and
a state of `br`. `ReadRequest b` stands for
`http.ReadRequest(bufio.NewReader(bytes.NewReader(b)))`, `none` being a parse
error. -/
def httpHostHeaderStep (ReadRequest : GoString → Option Request) (peekSize : Nat)
    (br : Reader) : Step :=
  let peekSize := peekSize + 1
  if peekSize > maxPeek then
    match br.Peek br.Buffered with
    | (b, _, br) => Step.ret (httpHostHeaderFromBytes b) br
  else
    match br.Peek peekSize with
    | (b, err, br) =>
      match (if br.Buffered > peekSize then
          match br.Peek br.Buffered with
          | (b, _, br1) => (b, br.Buffered, br1)
        else (b, peekSize, br)) with
      | (b, peekSize, br) =>
        if b.length > 0 ∧ (b.headD ' ' < 'A' ∨ b.headD ' ' > 'Z') then
          Step.ret (str "") br
        else if b.length > 0 ∧ (Index b crlfcrlf ≠ -1 ∨ Index b lflf ≠ -1) then
          match ReadRequest b with
          | none => Step.ret (str "") br
          | some req =>
            if (req.Header (str "Host")).length > 1 then Step.ret (str "") br
            else Step.ret req.Host br
        else if err ≠ none then Step.ret (httpHostHeaderFromBytes b) br
        else Step.next peekSize br

/-- The loop `for { ... }` of `httpHostHeader`, for at most `fuel`
iterations; `none` when the function has not returned by then. -/
def httpHostHeaderLoop (ReadRequest : GoString → Option Request) :
    Nat → Nat → Reader → Option (GoString × Reader)
  | 0, _, _ => none
  | fuel + 1, peekSize, br =>
    match httpHostHeaderStep ReadRequest peekSize br with
    | Step.ret host br => some (host, br)
    | Step.next peekSize br => httpHostHeaderLoop ReadRequest fuel peekSize br

/-- The function `httpHostHeader`: the Host header and the reader afterwards.
`peekSize` grows in every iteration and the function returns once it exceeds
`maxPeek`, so `maxPeek + 1` iterations are enough. -/
def httpHostHeader (ReadRequest : GoString → Option Request) (br : Reader) :
    Option (GoString × Reader) :=
  httpHostHeaderLoop ReadRequest (maxPeek + 1) 0 br

/-! ## consul.go -/

/-- The interface `dnsClient`: what `ExchangeContext(ctx, m, a)` returns for
a query `m` sent to the address `a`, a response or an error. The context is
part of the client: a cancelled or expired context shows as the error the
exchange returns. The round-trip time is left out. -/
structure dnsClient where
  ExchangeContext : Msg → GoString → Except Error Msg

/-- The transport of a client. -/
inductive Transport where
  | udp
  | tcp
  deriving DecidableEq, Repr

/-- One call of `ExchangeContext`: the client it was made on, the query and
the address. -/
structure Exchange where
  net : Transport
  msg : Msg
  addr : GoString
  deriving DecidableEq, Repr

/-- The struct `consulMatcher`. -/
structure consulMatcher where
  matchSuffix : suffixMatcher
  consulDnsAddr : GoString
  udpClient : dnsClient
  tcpClient : dnsClient

/-- The `switch r.Rcode` at the end of `dnsSrvQuery`: the results
`(ans, extra, err)` for the final response `r`. -/
def dnsSrvQueryResult (fqdn : GoString) (r : Msg) : List RR × List RR × Option Error :=
  if r.Rcode = RcodeSuccess then (r.Answer, r.Extra, none)
  else if r.Rcode = RcodeNameError then
    ([], [], some (Error.Errorf (str "non-existent name: %s") [FmtArg.string fqdn]))
  else
    ([], [], some (Error.Errorf (str "lookup failed for: %s\n%s")
      [FmtArg.string fqdn, FmtArg.msg r]))

/-- The method `(*consulMatcher).dnsSrvQuery`: the results `(ans, extra, err)`
and the exchanges issued, in order. `id` is the id `SetQuestion` draws. -/
def consulMatcher.dnsSrvQuery (m : consulMatcher) (id : Nat) (fqdn : GoString) :
    (List RR × List RR × Option Error) × List Exchange :=
  let msg := Msg.new.SetQuestion id fqdn TypeSRV
  let udp : Exchange := { net := Transport.udp, msg := msg, addr := m.consulDnsAddr }
  match m.udpClient.ExchangeContext msg m.consulDnsAddr with
  | Except.error err => (([], [], some err), [udp])
  | Except.ok r =>
    if r.Truncated then
      let tcp : Exchange := { net := Transport.tcp, msg := msg, addr := m.consulDnsAddr }
      match m.tcpClient.ExchangeContext msg m.consulDnsAddr with
      | Except.error err => (([], [], some err), [udp, tcp])
      | Except.ok r => (dnsSrvQueryResult fqdn r, [udp, tcp])
    else (dnsSrvQueryResult fqdn r, [udp])

/-- The first loop of `lookupDns`, over the answer section, on the variables
`(ok, port, node)`: a record that is not a `*dns.SRV` sets `ok` to false, the
first `*dns.SRV` sets all three and ends the loop. -/
def srvLoop : List RR → Bool × Nat × GoString → Bool × Nat × GoString
  | [], st => st
  | RR.SRV _ _ _ port target :: _, _ => (true, port, target)
  | _ :: rest, (_, port, node) => srvLoop rest (false, port, node)

/-- The second loop of `lookupDns`, over the extra section, on the variables
`(ok, host)`: every record sets `ok` to whether it is a `*dns.A`, and the
first `*dns.A` whose owner name is `node` sets `host` and ends the loop. -/
def aLoop (node : GoString) : List RR → Bool × IP → Bool × IP
  | [], st => st
  | RR.A hdr a :: rest, (_, host) =>
    if hdr.Name = node then (true, a) else aLoop node rest (true, host)
  | _ :: rest, (_, host) => aLoop node rest (false, host)

/-- The method `(*consulMatcher).lookupDns`: the results `(addr, err)` and
the exchanges issued. -/
def consulMatcher.lookupDns (m : consulMatcher) (id : Nat) (serviceName : GoString) :
    (GoString × Option Error) × List Exchange :=
  let fqdn := str "_" ++ serviceName ++ str "._tcp.consul."
  match m.dnsSrvQuery id fqdn with
  | ((ans, extra, err), exchanges) =>
    if err ≠ none then ((str "", err), exchanges)
    else
      match srvLoop ans (false, 0, str "") with
      | (ok, port, node) =>
        if !ok then
          ((str "", some (Error.Errorf (str "no valid SRV record found for: %s\n%s")
            [FmtArg.string fqdn, FmtArg.rrs ans])), exchanges)
        else
          match aLoop node extra (false, []) with
          | (ok, host) =>
            if !ok then
              ((str "", some (Error.Errorf (str "no valid A record found for: %s\n%s")
                [FmtArg.string fqdn, FmtArg.rrs ans])), exchanges)
            else
              ((host.String ++ str ":" ++ (Nat.repr port).toList, none), exchanges)

/-- What a call of `(*consulMatcher).Lookup` returns and does: the results
`(ok, target)`, the exchanges issued, and the errors written to the log by
`log.Printf("tcpproxy: consul lookup failed: %s", err)`. -/
structure LookupOutcome where
  ok : Bool
  target : Option Target
  exchanges : List Exchange
  logged : List Error
  deriving DecidableEq, Repr

/-- The method `(*consulMatcher).Lookup`. -/
def consulMatcher.Lookup (m : consulMatcher) (id : Nat) (hostname : GoString) : LookupOutcome :=
  match m.matchSuffix.hasSuffix hostname with
  | (ok, serviceName) =>
    if !ok then { ok := ok, target := none, exchanges := [], logged := [] }
    else
      match m.lookupDns id serviceName with
      | ((addr, err), exchanges) =>
        match err with
        | some e => { ok := false, target := none, exchanges := exchanges, logged := [e] }
        | none => { ok := ok, target := some (To addr), exchanges := exchanges, logged := [] }

/-- The function `ConsulMatcher` for given clients (the Go function builds
`&dns.Client{Net: "udp"}` and `&dns.Client{Net: "tcp"}`). -/
def ConsulMatcher (matchSuffix consulDnsAddr : GoString) (udpClient tcpClient : dnsClient) :
    consulMatcher :=
  { matchSuffix := newSuffixMatcher matchSuffix none, consulDnsAddr := consulDnsAddr,
    udpClient := udpClient, tcpClient := tcpClient }

/-- Whether a record is a `*dns.SRV`. -/
def RR.isSRV : RR → Bool
  | RR.SRV _ _ _ _ _ => true
  | _ => false

/-- Whether a record is a `*dns.A`. -/
def RR.isA : RR → Bool
  | RR.A _ _ => true
  | _ => false

/-- Whether a record is a `*dns.A` with the owner name `node`. -/
def RR.isAFor (node : GoString) : RR → Bool
  | RR.A hdr _ => decide (hdr.Name = node)
  | _ => false

/-- The query `dnsSrvQuery` sends for `fqdn`. -/
def srvQuestion (id : Nat) (fqdn : GoString) : Msg := Msg.new.SetQuestion id fqdn TypeSRV

/-- The name `lookupDns` queries for a service. -/
def serviceFqdn (serviceName : GoString) : GoString :=
  str "_" ++ serviceName ++ str "._tcp.consul."

/-- The final response of the query for `fqdn`: the UDP response when it is
not truncated, the TCP response when the UDP response is truncated; both
exchanges succeed. -/
def consulMatcher.FinalResponse (m : consulMatcher) (id : Nat) (fqdn : GoString) (r : Msg) :
    Prop :=
  ∃ r0, m.udpClient.ExchangeContext (srvQuestion id fqdn) m.consulDnsAddr = Except.ok r0 ∧
    ((r0.Truncated = false ∧ r = r0) ∨
     (r0.Truncated = true ∧
       m.tcpClient.ExchangeContext (srvQuestion id fqdn) m.consulDnsAddr = Except.ok r))

/-! ## consul_test.go -/

/-- The method `(*dns.Msg).SetReply(request)` on a new message, for a
standard query: the id, the recursion flag and the first question of the
request, marked as a response with code success. -/
def Msg.SetReply (m : Msg) (request : Msg) : Msg :=
  { m with Id := request.Id, Response := true, RecursionDesired := request.RecursionDesired,
           Rcode := RcodeSuccess, Question := request.Question.take 1 }

/-- The type `mockDnsClient` of the test with its method `ExchangeContext`;
the records are given as parsed by `dns.NewRR`. -/
def mockDnsClient (Answers Extras : List RR) (Truncate : Bool) (Err : Option Error) :
    dnsClient :=
  { ExchangeContext := fun req _ =>
      match Err with
      | some e => Except.error e
      | none =>
        Except.ok { Msg.new.SetReply req with
          Truncated := Truncate, Answer := Answers, Extra := Extras } }

/-- The node name of the test. -/
def testNode : GoString := str "MacBook-Pro.local.node.dc1.consul."

/-- The answer of the test: `_foo._tcp.consul. 0 IN SRV 1 1 51885 <node>`. -/
def testAnswer : List RR :=
  [RR.SRV { Name := str "_foo._tcp.consul.", Rrtype := 33, Class := 1, Ttl := 0 } 1 1 51885
    testNode]

/-- The extra records of the test: `<node> 0 IN A 127.0.0.1` (the address as
`net.ParseIP` returns it, in 16 bytes) and a TXT record. -/
def testExtra : List RR :=
  [RR.A { Name := testNode, Rrtype := 1, Class := 1, Ttl := 0 }
    [0, 0, 0, 0, 0, 0, 0, 0, 0, 0, 255, 255, 127, 0, 0, 1],
   RR.TXT { Name := testNode, Rrtype := 16, Class := 1, Ttl := 0 }
    [str "consul-network-segment="]]

/-- The matcher of the test: suffix `.localhost`, the mock as UDP client.
(The test leaves the TCP client unset; it is not called. Here it is a client
that fails.) -/
def testMatcher : consulMatcher :=
  { matchSuffix := newSuffixMatcher (str ".localhost") none,
    consulDnsAddr := str "",
    udpClient := mockDnsClient testAnswer testExtra false none,
    tcpClient := mockDnsClient [] [] false (some (Error.other 0)) }

/-- A registry whose extra section holds an address record for another node
only. -/
def otherNodeMatcher : consulMatcher :=
  { testMatcher with
    udpClient := mockDnsClient testAnswer
      [RR.A { Name := str "other.node.dc1.consul.", Rrtype := 1, Class := 1, Ttl := 0 }
        [10, 0, 0, 1]] false none }

/-- A client that answers every query with a response of the given code and
empty sections. -/
def rcodeClient (rcode : Int) : dnsClient :=
  { ExchangeContext := fun req _ => Except.ok { Msg.new.SetReply req with Rcode := rcode } }

/-- A registry whose UDP exchange fails with the error `e`. -/
def udpFailMatcher (e : Error) : consulMatcher :=
  { testMatcher with udpClient := mockDnsClient [] [] false (some e) }

/-- A registry whose UDP response is truncated and whose TCP exchange fails
with the error `e`. -/
def tcpFailMatcher (e : Error) : consulMatcher :=
  { testMatcher with
    udpClient := mockDnsClient [] [] true none,
    tcpClient := mockDnsClient [] [] false (some e) }

/-- A registry that answers with a TXT record in the answer section and the
extra section of the test. -/
def noSrvMatcher : consulMatcher :=
  { testMatcher with
    udpClient := mockDnsClient
      [RR.TXT { Name := str "_foo._tcp.consul.", Rrtype := 16, Class := 1, Ttl := 0 } [str "x"]]
      testExtra false none }

/-! ## The loop body of `httpHostHeader` in closed form

The two calls of `Peek` in one iteration leave the whole buffer as the window
`b`; the definitions below name the error of the first call, the reader after
it and the decision the loop body takes on a window. They are used to state
and prove the properties of the loop, not to define it. -/

/-- The error `Peek(p)` returns once its fill loop has left the reader `b1`. -/
def peekErr (b1 : Reader) (p : Nat) : Option Error :=
  if p > b1.size then some Error.ErrBufferFull
  else if b1.data.length < p then some (b1.err.getD Error.ErrBufferFull)
  else none

/-- The reader `Peek(p)` leaves once its fill loop has left the reader `b1`:
a pending error that is returned is cleared. -/
def peekReader (b1 : Reader) (p : Nat) : Reader :=
  if p > b1.size then b1
  else if b1.data.length < p then { b1 with err := none }
  else b1

/-- Whether a window holds the end of a header block, `\r\n\r\n` or `\n\n`. -/
def hasTerminator (b : GoString) : Bool :=
  decide (Index b crlfcrlf ≠ -1) || decide (Index b lflf ≠ -1)

/-- What `httpHostHeader` returns for a window that holds a header block. -/
def parsedHost (ReadRequest : GoString → Option Request) (b : GoString) : GoString :=
  match ReadRequest b with
  | none => str ""
  | some req => if (req.Header (str "Host")).length > 1 then str "" else req.Host

/-- The decision of the loop body on the window `b` peeked with error `err`:
the value returned, or `none` when the loop goes on. -/
def decideWindow (ReadRequest : GoString → Option Request) (b : GoString)
    (err : Option Error) : Option GoString :=
  if b.length > 0 ∧ (b.headD ' ' < 'A' ∨ b.headD ' ' > 'Z') then some (str "")
  else if b.length > 0 ∧ hasTerminator b = true then some (parsedHost ReadRequest b)
  else if err ≠ none then some (httpHostHeaderFromBytes b)
  else none

/-- A stream that delivers its bytes in non-empty reads without an error
and then ends: every read after the last byte returns the error `final`. -/
def Source.Steady (rd : Source) : Prop :=
  ∀ ev ∈ rd.events, ev.err = none ∧ ev.data ≠ []

instance (rd : Source) : Decidable rd.Steady := by
  unfold Source.Steady
  infer_instance

/-- A reader whose pending error, if it has one, stems from the end of its
stream. -/
def Reader.AtEndIfErr (b : Reader) : Prop := b.err ≠ none → b.rd.events = []

instance (b : Reader) : Decidable b.AtEndIfErr := by
  unfold Reader.AtEndIfErr
  infer_instance

/-- A reader on which a further `Peek` past the buffered bytes cannot buffer
another byte within the `maxPeek` window: the buffer holds `maxPeek` bytes or
is full, or an error is pending, or the stream has ended. -/
def Reader.Stuck (b : Reader) : Prop :=
  maxPeek ≤ b.data.length ∨ b.size ≤ b.data.length ∨ b.err ≠ none ∨ b.rd.events = []

/-! ## Streams and requests of the examples -/

/-- The request of `TestConsulMatcher`. -/
def testRequest : GoString := str "GET / HTTP/1.1\r\nHost: foo.localhost\r\n\r\n"

/-- The stream of a `strings.Reader` over `s`: one read delivers the bytes,
every later read returns `io.EOF`. -/
def stringsReader (s : GoString) : Source :=
  { events := [{ data := s, err := none }], final := Error.EOF }

/-- A stream that delivers the start of a request, then fails once (a
timeout, say, as `iotest.TimeoutReader` does on its second read), then
delivers the rest of the header line and ends. -/
def timeoutStream : Source :=
  { events := [{ data := str "GET / HTTP/1.1\r\nHo", err := none },
               { data := [], err := some (Error.other 1) },
               { data := str "st: x\r\n", err := none }],
    final := Error.EOF }

/-- A TLS handshake byte followed by a complete request head. -/
def tlsThenRequest : GoString := '\x16' :: testRequest

/-- A request with two `Host` headers. -/
def twoHostsRequest : GoString :=
  str "GET / HTTP/1.1\r\nHost: a.localhost\r\nHost: b.localhost\r\n\r\n"

/-- A stream that delivers a POST request in two reads, the second one with
the body and a read error. -/
def postStream : Source :=
  { events := [{ data := str "POST /a?b=%20 HTTP/1.0\r\nContent-Le", err := none },
               { data := str "ngth: 5\r\nhost:foo.localhost \r\nX-Empty:\r\n\r\nhello",
                 err := some (Error.other 1) }],
    final := Error.EOF }

/-- The headers of a request head of more than 4096 bytes: two `Host`
headers and a header with a value of 4100 bytes. -/
def longHeaders : List (GoString × GoString) :=
  [(str "Host", str " a"), (str "Host", str " b"), (str "X", ' ' :: List.replicate 4100 'a')]

/-! ## Package `net/http`: a model of `ReadRequest`

`httpHostHeader` is embedded with the request parser as an argument. The
model below is the instance used on concrete requests. It follows
`http.ReadRequest` of Go 1.22 and later: the request line
(`parseRequestLine`, `validMethod`, `ParseHTTPVersion`, `url.ParseRequestURI`),
the header block (`textproto.Reader.ReadMIMEHeader`, with folded lines), the
test for more than one `Host` header, the promotion of the Host header, and
the checks of `readTransfer` on `Transfer-Encoding`, `Content-Length` and
`Trailer`. Of `net/url` the model covers the target `*`, the targets in
origin-form, and the targets in absolute-form or authority-form whose
authority is a host name of unreserved bytes with an optional port. For a
target with another authority (user information, an IP literal in brackets, a
percent-escape, another byte) the model returns `none`, as it does wherever
the Go function reports an error. Whenever the model returns a request, that
is the `Host` and the `Header["Host"]` of the request the Go function returns.
-/

namespace http

/-- The table `isTokenTable` of `net/http`: the bytes of an HTTP token. -/
def isToken (c : Char) : Bool :=
  let n := byteVal c
  decide (0x30 ≤ n ∧ n ≤ 0x39) || decide (0x41 ≤ n ∧ n ≤ 0x5A) || decide (0x61 ≤ n ∧ n ≤ 0x7A)
    || (str "!#$%&*+-.^_|~").contains c || n == 39 || n == 96

/-- Go `textproto.Reader.ReadLine`: the next line without its end of line
(`\n` or `\r\n`) and the input after it; `none` at the end of the input. -/
def readLine : GoString → Option (GoString × GoString)
  | [] => none
  | b =>
    let line := b.takeWhile (fun c => c != '\n')
    let rest := b.drop (line.length + 1)
    if line.length < b.length ∧ line.getLast? = some '\r' then some (line.dropLast, rest)
    else some (line, rest)

/-- Go `strings.Cut(s, sep)` for a one-byte separator. -/
def cut (s : GoString) (sep : Char) : GoString × GoString × Bool :=
  let before := s.takeWhile (fun c => c != sep)
  if before.length < s.length then (before, s.drop (before.length + 1), true)
  else (s, [], false)

/-- The function `parseRequestLine`: method, request URI and protocol of
`GET /index.html HTTP/1.0`. -/
def parseRequestLine (line : GoString) : Option (GoString × GoString × GoString) :=
  match cut line ' ' with
  | (method, rest, ok1) =>
    match cut rest ' ' with
    | (requestURI, proto, ok2) =>
      if ok1 && ok2 then some (method, requestURI, proto) else none

/-- The function `validMethod`: a non-empty token. -/
def validMethod (method : GoString) : Bool := !method.isEmpty && method.all isToken

/-- The function `http.ParseHTTPVersion`: the major and the minor version of
`HTTP/X.Y`, one decimal digit each. -/
def ParseHTTPVersion (vers : GoString) : Option (Nat × Nat) :=
  match vers with
  | ['H', 'T', 'T', 'P', '/', a, '.', b] =>
    if a.isDigit && b.isDigit then some (a.toNat - 48, b.toNat - 48) else none
  | _ => none

/-- A hexadecimal digit (`ishex` of `net/url`). -/
def ishex (c : Char) : Bool :=
  c.isDigit || decide ('a' ≤ c ∧ c ≤ 'f') || decide ('A' ≤ c ∧ c ≤ 'F')

/-- The first pass of `unescape` of `net/url` on a path: every `%` is
followed by two hexadecimal digits. -/
def validEscapes : GoString → Bool
  | [] => true
  | '%' :: a :: b :: rest => ishex a && ishex b && validEscapes rest
  | '%' :: _ => false
  | _ :: rest => validEscapes rest

/-- The loop of `getScheme` of `net/url` at position `i`: the scheme before
the first colon and what follows the colon, the empty scheme and `rawurl` when
a byte that no scheme holds comes first, `none` for a colon at the start
(`missing protocol scheme`). -/
def getSchemeLoop (rawurl : GoString) : Nat → GoString → Option (GoString × GoString)
  | _, [] => some ([], rawurl)
  | i, c :: rest =>
    if c.isAlpha then getSchemeLoop rawurl (i + 1) rest
    else if c.isDigit || c == '+' || c == '-' || c == '.' then
      if i = 0 then some ([], rawurl) else getSchemeLoop rawurl (i + 1) rest
    else if c == ':' then
      if i = 0 then none else some (rawurl.take i, rest)
    else some ([], rawurl)

/-- The function `getScheme` of `net/url`. -/
def getScheme (rawurl : GoString) : Option (GoString × GoString) := getSchemeLoop rawurl 0 rawurl

/-- The function `validOptionalPort` of `net/url`: empty, or a colon and
decimal digits. -/
def validOptionalPort (port : GoString) : Bool :=
  match port with
  | [] => true
  | c :: digits => c == ':' && digits.all Char.isDigit

/-- An unreserved byte of a URL: a letter, a digit, `-`, `_`, `.` or `~`. -/
def isUnreserved (c : Char) : Bool :=
  c.isAlphanum || c == '-' || c == '_' || c == '.' || c == '~'

/-- The function `parseAuthority` of `net/url` on an authority that is a host
of unreserved bytes with an optional port: the host with its port. An
authority with user information, an IP literal in brackets, a percent-escape
or another byte is not modelled (`none`). -/
def parseAuthorityHost (authority : GoString) : Option GoString :=
  let host := authority.takeWhile (fun c => c != ':')
  if host.all isUnreserved && validOptionalPort (authority.drop host.length) then some authority
  else none

/-- Go `url.ParseRequestURI`, as far as `ReadRequest` needs it: the host of
the URL. It is empty for the target `*`, for a target in origin-form and for
a target with a scheme and no authority; for a target in absolute-form it is
the authority. `none` for an invalid target (empty, a control byte, a colon at
the start, neither a scheme nor a leading `/`, a bad escape in the path) and
for an authority that is not modelled. -/
def parseRequestURIHost (rawurl : GoString) : Option GoString :=
  if rawurl.any (fun c => decide (byteVal c < 0x20) || byteVal c == 0x7f) then none
  else if rawurl = [] then none
  else if rawurl = ['*'] then some []
  else
    match getScheme rawurl with
    | none => none
    | some (scheme, rest0) =>
      let rest := (cut rest0 '?').1
      if rest.head? ≠ some '/' then
        if scheme ≠ [] then some [] else none
      else if scheme ≠ [] ∧ rest.take 2 = ['/', '/'] then
        match parseAuthorityHost ((rest.drop 2).takeWhile (fun c => c != '/')) with
        | none => none
        | some host =>
          if validEscapes ((rest.drop 2).dropWhile (fun c => c != '/')) then some host else none
      else if validEscapes rest then some [] else none

/-- The function `validHeaderValueByte` of `net/textproto`. -/
def validHeaderValueByte (c : Char) : Bool :=
  let n := byteVal c
  n == 0x09 || decide (0x20 ≤ n ∧ n ≤ 0x7e) || decide (0x80 ≤ n)

/-- The function `trim` of `net/textproto`: without leading and trailing
spaces and tabs. -/
def trim (s : GoString) : GoString :=
  ((s.dropWhile (fun c => c == ' ' || c == '\t')).reverse.dropWhile
    (fun c => c == ' ' || c == '\t')).reverse

/-- The canonical form of a header key that is a token: upper case at the
start and after each dash, lower case elsewhere (the second loop of
`canonicalMIMEHeaderKey` of `net/textproto`). -/
def canonicalKey : Bool → GoString → GoString
  | _, [] => []
  | upper, c :: rest =>
    let c1 := if upper then c.toUpper else c.toLower
    c1 :: canonicalKey (c == '-') rest

/-- The function `canonicalMIMEHeaderKey` of `net/textproto` on the bytes
before the colon of a header line: a key of token bytes in its canonical
form; a key with a space among token bytes as it stands; `none` (the result
`ok == false`) for a key with any other byte. -/
def canonicalMIMEHeaderKey (a : GoString) : Option GoString :=
  if a.all (fun c => isToken c || c == ' ') then
    if a.any (fun c => c == ' ') then some a else some (canonicalKey true a)
  else none

/-- Go `textproto.CanonicalMIMEHeaderKey` (and `http.CanonicalHeaderKey`): the
canonical form of a key of token bytes, any other string unchanged. -/
def CanonicalHeaderKey (s : GoString) : GoString :=
  if s.all isToken then canonicalKey true s else s

/-- Adding a value under a key of a header map kept as an association list. -/
def headerAdd (h : List (GoString × List GoString)) (key value : GoString) :
    List (GoString × List GoString) :=
  match h with
  | [] => [(key, [value])]
  | (k, vs) :: rest =>
    if k = key then (k, vs ++ [value]) :: rest else (k, vs) :: headerAdd rest key value

/-- The lookup `h[key]` of a header map. -/
def headerGet (h : List (GoString × List GoString)) (key : GoString) : List GoString :=
  match h with
  | [] => []
  | (k, vs) :: rest => if k = key then vs else headerGet rest key

/-- The loop `for r.skipSpace() > 0` of `readContinuedLineSlice`: every
following line that starts with a space or a tab is a continuation; its
leading blanks are skipped, and it is appended to `buf` after one space,
trimmed. The result is the logical line and the input after it. -/
def readContinued : Nat → GoString → GoString → GoString × GoString
  | 0, buf, rest => (buf, rest)
  | fuel + 1, buf, rest =>
    if rest.head? = some ' ' ∨ rest.head? = some '\t' then
      match readLine (rest.dropWhile (fun c => c == ' ' || c == '\t')) with
      | none => (buf ++ [' '], [])
      | some (line, rest1) => readContinued fuel (buf ++ ' ' :: trim line) rest1
    else (buf, rest)

/-- The loop of `readMIMEHeader` of `net/textproto`, on at most `fuel` header
lines: the header map read up to the blank line; `none` for a line without a
colon, a key or a value with an invalid byte, and when the input ends before
the blank line. A line with an empty key is skipped. -/
def readMIMEHeader : Nat → GoString → List (GoString × List GoString) →
    Option (List (GoString × List GoString))
  | 0, _, _ => none
  | fuel + 1, b, m =>
    match readLine b with
    | none => none
    | some (line, rest) =>
      if line.isEmpty then some m
      else if !line.contains ':' then none
      else
        match readContinued rest.length (trim line) rest with
        | (kv, rest1) =>
          if kv.isEmpty then some m
          else
            match cut kv ':' with
            | (k, v, ok) =>
              if !ok then none
              else
                match canonicalMIMEHeaderKey k with
                | none => none
                | some key =>
                  if !v.all validHeaderValueByte then none
                  else if key.isEmpty then readMIMEHeader fuel rest1 m
                  else
                    readMIMEHeader fuel rest1
                      (headerAdd m key (v.dropWhile (fun c => c == ' ' || c == '\t')))

/-- Go `textproto.Reader.ReadMIMEHeader`: the first line must not start with
a space or a tab. -/
def ReadMIMEHeader (b : GoString) : Option (List (GoString × List GoString)) :=
  if b.head? = some ' ' ∨ b.head? = some '\t' then none else readMIMEHeader b.length b []

/-- The function `isASCIISpace` of `net/textproto`. -/
def isASCIISpace (c : Char) : Bool := c == ' ' || c == '\t' || c == '\n' || c == '\r'

/-- Go `textproto.TrimString`: without leading and trailing ASCII space. -/
def TrimString (s : GoString) : GoString :=
  ((s.dropWhile isASCIISpace).reverse.dropWhile isASCIISpace).reverse

/-- The function `ascii.EqualFold` of `net/http/internal/ascii`: equality up to
the case of ASCII letters. -/
def EqualFold (s t : GoString) : Bool := s.map Char.toLower == t.map Char.toLower

/-- Go `strconv.ParseUint(s, 10, 63)`: a non-empty string of decimal digits
with a value below `2^63`. -/
def ParseUint (s : GoString) : Option Nat :=
  if s.isEmpty || !s.all Char.isDigit then none
  else
    let n := s.foldl (fun n c => 10 * n + (c.toNat - 48)) 0
    if n < 2 ^ 63 then some n else none

/-- The function `parseContentLength` of `net/http`: the value of the first
`Content-Length` header, `-1` without one, `none` for an empty or invalid
value. -/
def parseContentLength (clHeaders : List GoString) : Option Int :=
  match clHeaders with
  | [] => some (-1)
  | cl0 :: _ =>
    if (TrimString cl0).isEmpty then none
    else (ParseUint (TrimString cl0)).map Int.ofNat

/-- The elements `foreachHeaderElement` of `net/http` calls its function on:
the non-empty trimmed pieces of `v` between commas. -/
def headerElements (v : GoString) : List GoString :=
  (((TrimString v).splitOn ',').map TrimString).filter (fun f => !f.isEmpty)

/-- The test of `fixTrailer` on one key of a `Trailer` header. -/
def badTrailerKey (key : GoString) : Bool :=
  CanonicalHeaderKey key == str "Transfer-Encoding" || CanonicalHeaderKey key == str "Trailer"
    || CanonicalHeaderKey key == str "Content-Length"

/-- The checks of `readTransfer` on a request of version `major.minor` with
the `Transfer-Encoding` headers `te`, the `Content-Length` headers `cl` and
the `Trailer` headers `trailer`: `true` when it reports no error.
`parseTransferEncoding` ignores `Transfer-Encoding` below HTTP/1.1 and
otherwise accepts a single value equal to `chunked`; `fixLength` rejects
`Content-Length` headers that differ and a value `parseContentLength` rejects;
`fixTrailer` rejects the trailer keys `Transfer-Encoding`, `Trailer` and
`Content-Length` of a chunked request. -/
def readTransfer (major minor : Nat) (te cl trailer : List GoString) : Bool :=
  let atLeast11 : Bool :=
    if major = 0 ∧ minor = 0 then true else decide (major > 1 ∨ (major = 1 ∧ minor ≥ 1))
  if !te.isEmpty && atLeast11 && !(te.length == 1 && EqualFold (te.headD []) (str "chunked")) then
    false
  else if decide (cl.length > 1) &&
      cl.tail.any (fun ct => TrimString ct != TrimString (cl.headD [])) then false
  else if (parseContentLength cl).isNone then false
  else if !te.isEmpty && atLeast11 &&
      trailer.any (fun v => (headerElements v).any badTrailerKey) then false
  else true

/-- The model of `http.ReadRequest(bufio.NewReader(bytes.NewReader(b)))`. More
than one `Host` header is the error `too many Host headers`; `req.Host` is
the host of the URL and, when that is empty (as for a target in origin-form),
the `Host` header; `ReadRequest` deletes the `Host` header from `req.Header`.
The target of a CONNECT request that does not start with `/` is parsed as
the authority of a URL. `Header` is the
lookup in the map `ReadMIMEHeader` returned, without `Host`; the entries
`readTransfer` removes from the map are not removed here, `httpHostHeader`
reads `Header["Host"]` only. -/
def ReadRequest (b : GoString) : Option Request :=
  match readLine b with
  | none => none
  | some (line, rest) =>
    match parseRequestLine line with
    | none => none
    | some (method, requestURI, proto) =>
      if !validMethod method then none
      else
        match ParseHTTPVersion proto with
        | none => none
        | some (major, minor) =>
          match parseRequestURIHost
              (if method = str "CONNECT" ∧ requestURI.head? ≠ some '/' then
                str "http://" ++ requestURI else requestURI) with
          | none => none
          | some urlHost =>
            match ReadMIMEHeader rest with
            | none => none
            | some header =>
              if (headerGet header (str "Host")).length > 1 then none
              else if !readTransfer major minor (headerGet header (str "Transfer-Encoding"))
                  (headerGet header (str "Content-Length")) (headerGet header (str "Trailer")) then
                none
              else
                some {
                  Host := if urlHost = [] then (headerGet header (str "Host")).headD []
                    else urlHost
                  Header := fun key => if key = str "Host" then [] else headerGet header key }

end http

/-! ## Well-formed request heads -/

/-- A space or a tab. -/
def isBlank (c : Char) : Bool := c == ' ' || c == '\t'

/-- The end of a line of a request head: `\r\n`, or the bare `\n` that
`net/textproto` reads as well and `httpHostHeader` looks for as well. -/
def LineEnd (eol : GoString) : Prop := eol = crlf ∨ eol = lf

instance (eol : GoString) : Decidable (LineEnd eol) := by
  unfold LineEnd
  infer_instance

/-- A header line with its end of line: the name, a colon, and the text
after the colon, which is the value with the optional blanks around it. -/
def headerLine (eol : GoString) (kv : GoString × GoString) : GoString :=
  kv.1 ++ str ":" ++ kv.2 ++ eol

/-- The lines of a header block, one per header. -/
def headerBlock (eol : GoString) (headers : List (GoString × GoString)) : GoString :=
  (headers.map (headerLine eol)).flatten

/-- A request head: the request line `method target HTTP/1.x`, the header
lines and the blank line, all ended by `eol`. A header is a name and the text
after the colon. -/
def requestHead (eol method target : GoString) (minor : Char)
    (headers : List (GoString × GoString)) : GoString :=
  method ++ str " " ++ target ++ str " HTTP/1." ++ [minor] ++ eol ++ headerBlock eol headers ++ eol

/-- The value of a header: the text after the colon without the blanks at
its end and at its start. -/
def fieldValue (raw : GoString) : GoString :=
  (raw.reverse.dropWhile isBlank).reverse.dropWhile isBlank

/-- The values of the headers of a head with a given name, in order; header
names are compared in their canonical form, so `host` and `HOST` count for
`Host`. -/
def fieldValues (name : GoString) (headers : List (GoString × GoString)) : List GoString :=
  (headers.filter (fun kv => http.canonicalKey true kv.1 = name)).map (fun kv => fieldValue kv.2)

/-- The values of the `Host` headers of a head, in order. -/
def hostValues (headers : List (GoString × GoString)) : List GoString :=
  fieldValues (str "Host") headers

/-- A well-formed header: the name is a token, and the text after the colon
consists of visible bytes, spaces and tabs (it may be empty, and it may start
and end with blanks). -/
def WellFormedHeader (kv : GoString × GoString) : Prop :=
  kv.1 ≠ [] ∧ (∀ c ∈ kv.1, http.isToken c = true) ∧
  (∀ c ∈ kv.2, http.validHeaderValueByte c = true)

instance (kv : GoString × GoString) : Decidable (WellFormedHeader kv) := by
  unfold WellFormedHeader
  infer_instance

/-- The lines of a well-formed HTTP/1.x request head with a target in
origin-form: the method is a token that starts with an upper-case letter (as
GET, POST and the other registered methods do), the target starts with `/`,
consists of visible ASCII bytes and has valid percent-escapes in its path, the
minor version is a digit, and every header is well-formed. -/
def WellFormedLines (method target : GoString) (minor : Char)
    (headers : List (GoString × GoString)) : Prop :=
  (∃ c t, method = c :: t ∧ 'A' ≤ c ∧ c ≤ 'Z') ∧ (∀ c ∈ method, http.isToken c = true) ∧
  target.head? = some '/' ∧ (∀ c ∈ target, 0x21 ≤ byteVal c ∧ byteVal c ≤ 0x7e) ∧
  http.validEscapes (http.cut target '?').1 = true ∧
  minor.isDigit = true ∧
  ∀ kv ∈ headers, WellFormedHeader kv

instance (method target : GoString) (minor : Char) (headers : List (GoString × GoString)) :
    Decidable (WellFormedLines method target minor headers) := by
  unfold WellFormedLines
  have h1 : Decidable (∃ c t, method = c :: t ∧ 'A' ≤ c ∧ c ≤ 'Z') := by
    cases method with
    | nil => exact isFalse (fun ⟨_, _, h, _⟩ => by cases h)
    | cons a b =>
      exact decidable_of_iff ('A' ≤ a ∧ a ≤ 'Z')
        ⟨fun h => ⟨a, b, rfl, h⟩, fun ⟨_, _, h, hc⟩ => by cases h; exact hc⟩
  infer_instance

/-- The headers that govern the body of an HTTP/1.x request are ones
`net/http` accepts: on HTTP/1.1 and later a `Transfer-Encoding` is a single
header with the value `chunked`; the `Content-Length` headers, if any, all
carry the same decimal number below `2^63`; the `Trailer` headers of a chunked
request name none of `Transfer-Encoding`, `Trailer` and `Content-Length`. -/
def FramingAccepted (minor : Char) (headers : List (GoString × GoString)) : Prop :=
  http.readTransfer 1 (minor.toNat - 48) (fieldValues (str "Transfer-Encoding") headers)
    (fieldValues (str "Content-Length") headers) (fieldValues (str "Trailer") headers) = true

instance (minor : Char) (headers : List (GoString × GoString)) :
    Decidable (FramingAccepted minor headers) := by
  unfold FramingAccepted
  infer_instance

/-- A well-formed HTTP/1.x request head with a target in origin-form: its
lines are well-formed, and the headers that govern the body are ones
`net/http` accepts. -/
def WellFormedHead (method target : GoString) (minor : Char)
    (headers : List (GoString × GoString)) : Prop :=
  WellFormedLines method target minor headers ∧ FramingAccepted minor headers

instance (method target : GoString) (minor : Char) (headers : List (GoString × GoString)) :
    Decidable (WellFormedHead method target minor headers) := by
  unfold WellFormedHead
  infer_instance

/-! ## The reference for the line scan -/

/-- The bytes of `b` after the first occurrence of `key` in `b`; `none` when
`b` does not contain `key`. -/
def afterFirst (key : GoString) : GoString → Option GoString
  | [] => if key = [] then some [] else none
  | c :: s => if key <+: c :: s then some ((c :: s).drop key.length) else afterFirst key s

/-- The reference of the specification for the line scan: the bytes after
the first `\nHost:`, or else after the first `\nhost:`, up to but not
including the next `\n` (or to the end), with surrounding white space trimmed;
the empty string when neither occurs. -/
def hostLineReference (b : GoString) : GoString :=
  match afterFirst (str "\nHost:") b with
  | some v => TrimSpace (v.takeWhile (fun c => c != '\n'))
  | none =>
    match afterFirst (str "\nhost:") b with
    | some v => TrimSpace (v.takeWhile (fun c => c != '\n'))
    | none => str ""

/-- The table `asciiSpace` of package `bytes`: the ASCII white space bytes
`\t`, `\n`, `\v`, `\f`, `\r` and the blank. -/
def asciiSpace (c : Char) : Bool :=
  c == '\t' || c == '\n' || c == '\x0b' || c == '\x0c' || c == '\r' || c == ' '

/-! ## The slices examined by `httpHostHeader` -/

/-- The byte slice `b` that an iteration of the loop of `httpHostHeader`
examines, from the value of `peekSize` and the state of `br` at its start:
past `maxPeek` the slice handed to `httpHostHeaderFromBytes`, otherwise the
slice that is tested for its first byte, searched for the end of the header
block, parsed or line-scanned. -/
def httpHostHeaderWindow (peekSize : Nat) (br : Reader) : GoString :=
  let peekSize := peekSize + 1
  if peekSize > maxPeek then (br.Peek br.Buffered).1
  else
    match br.Peek peekSize with
    | (b, _, br) => if br.Buffered > peekSize then (br.Peek br.Buffered).1 else b

/-- The slices `b` of the iterations of the loop of `httpHostHeader`, in
order, for at most `fuel` iterations. -/
def httpHostHeaderWindows (ReadRequest : GoString → Option Request) :
    Nat → Nat → Reader → List GoString
  | 0, _, _ => []
  | fuel + 1, peekSize, br =>
    httpHostHeaderWindow peekSize br ::
      match httpHostHeaderStep ReadRequest peekSize br with
      | Step.ret _ _ => []
      | Step.next peekSize br => httpHostHeaderWindows ReadRequest fuel peekSize br

/-- The number of bytes a list of reads delivers. -/
def eventBytes (events : List ReadEvent) : Nat := (events.map (fun ev => ev.data.length)).sum

/-- Two readers in the same state over streams whose next reads are the
same until the buffer is full. -/
def Reader.Agree (b1 b2 : Reader) : Prop :=
  b1.size = b2.size ∧ b1.r = b2.r ∧ b1.data = b2.data ∧ b1.err = b2.err ∧
    ∃ pre rest1 rest2, b1.rd.events = pre ++ rest1 ∧ b2.rd.events = pre ++ rest2 ∧
      b1.size ≤ b1.data.length + eventBytes pre

/-! ## What a stream delivers before it ends -/

/-- The bytes a buffered reader gets from a stream before the stream ends or
a read fails: the bytes of the reads up to and including the first read that
returns an error. A read that returns neither a byte nor an error delivers
nothing, and after `maxConsecutiveEmptyReads` such reads in a row `fill` gives
up with `io.ErrNoProgress`: what the stream holds after that is not delivered.
The argument `i` counts the reads `fill` has left; the count starts anew after
a read that returns bytes. -/
def deliveredBytes : Nat → List ReadEvent → GoString
  | 0, _ => []
  | _ + 1, [] => []
  | i + 1, ev :: rest =>
    if ev.err ≠ none then ev.data
    else if ev.data.length > 0 then ev.data ++ deliveredBytes maxConsecutiveEmptyReads rest
    else deliveredBytes i rest

/-- The bytes a stream delivers before it ends or a read fails. -/
def Source.delivered (rd : Source) : GoString :=
  deliveredBytes maxConsecutiveEmptyReads rd.events

/-- A reader on its way to deliver the bytes `D`: without a pending error,
the buffered bytes and those the stream delivers before it ends or a read
fails make up `D`; with a pending error, `D` is buffered. -/
def Reader.Delivers (b : Reader) (D : GoString) : Prop :=
  (b.err = none ∧ b.data ++ b.rd.delivered = D) ∨ (b.err ≠ none ∧ b.data = D)

/-- A stream that ends at once. -/
def emptyStream : Source := { events := [], final := Error.EOF }

/-- A stream that delivers a request line and a Host header line in two
reads, the second one together with a read error. -/
def brokenStream : Source :=
  { events := [{ data := str "GET / HTTP/1.1\r\nHo", err := none },
               { data := str "st: foo\r\n", err := some (Error.other 1) }],
    final := Error.EOF }

/-- A stream whose first `n` reads return neither a byte nor an error, before
it delivers a request line and a Host header line. -/
def stalledStream (n : Nat) : Source :=
  { events := List.replicate n { data := [], err := none } ++
      [{ data := str "GET / HTTP/1.1\r\nHost: foo\r\n", err := none }],
    final := Error.EOF }

/-- A request line with a request target of 4101 bytes. -/
def longRequestLine : GoString := str "GET /" ++ List.replicate 4100 'a' ++ str " HTTP/1.1"

/-! ## Lemmas on the string functions -/

theorem HasPrefix_iff (s pfx : GoString) : HasPrefix s pfx = true ↔ pfx <+: s := by
  unfold HasPrefix
  simp only [Bool.and_eq_true, decide_eq_true_eq, beq_iff_eq]
  constructor
  · rintro ⟨_, h⟩
    exact h ▸ List.take_prefix _ _
  · rintro ⟨t, rfl⟩
    simp

theorem HasSuffix_iff (s suffix : GoString) : HasSuffix s suffix = true ↔ suffix <:+ s := by
  unfold HasSuffix
  simp only [Bool.and_eq_true, decide_eq_true_eq, beq_iff_eq]
  constructor
  · rintro ⟨_, h⟩
    exact h ▸ List.drop_suffix _ _
  · rintro ⟨t, rfl⟩
    simp

theorem Index_ge (s sep : GoString) : -1 ≤ Index s sep := by
  induction s with
  | nil => unfold Index; split <;> simp
  | cons c s ih =>
    unfold Index
    split
    · simp
    · simp only
      split <;> omega

/-- `Index` finds nothing exactly when no suffix of `s` starts with `sep`. -/
theorem Index_eq_neg_one_iff (s sep : GoString) :
    Index s sep = -1 ↔ ¬ sep <:+: s := by
  induction s with
  | nil =>
    unfold Index
    cases sep with
    | nil => simp
    | cons a t => simp
  | cons c s ih =>
    unfold Index
    by_cases hp : HasPrefix (c :: s) sep = true
    · simp only [hp, if_true]
      have := (HasPrefix_iff _ _).1 hp
      simp [this.isInfix]
    · simp only [hp]
      have hnp : ¬ sep <+: c :: s := fun h => hp ((HasPrefix_iff _ _).2 h)
      have hge := Index_ge s sep
      rw [List.infix_cons_iff]
      by_cases hi : Index s sep = -1
      · simp only [hi, if_true, true_iff]
        rw [ih] at hi
        tauto
      · have hi2 : sep <:+: s := by
          by_contra h
          exact hi (ih.2 h)
        simp only [hi, if_false]
        constructor
        · intro h; omega
        · intro h; exact absurd (Or.inr hi2) h

theorem single_char_found (s : GoString) (c : Char) : [c] <:+: s ↔ c ∈ s := by
  constructor
  · rintro ⟨a, b, rfl⟩
    simp
  · intro h
    obtain ⟨a, b, rfl⟩ := List.append_of_mem h
    exact ⟨a, b, by simp⟩

theorem Contains_singleton (s : GoString) (c : Char) :
    Contains s [c] = true ↔ c ∈ s := by
  unfold Contains
  have h := Index_eq_neg_one_iff s [c]
  have hge := Index_ge s [c]
  simp only [decide_eq_true_eq]
  rw [single_char_found] at h
  constructor
  · intro h1
    by_contra hc
    have := h.2 hc
    omega
  · intro hc
    by_contra h1
    have : Index s [c] = -1 := by omega
    exact (h.1 this) hc

theorem TrimLeft_dot (s : GoString) : TrimLeft s (str ".") = s.dropWhile (fun c => c == '.') := by
  unfold TrimLeft
  congr 1
  funext c
  by_cases h : c = '.' <;> simp [str, List.contains, h]

/-! ## The suffix matcher -/

theorem hasSuffix_eq (s h : GoString) (t : Option Target) :
    (newSuffixMatcher s t).hasSuffix h =
      if str "." ++ s.dropWhile (fun c => c == '.') <:+ h then
        let p := h.take (h.length - (str "." ++ s.dropWhile (fun c => c == '.')).length)
        if p = [] ∨ '.' ∈ p then (false, []) else (true, p)
      else (false, []) := by
  unfold suffixMatcher.hasSuffix newSuffixMatcher
  simp only [TrimLeft_dot]
  have e1 : str "." = ['.'] := rfl
  have e0 : str "" = [] := rfl
  rw [e1, e0]
  by_cases hs : HasSuffix h (['.'] ++ s.dropWhile (fun c => c == '.')) = true
  · have hs2 := (HasSuffix_iff _ _).1 hs
    simp only [hs, hs2, if_true]
    generalize h.take (h.length - (['.'] ++ s.dropWhile (fun c => c == '.')).length) = p
    have hc := Contains_singleton p '.'
    by_cases h1 : p = []
    · subst h1; simp
    · by_cases h2 : '.' ∈ p
      · have := hc.2 h2
        simp [h2, this]
      · have h3 : Contains p ['.'] = false := by
          cases hb : Contains p ['.']
          · rfl
          · exact absurd (hc.1 hb) h2
        simp [h1, h2, h3]
  · have hs2 : ¬ ['.'] ++ s.dropWhile (fun c => c == '.') <:+ h :=
      fun hh => hs ((HasSuffix_iff _ _).2 hh)
    rw [if_neg hs, if_neg hs2]

theorem hasSuffix_true_iff (s h p : GoString) (t : Option Target) :
    (newSuffixMatcher s t).hasSuffix h = (true, p) ↔
      (h = p ++ str "." ++ s.dropWhile (fun c => c == '.') ∧ p ≠ [] ∧ '.' ∉ p) := by
  rw [hasSuffix_eq]
  constructor
  · intro hh
    split at hh
    · rename_i hsuf
      simp only at hh
      split at hh
      · simp at hh
      · rename_i hp
        simp only [Prod.mk.injEq, true_and] at hh
        obtain ⟨q, hq⟩ := hsuf
        have hq2 : q = p := by
          rw [← hh, ← hq]
          simp
        subst hq2
        refine ⟨by rw [← hq, List.append_assoc], ?_, ?_⟩
        · intro h0; exact hp (Or.inl (by rw [hh]; exact h0))
        · intro h0; exact hp (Or.inr (by rw [hh]; exact h0))
    · simp at hh
  · rintro ⟨rfl, hne, hdot⟩
    have hsuf : str "." ++ s.dropWhile (fun c => c == '.') <:+
        p ++ str "." ++ s.dropWhile (fun c => c == '.') :=
      ⟨p, by rw [List.append_assoc]⟩
    have htake : (p ++ str "." ++ s.dropWhile (fun c => c == '.')).take
        ((p ++ str "." ++ s.dropWhile (fun c => c == '.')).length -
          (str "." ++ s.dropWhile (fun c => c == '.')).length) = p := by
      rw [List.append_assoc]
      simp
    simp only [hsuf, if_true, htake]
    simp [hne, hdot]

theorem hasSuffix_false_or (s h : GoString) (t : Option Target) :
    (newSuffixMatcher s t).hasSuffix h = (false, []) ∨
      ∃ p, (newSuffixMatcher s t).hasSuffix h = (true, p) := by
  rw [hasSuffix_eq]
  split
  · simp only
    split
    · exact Or.inl rfl
    · exact Or.inr ⟨_, rfl⟩
  · exact Or.inl rfl

/-- C1. For every suffix `s` and hostname `h`, the matcher built by
`newSuffixMatcher s _` answers `hasSuffix h = (true, p)` exactly when
`h = p ++ "." ++ s'` with `s'` the suffix without its leading dots, `p`
non-empty and free of dots; in every other case it answers `(false, "")`.
The suffixes `localhost` and `.localhost` give the same answer on every
hostname, `foo.localhost` matches with subdomain `foo`, and
`foo.bar.localhost` and `localhost` do not match. -/
theorem suffix_matcher_contract :
    (∀ (s h : GoString) (t : Option Target),
      (∀ p, (newSuffixMatcher s t).hasSuffix h = (true, p) ↔
        (h = p ++ str "." ++ s.dropWhile (fun c => c == '.') ∧ p ≠ [] ∧ '.' ∉ p)) ∧
      ((¬ ∃ p, h = p ++ str "." ++ s.dropWhile (fun c => c == '.') ∧ p ≠ [] ∧ '.' ∉ p) →
        (newSuffixMatcher s t).hasSuffix h = (false, str ""))) ∧
    (∀ (h : GoString) (t : Option Target),
      (newSuffixMatcher (str "localhost") t).hasSuffix h =
        (newSuffixMatcher (str ".localhost") t).hasSuffix h) ∧
    (newSuffixMatcher (str ".localhost") none).hasSuffix (str "foo.localhost")
      = (true, str "foo") ∧
    (newSuffixMatcher (str ".localhost") none).hasSuffix (str "foo.bar.localhost")
      = (false, str "") ∧
    (newSuffixMatcher (str ".localhost") none).hasSuffix (str "localhost")
      = (false, str "") := by
  refine ⟨fun s h t => ⟨fun p => hasSuffix_true_iff s h p t, fun hno => ?_⟩,
    fun h t => ?_, by decide, by decide, by decide⟩
  · rcases hasSuffix_false_or s h t with h0 | ⟨p, hp⟩
    · exact h0
    · exact absurd ⟨p, (hasSuffix_true_iff s h p t).1 hp⟩ hno
  · rw [hasSuffix_eq, hasSuffix_eq]
    rfl

/-! ## The buffered reader -/

theorem Source.Read_pending (rd : Source) (max : Nat) :
    (rd.Read max).1 ++ (((rd.Read max).2.2).events.map (fun ev => ev.data)).flatten
      = (rd.events.map (fun ev => ev.data)).flatten := by
  unfold Source.Read
  cases h : rd.events with
  | nil => simp [h]
  | cons ev rest =>
    simp only
    split
    · simp
    · simp [← List.append_assoc, List.take_append_drop]

theorem Source.Read_length (rd : Source) (max : Nat) : (rd.Read max).1.length ≤ max := by
  unfold Source.Read
  cases h : rd.events with
  | nil => simp
  | cons ev rest =>
    simp only
    split
    · assumption
    · simp

theorem Source.Read_final (rd : Source) (max : Nat) : ((rd.Read max).2.2).final = rd.final := by
  unfold Source.Read
  cases h : rd.events with
  | nil => simp
  | cons ev rest =>
    simp only
    split <;> rfl

theorem Reader.fillRead_pending (i : Nat) (b : Reader) :
    (Reader.fillRead i b).pending = b.pending := by
  induction i generalizing b with
  | zero => rfl
  | succ i ih =>
    unfold Reader.fillRead
    have hp := Source.Read_pending b.rd (b.size - (b.r + b.data.length))
    rcases hr : b.rd.Read (b.size - (b.r + b.data.length)) with ⟨bytes, err, rd⟩
    rw [hr] at hp
    simp only at hp
    have hbase : ({ b with data := b.data ++ bytes, rd := rd } : Reader).pending = b.pending := by
      simp only [Reader.pending, List.append_assoc, hp]
    cases err with
    | some e => exact hbase
    | none =>
      simp only
      split
      · exact hbase
      · rw [ih]; exact hbase

theorem Reader.fillRead_size (i : Nat) (b : Reader) : (Reader.fillRead i b).size = b.size := by
  induction i generalizing b with
  | zero => rfl
  | succ i ih =>
    unfold Reader.fillRead
    rcases hr : b.rd.Read (b.size - (b.r + b.data.length)) with ⟨bytes, err, rd⟩
    cases err with
    | some e => rfl
    | none =>
      simp only
      split
      · rfl
      · rw [ih]

theorem Reader.fillRead_r (i : Nat) (b : Reader) : (Reader.fillRead i b).r = b.r := by
  induction i generalizing b with
  | zero => rfl
  | succ i ih =>
    unfold Reader.fillRead
    rcases hr : b.rd.Read (b.size - (b.r + b.data.length)) with ⟨bytes, err, rd⟩
    cases err with
    | some e => rfl
    | none =>
      simp only
      split
      · rfl
      · rw [ih]

/-- The read loop of `fill` buffers a byte or sets the error. -/
theorem Reader.fillRead_progress (i : Nat) (b : Reader) (hfree : b.r + b.data.length < b.size) :
    (Reader.fillRead i b).err ≠ none ∨ b.data.length < (Reader.fillRead i b).data.length := by
  induction i generalizing b with
  | zero => left; simp [Reader.fillRead]
  | succ i ih =>
    unfold Reader.fillRead
    rcases hr : b.rd.Read (b.size - (b.r + b.data.length)) with ⟨bytes, err, rd⟩
    cases err with
    | some e => left; simp
    | none =>
      simp only
      split
      · right; simp; omega
      · rename_i hb
        have hb0 : bytes = [] := by
          cases bytes with
          | nil => rfl
          | cons c t => simp at hb
        subst hb0
        have := ih { b with data := b.data ++ [], rd := rd } (by simpa using hfree)
        simpa using this

theorem Reader.fill_pending (b : Reader) : b.fill.pending = b.pending := by
  unfold Reader.fill
  rw [Reader.fillRead_pending]
  split <;> rfl

theorem Reader.fill_size (b : Reader) : b.fill.size = b.size := by
  unfold Reader.fill
  rw [Reader.fillRead_size]
  split <;> rfl

theorem Reader.fill_progress (b : Reader) (hfree : b.data.length < b.size) :
    b.fill.err ≠ none ∨ b.data.length < b.fill.data.length := by
  unfold Reader.fill
  by_cases hr : b.r > 0
  · simp only [hr, if_true]
    exact Reader.fillRead_progress _ { b with r := 0 } (by simpa using hfree)
  · simp only [hr, if_false]
    exact Reader.fillRead_progress _ b (by omega)

theorem Reader.peekFill_of_not (n fuel : Nat) (b : Reader)
    (h : ¬ (b.data.length < n ∧ b.data.length < b.size ∧ b.err = none)) :
    Reader.peekFill n fuel b = b := by
  cases fuel with
  | zero => rfl
  | succ fuel => simp only [Reader.peekFill, h, if_false]

theorem Reader.peekFill_pending (n fuel : Nat) (b : Reader) :
    (Reader.peekFill n fuel b).pending = b.pending := by
  induction fuel generalizing b with
  | zero => rfl
  | succ fuel ih =>
    unfold Reader.peekFill
    split
    · rw [ih, Reader.fill_pending]
    · rfl

theorem Reader.peekFill_size (n fuel : Nat) (b : Reader) :
    (Reader.peekFill n fuel b).size = b.size := by
  induction fuel generalizing b with
  | zero => rfl
  | succ fuel ih =>
    unfold Reader.peekFill
    split
    · rw [ih, Reader.fill_size]
    · rfl

/-- The fill loop of `Peek`, given `n` rounds, has come to its end: enough
bytes are buffered, or the buffer is full, or an error is pending. -/
theorem Reader.peekFill_done (n fuel : Nat) (b : Reader) (hf : n ≤ b.data.length + fuel) :
    ¬ ((Reader.peekFill n fuel b).data.length < n ∧
      (Reader.peekFill n fuel b).data.length < (Reader.peekFill n fuel b).size ∧
      (Reader.peekFill n fuel b).err = none) := by
  induction fuel generalizing b with
  | zero =>
    simp only [Reader.peekFill]
    omega
  | succ fuel ih =>
    by_cases hc : b.data.length < n ∧ b.data.length < b.size ∧ b.err = none
    · simp only [Reader.peekFill, hc, and_self, if_true]
      rcases Reader.fill_progress b hc.2.1 with he | hl
      · rw [Reader.peekFill_of_not n fuel b.fill (fun h => he h.2.2)]
        exact fun h => he h.2.2
      · exact ih b.fill (by omega)
    · rw [Reader.peekFill_of_not n _ b hc]
      exact hc

theorem Reader.Peek_eq (b : Reader) (n : Nat) :
    b.Peek n =
      (if n ≤ (Reader.peekFill n n b).size ∧ n ≤ (Reader.peekFill n n b).data.length
        then (Reader.peekFill n n b).data.take n else (Reader.peekFill n n b).data,
       peekErr (Reader.peekFill n n b) n, peekReader (Reader.peekFill n n b) n) := by
  unfold Reader.Peek peekErr peekReader
  simp only
  by_cases h1 : n > (Reader.peekFill n n b).size
  · have : ¬ (n ≤ (Reader.peekFill n n b).size ∧ n ≤ (Reader.peekFill n n b).data.length) := by
      omega
    simp only [h1, this, if_true, if_false]
  · by_cases h2 : (Reader.peekFill n n b).data.length < n
    · have : ¬ (n ≤ (Reader.peekFill n n b).size ∧ n ≤ (Reader.peekFill n n b).data.length) := by
        omega
      simp only [h1, h2, this, if_true, if_false]
    · have : n ≤ (Reader.peekFill n n b).size ∧ n ≤ (Reader.peekFill n n b).data.length := by
        omega
      simp only [h1, h2, this, and_self, if_true, if_false]

/-- Peeking at what is buffered returns the buffer and leaves the reader as it is. -/
theorem Reader.Peek_buffered (b : Reader) :
    (b.Peek b.Buffered).1 = b.data ∧ (b.Peek b.Buffered).2.2 = b := by
  have hf : Reader.peekFill b.data.length b.data.length b = b :=
    Reader.peekFill_of_not _ _ b (by omega)
  rw [Reader.Peek_eq]
  unfold Reader.Buffered
  simp only [hf]
  constructor
  · split
    · exact List.take_length _
    · rfl
  · unfold peekReader
    simp

theorem peekReader_data (b1 : Reader) (p : Nat) : (peekReader b1 p).data = b1.data := by
  unfold peekReader
  split
  · rfl
  · split <;> rfl

theorem peekReader_size (b1 : Reader) (p : Nat) : (peekReader b1 p).size = b1.size := by
  unfold peekReader
  split
  · rfl
  · split <;> rfl

theorem peekReader_pending (b1 : Reader) (p : Nat) : (peekReader b1 p).pending = b1.pending := by
  unfold peekReader
  split
  · rfl
  · split <;> rfl

/-- The loop body in closed form: past `maxPeek` the buffer is line-scanned;
otherwise the fill loop of `Peek` runs and the decision is taken on the whole
buffer. -/
theorem httpHostHeaderStep_eq (rr : GoString → Option Request) (k : Nat) (br : Reader) :
    httpHostHeaderStep rr k br =
      if k + 1 > maxPeek then Step.ret (httpHostHeaderFromBytes br.data) br
      else
        match decideWindow rr (Reader.peekFill (k + 1) (k + 1) br).data
            (peekErr (Reader.peekFill (k + 1) (k + 1) br) (k + 1)) with
        | some h => Step.ret h (peekReader (Reader.peekFill (k + 1) (k + 1) br) (k + 1))
        | none => Step.next (max (k + 1) (Reader.peekFill (k + 1) (k + 1) br).data.length)
            (peekReader (Reader.peekFill (k + 1) (k + 1) br) (k + 1)) := by
  unfold httpHostHeaderStep
  simp only
  by_cases hk : k + 1 > maxPeek
  · simp only [hk, if_true]
    have h := Reader.Peek_buffered br
    rcases hp : br.Peek br.Buffered with ⟨b, e, br1⟩
    rw [hp] at h
    simp only at h
    rw [h.1, h.2]
  · simp only [hk, if_false]
    rw [Reader.Peek_eq]
    generalize Reader.peekFill (k + 1) (k + 1) br = b1
    simp only
    have hw : (if (peekReader b1 (k + 1)).Buffered > k + 1 then
          match (peekReader b1 (k + 1)).Peek (peekReader b1 (k + 1)).Buffered with
          | (b, _, br1) => (b, (peekReader b1 (k + 1)).Buffered, br1)
        else (if k + 1 ≤ b1.size ∧ k + 1 ≤ b1.data.length then b1.data.take (k + 1) else b1.data,
          k + 1, peekReader b1 (k + 1)))
        = (b1.data, max (k + 1) b1.data.length, peekReader b1 (k + 1)) := by
      have hb := Reader.Peek_buffered (peekReader b1 (k + 1))
      by_cases hgt : (peekReader b1 (k + 1)).Buffered > k + 1
      · simp only [hgt, if_true]
        rcases hp : (peekReader b1 (k + 1)).Peek (peekReader b1 (k + 1)).Buffered with ⟨b, e, br1⟩
        rw [hp] at hb
        simp only at hb
        rw [hb.1, hb.2, peekReader_data]
        simp only [Reader.Buffered, peekReader_data] at hgt ⊢
        rw [max_eq_right (by omega)]
      · simp only [hgt, if_false]
        simp only [Reader.Buffered, peekReader_data] at hgt
        rw [max_eq_left (by omega)]
        split
        · rename_i hle
          rw [List.take_of_length_le (by omega)]
        · rfl
    rw [hw]
    simp only
    unfold decideWindow hasTerminator parsedHost
    by_cases c1 : b1.data.length > 0 ∧ (b1.data.headD ' ' < 'A' ∨ b1.data.headD ' ' > 'Z')
    · simp only [c1, and_self, if_true]
    · simp only [c1, if_false]
      by_cases c2 : b1.data.length > 0 ∧ (Index b1.data crlfcrlf ≠ -1 ∨ Index b1.data lflf ≠ -1)
      · have c2b : b1.data.length > 0 ∧
            (decide (Index b1.data crlfcrlf ≠ -1) || decide (Index b1.data lflf ≠ -1)) = true := by
          simpa using c2
        simp only [c2, c2b, and_self, if_true]
        cases rr b1.data with
        | none => rfl
        | some req =>
          simp only
          split <;> rfl
      · have c2b : ¬ (b1.data.length > 0 ∧
            (decide (Index b1.data crlfcrlf ≠ -1) || decide (Index b1.data lflf ≠ -1)) = true) := by
          simpa using c2
        simp only [c2, c2b, if_false]
        split <;> rfl

/-! ## The loop of `httpHostHeader` -/

theorem maxPeek_eq : maxPeek = 4096 := by decide

theorem httpHostHeaderLoop_succ (rr : GoString → Option Request) (fuel k : Nat) (br : Reader) :
    httpHostHeaderLoop rr (fuel + 1) k br =
      if k + 1 > maxPeek then some (httpHostHeaderFromBytes br.data, br)
      else
        match decideWindow rr (Reader.peekFill (k + 1) (k + 1) br).data
            (peekErr (Reader.peekFill (k + 1) (k + 1) br) (k + 1)) with
        | some h => some (h, peekReader (Reader.peekFill (k + 1) (k + 1) br) (k + 1))
        | none => httpHostHeaderLoop rr fuel
            (max (k + 1) (Reader.peekFill (k + 1) (k + 1) br).data.length)
            (peekReader (Reader.peekFill (k + 1) (k + 1) br) (k + 1)) := by
  rw [httpHostHeaderLoop, httpHostHeaderStep_eq]
  by_cases hk : k + 1 > maxPeek
  · simp only [hk, if_true]
  · simp only [hk, if_false]
    cases decideWindow rr (Reader.peekFill (k + 1) (k + 1) br).data
      (peekErr (Reader.peekFill (k + 1) (k + 1) br) (k + 1)) <;> rfl

/-- The loop returns within `maxPeek + 1 - peekSize` iterations. -/
theorem httpHostHeaderLoop_returns (rr : GoString → Option Request) (fuel k : Nat)
    (br : Reader) (hf : maxPeek ≤ k + fuel) :
    ∃ r, httpHostHeaderLoop rr (fuel + 1) k br = some r := by
  induction fuel generalizing k br with
  | zero =>
    rw [httpHostHeaderLoop_succ, if_pos (by omega)]
    exact ⟨_, rfl⟩
  | succ fuel ih =>
    rw [httpHostHeaderLoop_succ]
    split
    · exact ⟨_, rfl⟩
    · split
      · exact ⟨_, rfl⟩
      · exact ih _ _ (by omega)

theorem httpHostHeader_returns (rr : GoString → Option Request) (br : Reader) :
    ∃ r, httpHostHeader rr br = some r :=
  httpHostHeaderLoop_returns rr maxPeek 0 br (by omega)

/-- The loop leaves the bytes the reader has yet to deliver as they are. -/
theorem httpHostHeaderLoop_pending (rr : GoString → Option Request) (fuel k : Nat)
    (br : Reader) (r : GoString × Reader) (h : httpHostHeaderLoop rr fuel k br = some r) :
    r.2.pending = br.pending := by
  induction fuel generalizing k br with
  | zero => simp [httpHostHeaderLoop] at h
  | succ fuel ih =>
    rw [httpHostHeaderLoop_succ] at h
    split at h
    · cases h; rfl
    · split at h
      · cases h
        simp only [peekReader_pending, Reader.peekFill_pending]
      · rw [ih _ _ h, peekReader_pending, Reader.peekFill_pending]

theorem httpHostHeaderFromBytes_nil : httpHostHeaderFromBytes [] = str "" := by decide

/-- C5. For every reader whose stream delivers at least one byte and whose
first byte is not an upper-case ASCII letter, `httpHostHeader` returns the
empty string, whatever bytes follow (and however they arrive). -/
theorem httpHostHeader_first_byte_not_upper (rr : GoString → Option Request) (br : Reader)
    (c : Char) (rest : GoString) (hp : br.pending = c :: rest)
    (hc : ¬ ('A' ≤ c ∧ c ≤ 'Z')) :
    ∃ br1, httpHostHeader rr br = some (str "", br1) := by
  unfold httpHostHeader
  rw [httpHostHeaderLoop_succ, if_neg (by rw [maxPeek_eq]; omega)]
  have hpend : (Reader.peekFill (0 + 1) (0 + 1) br).pending = c :: rest := by
    rw [Reader.peekFill_pending, hp]
  generalize Reader.peekFill (0 + 1) (0 + 1) br = b1 at hpend
  have hdec : decideWindow rr b1.data (peekErr b1 (0 + 1)) = some (str "") := by
    unfold decideWindow
    cases hd : b1.data with
    | nil =>
      have he : peekErr b1 (0 + 1) ≠ none := by
        unfold peekErr
        split
        · simp
        · rw [hd]; simp
      simp [he, httpHostHeaderFromBytes_nil]
    | cons d ds =>
      have hdc : d = c := by
        unfold Reader.pending at hpend
        rw [hd] at hpend
        simp at hpend
        exact hpend.1
      subst hdc
      have hnot : d < 'A' ∨ d > 'Z' := by
        by_contra hcon
        push_neg at hcon
        exact hc ⟨hcon.1, hcon.2⟩
      simp [hnot]
  rw [hdec]
  exact ⟨_, rfl⟩

/-! ## Idempotence on streams that end for good -/

theorem Source.Read_steady (rd : Source) (max : Nat) (h : rd.Steady) :
    ((rd.Read max).2.2).Steady := by
  unfold Source.Read
  cases he : rd.events with
  | nil =>
    simp only
    exact h
  | cons ev rest =>
    have hev : ∀ e ∈ ev :: rest, e.err = none ∧ e.data ≠ [] := he ▸ h
    simp only
    split
    · intro e hmem
      exact hev e (List.mem_cons_of_mem _ hmem)
    · rename_i hlen
      intro e hmem
      simp only [List.mem_cons] at hmem
      rcases hmem with rfl | hmem
      · refine ⟨(hev ev (List.mem_cons_self _ _)).1, ?_⟩
        simp only
        intro h0
        have : (ev.data.drop max).length = 0 := by rw [h0]; rfl
        rw [List.length_drop] at this
        omega
      · exact hev e (List.mem_cons_of_mem _ hmem)

/-- On a steady stream a read into a non-empty slice returns bytes and no
error, or the stream has ended and the read returns only its error. -/
theorem Source.Read_steady_cases (rd : Source) (max : Nat) (h : rd.Steady) (hmax : 0 < max) :
    ((rd.Read max).2.1 = none ∧ (rd.Read max).1 ≠ []) ∨
      (rd.events = [] ∧ rd.Read max = ([], some rd.final, rd)) := by
  unfold Source.Read
  cases he : rd.events with
  | nil => right; simp
  | cons ev rest =>
    have hev := (he ▸ h : ∀ e ∈ ev :: rest, e.err = none ∧ e.data ≠ []) ev
      (List.mem_cons_self _ _)
    left
    simp only
    split
    · exact hev
    · refine ⟨rfl, ?_⟩
      simp only
      intro h0
      have : (ev.data.take max).length = 0 := by rw [h0]; rfl
      rw [List.length_take] at this
      have := List.length_pos.2 hev.2
      omega

theorem Reader.fillRead_steady (i : Nat) (b : Reader) (h : b.rd.Steady) :
    (Reader.fillRead i b).rd.Steady := by
  induction i generalizing b with
  | zero => exact h
  | succ i ih =>
    unfold Reader.fillRead
    have hs := Source.Read_steady b.rd (b.size - (b.r + b.data.length)) h
    rcases hr : b.rd.Read (b.size - (b.r + b.data.length)) with ⟨bytes, err, rd⟩
    rw [hr] at hs
    cases err with
    | some e => exact hs
    | none =>
      simp only
      split
      · exact hs
      · exact ih _ hs

theorem Reader.fillRead_atEnd (i : Nat) (b : Reader) (h : b.rd.Steady) (hi : b.AtEndIfErr)
    (hfree : b.r + b.data.length < b.size) :
    (Reader.fillRead (i + 1) b).AtEndIfErr := by
  unfold Reader.fillRead
  rcases Source.Read_steady_cases b.rd (b.size - (b.r + b.data.length)) h (by omega) with
    ⟨he, hb⟩ | ⟨hev, hread⟩
  · rcases hr : b.rd.Read (b.size - (b.r + b.data.length)) with ⟨bytes, err, rd⟩
    rw [hr] at he hb
    simp only at he hb
    subst he
    have hpos : bytes.length > 0 := List.length_pos.2 hb
    simp only [hpos, if_true]
    intro herr
    have hb0 := hi herr
    have hread : b.rd.Read (b.size - (b.r + b.data.length)) = ([], some b.rd.final, b.rd) := by
      unfold Source.Read
      rw [hb0]
    rw [hread] at hr
    cases hr
  · rw [hread]
    intro _
    exact hev

theorem Reader.fill_steady (b : Reader) (h : b.rd.Steady) : b.fill.rd.Steady := by
  unfold Reader.fill
  apply Reader.fillRead_steady
  split <;> exact h

theorem Reader.fill_atEnd (b : Reader) (h : b.rd.Steady) (hi : b.AtEndIfErr)
    (hfree : b.data.length < b.size) : b.fill.AtEndIfErr := by
  unfold Reader.fill maxConsecutiveEmptyReads
  by_cases hr : b.r > 0
  · simp only [hr, if_true]
    exact Reader.fillRead_atEnd 99 { b with r := 0 } h hi (by simpa using hfree)
  · simp only [hr, if_false]
    exact Reader.fillRead_atEnd 99 b h hi (by omega)

/-- At the end of the stream `fill` buffers nothing and sets the error. -/
theorem Reader.fill_at_end (b : Reader) (hev : b.rd.events = []) :
    b.fill.data = b.data ∧ b.fill.err ≠ none ∧ b.fill.size = b.size
      ∧ b.fill.rd.events = [] := by
  have hread : ∀ max, b.rd.Read max = ([], some b.rd.final, b.rd) := by
    intro max
    unfold Source.Read
    rw [hev]
  unfold Reader.fill maxConsecutiveEmptyReads
  by_cases hr : b.r > 0
  · simp only [hr, if_true]
    unfold Reader.fillRead
    simp only [hread]
    simp [hev]
  · simp only [hr, if_false]
    unfold Reader.fillRead
    simp only [hread]
    simp [hev]

theorem Reader.peekFill_steady (n fuel : Nat) (b : Reader) (h : b.rd.Steady)
    (hi : b.AtEndIfErr) :
    (Reader.peekFill n fuel b).rd.Steady ∧ (Reader.peekFill n fuel b).AtEndIfErr := by
  induction fuel generalizing b with
  | zero => exact ⟨h, hi⟩
  | succ fuel ih =>
    unfold Reader.peekFill
    split
    · rename_i hc
      exact ih b.fill (Reader.fill_steady b h) (Reader.fill_atEnd b h hi hc.2.1)
    · exact ⟨h, hi⟩

theorem decideWindow_of_none_some (rr : GoString → Option Request) (b : GoString)
    (h : GoString) (e : Option Error) (hd : decideWindow rr b none = some h) :
    decideWindow rr b e = some h := by
  unfold decideWindow at hd ⊢
  split at hd
  · rename_i c1; rw [if_pos c1]; exact hd
  · rename_i c1
    rw [if_neg c1]
    split at hd
    · rename_i c2; rw [if_pos c2]; exact hd
    · simp at hd

theorem decideWindow_of_none_none (rr : GoString → Option Request) (b : GoString)
    (e : Option Error) (he : e ≠ none) (hd : decideWindow rr b none = none) :
    decideWindow rr b e = some (httpHostHeaderFromBytes b) := by
  unfold decideWindow at hd ⊢
  split at hd
  · simp at hd
  · rename_i c1
    rw [if_neg c1]
    split at hd
    · simp at hd
    · rename_i c2
      rw [if_neg c2, if_pos he]

theorem decideWindow_err_irrelevant (rr : GoString → Option Request) (b : GoString)
    (e1 e2 : Option Error) (h1 : e1 ≠ none) (h2 : e2 ≠ none) :
    decideWindow rr b e1 = decideWindow rr b e2 := by
  unfold decideWindow
  simp only [h1, h2, ne_eq, not_false_eq_true, if_true]

theorem decideWindow_eq_none (rr : GoString → Option Request) (b : GoString)
    (e : Option Error) (hd : decideWindow rr b e = none) :
    e = none ∧ decideWindow rr b none = none := by
  have he : e = none := by
    by_contra hne
    unfold decideWindow at hd
    split at hd
    · simp at hd
    · split at hd
      · simp at hd
      · simp [hne] at hd
  exact ⟨he, he ▸ hd⟩

theorem peekErr_eq_none (b1 : Reader) (p : Nat) (h : peekErr b1 p = none) :
    p ≤ b1.size ∧ p ≤ b1.data.length ∧ peekReader b1 p = b1 := by
  unfold peekErr at h
  unfold peekReader
  split at h
  · simp at h
  · split at h
    · simp at h
    · rename_i h1 h2
      simp only [h1, h2, if_false]
      exact ⟨by omega, by omega, trivial⟩

/-- What a call of `httpHostHeader` leaves behind on a steady stream: the
value it returned is the decision on the buffer it leaves, and unless the
buffer decides by its first byte or its header block, the reader is stuck. -/
theorem httpHostHeaderLoop_settled (rr : GoString → Option Request) (fuel k : Nat)
    (br : Reader) (r : GoString × Reader) (h : httpHostHeaderLoop rr fuel k br = some r)
    (hk : k ≤ br.data.length) (hk0 : k = 0 ∨ decideWindow rr br.data none = none)
    (hs : br.rd.Steady) (hi : br.AtEndIfErr) :
    decideWindow rr r.2.data (some Error.EOF) = some r.1 ∧
      (decideWindow rr r.2.data none = none → r.2.Stuck) := by
  induction fuel generalizing k br with
  | zero => simp [httpHostHeaderLoop] at h
  | succ fuel ih =>
    rw [httpHostHeaderLoop_succ] at h
    by_cases hmax : k + 1 > maxPeek
    · rw [if_pos hmax] at h
      cases h
      have hnone : decideWindow rr br.data none = none := by
        rcases hk0 with h0 | h0
        · rw [maxPeek_eq] at hmax; omega
        · exact h0
      exact ⟨decideWindow_of_none_none rr br.data _ (by simp) hnone,
        fun _ => Or.inl (by simp only; omega)⟩
    · rw [if_neg hmax] at h
      have hdone := Reader.peekFill_done (k + 1) (k + 1) br (by omega)
      have hst := Reader.peekFill_steady (k + 1) (k + 1) br hs hi
      generalize Reader.peekFill (k + 1) (k + 1) br = b1 at h hdone hst
      cases hd : decideWindow rr b1.data (peekErr b1 (k + 1)) with
      | some host =>
        rw [hd] at h
        cases h
        simp only [peekReader_data]
        by_cases hpe : peekErr b1 (k + 1) = none
        · rw [hpe] at hd
          refine ⟨decideWindow_of_none_some rr _ _ _ hd, fun hn => ?_⟩
          rw [hn] at hd
          cases hd
        · refine ⟨?_, fun _ => ?_⟩
          · rw [← hd]
            exact decideWindow_err_irrelevant rr _ _ _ (by simp) hpe
          · unfold Reader.Stuck
            unfold peekErr at hpe
            unfold peekReader
            by_cases h1 : k + 1 > b1.size
            · simp only [h1, if_true]
              by_cases h2 : b1.size ≤ b1.data.length
              · exact Or.inr (Or.inl h2)
              · refine Or.inr (Or.inr (Or.inl ?_))
                intro he
                exact hdone ⟨by omega, by omega, he⟩
            · simp only [h1, if_false] at hpe ⊢
              by_cases h2 : b1.data.length < k + 1
              · simp only [h2, if_true]
                refine Or.inr (Or.inr (Or.inr ?_))
                have herr : b1.err ≠ none := fun he => hdone ⟨h2, by omega, he⟩
                exact hst.2 herr
              · simp [h2] at hpe
      | none =>
        rw [hd] at h
        have hn := decideWindow_eq_none rr _ _ hd
        have hpe := peekErr_eq_none b1 (k + 1) hn.1
        rw [hpe.2.2] at h
        exact ih _ b1 h (by rw [max_eq_right hpe.2.1]) (Or.inr hn.2) hst.1 hst.2

/-- A reader in such a state gives the same value again. -/
theorem httpHostHeader_of_settled (rr : GoString → Option Request) (S : Reader)
    (res : GoString) (h1 : decideWindow rr S.data (some Error.EOF) = some res)
    (h2 : decideWindow rr S.data none = none → S.Stuck) :
    ∃ r2, httpHostHeader rr S = some (res, r2) := by
  have herr : ∀ e : Option Error, e ≠ none → decideWindow rr S.data e = some res := by
    intro e he
    rw [← h1]
    exact decideWindow_err_irrelevant rr _ _ _ he (by simp)
  have hfb : decideWindow rr S.data none = none → httpHostHeaderFromBytes S.data = res := by
    intro hn
    have := decideWindow_of_none_none rr S.data (some Error.EOF) (by simp) hn
    rw [h1] at this
    exact (Option.some.inj this).symm
  -- a `Peek` past the buffer of a stuck reader returns the same buffer and an error
  have hstuck : ∀ p, S.data.length < p → S.Stuck → S.data.length < maxPeek →
      (Reader.peekFill p p S).data = S.data ∧ peekErr (Reader.peekFill p p S) p ≠ none := by
    intro p hp hst hlt
    have key : (Reader.peekFill p p S).data = S.data ∧
        (Reader.peekFill p p S).size = S.size := by
      by_cases hc : S.data.length < p ∧ S.data.length < S.size ∧ S.err = none
      · have hev : S.rd.events = [] := by
          rcases hst with h | h | h | h
          · omega
          · omega
          · exact absurd hc.2.2 h
          · exact h
        obtain ⟨q, rfl⟩ : ∃ q, p = q + 1 := ⟨p - 1, by omega⟩
        have hf := Reader.fill_at_end S hev
        simp only [Reader.peekFill, hc, and_self, if_true]
        rw [Reader.peekFill_of_not _ _ _ (fun h => hf.2.1 h.2.2)]
        exact ⟨hf.1, hf.2.2.1⟩
      · rw [Reader.peekFill_of_not _ _ _ hc]
        exact ⟨rfl, rfl⟩
    refine ⟨key.1, ?_⟩
    unfold peekErr
    rw [key.1, key.2]
    split
    · simp
    · simp
  unfold httpHostHeader
  rw [httpHostHeaderLoop_succ, if_neg (by rw [maxPeek_eq]; omega)]
  by_cases hdata : S.data.length = 0
  · -- nothing is buffered
    have hnil : S.data = [] := List.length_eq_zero.1 hdata
    have hn : decideWindow rr S.data none = none := by
      unfold decideWindow
      simp [hnil]
    have hs := hstuck (0 + 1) (by omega) (h2 hn) (by rw [maxPeek_eq]; omega)
    rw [hs.1, herr _ hs.2]
    exact ⟨_, rfl⟩
  · have hf : Reader.peekFill (0 + 1) (0 + 1) S = S :=
      Reader.peekFill_of_not _ _ S (by omega)
    rw [hf]
    by_cases hpe : peekErr S (0 + 1) = none
    · rw [hpe]
      cases hd : decideWindow rr S.data none with
      | some host =>
        have := decideWindow_of_none_some rr _ _ (some Error.EOF) hd
        rw [h1] at this
        cases this
        exact ⟨_, rfl⟩
      | none =>
        simp only
        rw [(peekErr_eq_none S (0 + 1) hpe).2.2, max_eq_right (by omega)]
        have hfuel : maxPeek = (maxPeek - 1) + 1 := by rw [maxPeek_eq]
        rw [hfuel, httpHostHeaderLoop_succ]
        by_cases hmax : S.data.length + 1 > maxPeek
        · rw [if_pos hmax, hfb hd]
          exact ⟨_, rfl⟩
        · rw [if_neg hmax]
          have hs := hstuck (S.data.length + 1) (by omega) (h2 hd) (by omega)
          rw [hs.1, herr _ hs.2]
          exact ⟨_, rfl⟩
    · rw [herr _ hpe]
      exact ⟨_, rfl⟩

/-- C2, as amended. For every buffered reader over every stream, a call of
`httpHostHeader` returns and consumes no bytes: the bytes the reader has yet
to deliver are the same as before the call. When the stream delivers its bytes
in non-empty reads without an error and then ends for good (and a pending
error of the reader, if any, stems from that end), a second call on the reader
returns the same string as the first. -/
theorem httpHostHeader_non_destructive (rr : GoString → Option Request) (br : Reader) :
    ∃ r1, httpHostHeader rr br = some r1 ∧ r1.2.pending = br.pending ∧
      (br.rd.Steady → br.AtEndIfErr → ∃ r2, httpHostHeader rr r1.2 = some (r1.1, r2)) := by
  obtain ⟨r1, h1⟩ := httpHostHeader_returns rr br
  refine ⟨r1, h1, httpHostHeaderLoop_pending rr _ _ br r1 h1, fun hs hi => ?_⟩
  have hset := httpHostHeaderLoop_settled rr _ 0 br r1 h1 (Nat.zero_le _) (Or.inl rfl) hs hi
  exact httpHostHeader_of_settled rr r1.2 r1.1 hset.1 hset.2

/-- C2, an instance: the request of the test, read through a default reader,
is found twice and stays wholly unread. -/
theorem httpHostHeader_non_destructive_witness :
    (stringsReader testRequest).Steady ∧ (NewReader (stringsReader testRequest)).AtEndIfErr ∧
    ∃ r1, httpHostHeader http.ReadRequest (NewReader (stringsReader testRequest)) = some r1 ∧
      r1.2.pending = testRequest ∧
      ∃ r2, httpHostHeader http.ReadRequest r1.2 = some (r1.1, r2) := by
  have hs : (stringsReader testRequest).Steady := by decide
  have hi : (NewReader (stringsReader testRequest)).AtEndIfErr := by decide
  obtain ⟨r1, h1, h2, h3⟩ :=
    httpHostHeader_non_destructive http.ReadRequest (NewReader (stringsReader testRequest))
  exact ⟨hs, hi, r1, h1, by rw [h2]; decide, h3 hs hi⟩

/-- C2 as stated fails: on a stream with a read error after which more
bytes arrive, the first call returns the empty string and a second call on
the same unconsumed reader returns `x`. -/
theorem httpHostHeader_not_idempotent :
    (httpHostHeader http.ReadRequest (NewReader timeoutStream)).map Prod.fst = some (str "") ∧
    ((httpHostHeader http.ReadRequest (NewReader timeoutStream)).bind
      (fun r => httpHostHeader http.ReadRequest r.2)).map Prod.fst = some (str "x") := by
  constructor <;> decide

/-- C5, an instance: a TLS handshake byte followed by a complete request
head with a Host header line. -/
theorem httpHostHeader_first_byte_not_upper_witness :
    (NewReader (stringsReader tlsThenRequest)).pending = '\x16' :: testRequest ∧
    ¬ ('A' ≤ '\x16' ∧ '\x16' ≤ 'Z') ∧
    ∃ br1, httpHostHeader http.ReadRequest (NewReader (stringsReader tlsThenRequest))
      = some (str "", br1) :=
  ⟨by decide, by decide,
    httpHostHeader_first_byte_not_upper http.ReadRequest _ '\x16' testRequest (by decide)
      (by decide)⟩

/-! ## A complete request head -/

theorem hasTerminator_mono (a b : GoString) (hab : a <+: b) (ha : hasTerminator a = true) :
    hasTerminator b = true := by
  unfold hasTerminator at ha ⊢
  simp only [Bool.or_eq_true, decide_eq_true_eq, ne_eq, Index_eq_neg_one_iff,
    not_not] at ha ⊢
  rcases ha with h | h
  · exact Or.inl (h.trans hab.isInfix)
  · exact Or.inr (h.trans hab.isInfix)

/-- The decision on a window that holds the whole head. -/
theorem decideWindow_of_head (rr : GoString → Option Request) (head D : GoString)
    (e : Option Error) (c : Char) (t : GoString) (hc : head = c :: t)
    (hup : 'A' ≤ c ∧ c ≤ 'Z') (hterm : hasTerminator head = true) (hD : head <+: D) :
    decideWindow rr D e = some (parsedHost rr D) := by
  obtain ⟨x, rfl⟩ := hD
  subst hc
  unfold decideWindow
  have h1 : ¬ (c < 'A' ∨ c > 'Z') := by
    push_neg
    exact hup
  have h2 : hasTerminator (c :: t ++ x) = true :=
    hasTerminator_mono _ _ (List.prefix_append _ _) hterm
  have c1 : ¬ ((c :: t ++ x).length > 0 ∧
      ((c :: t ++ x).headD ' ' < 'A' ∨ (c :: t ++ x).headD ' ' > 'Z')) :=
    fun h => h1 h.2
  have c2 : (c :: t ++ x).length > 0 ∧ hasTerminator (c :: t ++ x) = true :=
    ⟨by simp, h2⟩
  rw [if_neg c1, if_pos c2]

/-- The decision on a window that is a proper prefix of the head. -/
theorem decideWindow_of_part (rr : GoString → Option Request) (head D : GoString)
    (c : Char) (t : GoString) (hc : head = c :: t)
    (hup : 'A' ≤ c ∧ c ≤ 'Z')
    (hfirst : ∀ p, p <+: head → p ≠ head → hasTerminator p = false)
    (hD : D <+: head) (hne : D ≠ head) :
    decideWindow rr D none = none := by
  have hnt := hfirst D hD hne
  unfold decideWindow
  have h1 : ¬ (D.length > 0 ∧ (D.headD ' ' < 'A' ∨ D.headD ' ' > 'Z')) := by
    rintro ⟨hpos, hlt⟩
    cases D with
    | nil => simp at hpos
    | cons d ds =>
      subst hc
      obtain ⟨x, hx⟩ := hD
      simp only [List.cons_append, List.cons.injEq] at hx
      simp only [List.headD_cons] at hlt
      rw [hx.1] at hlt
      have : ¬ (c < 'A' ∨ c > 'Z') := by
        push_neg
        exact hup
      exact this hlt
  rw [if_neg h1, if_neg (by rw [hnt]; simp), if_neg (by simp)]

theorem no_terminator_before_end (head : GoString)
    (h : hasTerminator head.dropLast = false) :
    ∀ p, p <+: head → p ≠ head → hasTerminator p = false := by
  intro p hp hne
  have hlt : p.length < head.length := by
    rcases Nat.lt_or_ge p.length head.length with h1 | h1
    · exact h1
    · exact absurd (hp.eq_of_length (Nat.le_antisymm hp.length_le h1)) hne
  have hpd : p <+: head.dropLast :=
    List.prefix_of_prefix_length_le hp (List.dropLast_prefix head)
      (by rw [List.length_dropLast]; omega)
  cases hb : hasTerminator p
  · rfl
  · rw [hasTerminator_mono p _ hpd hb] at h
    cases h

/-! ## Lines and cuts of the parser model -/

theorem takeWhile_ne_append (a b : GoString) (x : Char) (h : ∀ c ∈ a, c ≠ x) :
    (a ++ x :: b).takeWhile (fun c => c != x) = a := by
  induction a with
  | nil => simp [List.takeWhile]
  | cons c a ih =>
    have hc : c ≠ x := h c (List.mem_cons_self _ _)
    simp only [List.cons_append, List.takeWhile_cons]
    simp [hc, ih (fun d hd => h d (List.mem_cons_of_mem _ hd))]

theorem http.cut_append (a b : GoString) (x : Char) (h : ∀ c ∈ a, c ≠ x) :
    http.cut (a ++ x :: b) x = (a, b, true) := by
  unfold http.cut
  rw [takeWhile_ne_append a b x h]
  simp

theorem http.readLine_eq (b : GoString) (hb : b ≠ []) :
    http.readLine b =
      if (b.takeWhile (fun c => c != '\n')).length < b.length ∧
          (b.takeWhile (fun c => c != '\n')).getLast? = some '\r' then
        some ((b.takeWhile (fun c => c != '\n')).dropLast,
          b.drop ((b.takeWhile (fun c => c != '\n')).length + 1))
      else some (b.takeWhile (fun c => c != '\n'),
          b.drop ((b.takeWhile (fun c => c != '\n')).length + 1)) := by
  cases b with
  | nil => exact absurd rfl hb
  | cons c t => rfl

theorem http.readLine_crlf (line rest : GoString) (h : ∀ c ∈ line, c ≠ '\n') :
    http.readLine (line ++ '\r' :: '\n' :: rest) = some (line, rest) := by
  have hb : line ++ '\r' :: '\n' :: rest = (line ++ ['\r']) ++ '\n' :: rest := by simp
  have ht : (line ++ '\r' :: '\n' :: rest).takeWhile (fun c => c != '\n') = line ++ ['\r'] := by
    rw [hb]
    apply takeWhile_ne_append
    intro c hc
    simp only [List.mem_append, List.mem_singleton] at hc
    rcases hc with hc | rfl
    · exact h c hc
    · decide
  rw [http.readLine_eq _ (by simp), ht]
  have hd : List.drop ((line ++ ['\r']).length + 1) (line ++ '\r' :: '\n' :: rest) = rest := by
    rw [hb, List.drop_append]
    rfl
  rw [hd]
  simp

theorem http.headerGet_headerAdd (m : List (GoString × List GoString)) (k v key : GoString) :
    http.headerGet (http.headerAdd m k v) key =
      if k = key then http.headerGet m key ++ [v] else http.headerGet m key := by
  induction m with
  | nil =>
    simp only [http.headerAdd, http.headerGet]
    split <;> simp
  | cons e rest ih =>
    obtain ⟨k1, vs⟩ := e
    simp only [http.headerAdd]
    by_cases h1 : k1 = k
    · subst h1
      simp only [if_true, http.headerGet]
      by_cases h2 : k1 = key
      · simp [h2]
      · simp [h2]
    · simp only [h1, if_false, http.headerGet, ih]
      by_cases h2 : k1 = key
      · have h3 : ¬ k = key := fun h => h1 (h2.trans h.symm)
        simp [h2, h3]
      · simp [h2]

theorem http.isToken_ne (c x : Char) (hx : http.isToken x = false) (h : http.isToken c = true) :
    c ≠ x := by
  intro hc
  rw [hc, hx] at h
  cases h

theorem http.validHeaderValueByte_ne (c x : Char) (hx : http.validHeaderValueByte x = false)
    (h : http.validHeaderValueByte c = true) : c ≠ x := by
  intro hc
  rw [hc, hx] at h
  cases h

theorem visible_ne (c x : Char) (hx : ¬ (0x21 ≤ byteVal x ∧ byteVal x ≤ 0x7e))
    (h : 0x21 ≤ byteVal c ∧ byteVal c ≤ 0x7e) : c ≠ x := by
  intro hc
  rw [hc] at h
  exact hx h

/-! ## Bytes without a blank line -/

theorem hasTerminator_eq_false (s : GoString) :
    hasTerminator s = false ↔ ¬ crlfcrlf <:+: s ∧ ¬ lflf <:+: s := by
  unfold hasTerminator
  simp only [Bool.or_eq_false_iff, decide_eq_false_iff_not, ne_eq, not_not,
    Index_eq_neg_one_iff]

theorem hasTerminator_of_suffix (s : GoString) (h : crlfcrlf <:+ s) : hasTerminator s = true := by
  cases hb : hasTerminator s
  · exact absurd h.isInfix ((hasTerminator_eq_false s).1 hb).1
  · rfl

theorem noTerm_cons (c : Char) (l : GoString) (h1 : c ≠ '\r') (h2 : c ≠ '\n')
    (h : ¬ crlfcrlf <:+: l ∧ ¬ lflf <:+: l) :
    ¬ crlfcrlf <:+: c :: l ∧ ¬ lflf <:+: c :: l := by
  have e1 : crlfcrlf = ['\r', '\n', '\r', '\n'] := rfl
  have e2 : lflf = ['\n', '\n'] := rfl
  rw [e1, e2] at h ⊢
  constructor
  · rw [List.infix_cons_iff, List.cons_prefix_cons]
    rintro (⟨hc, _⟩ | hc)
    · exact h1 hc.symm
    · exact h.1 hc
  · rw [List.infix_cons_iff, List.cons_prefix_cons]
    rintro (⟨hc, _⟩ | hc)
    · exact h2 hc.symm
    · exact h.2 hc

theorem noTerm_append (line l : GoString) (hline : ∀ c ∈ line, c ≠ '\r' ∧ c ≠ '\n')
    (h : ¬ crlfcrlf <:+: l ∧ ¬ lflf <:+: l) :
    ¬ crlfcrlf <:+: line ++ l ∧ ¬ lflf <:+: line ++ l := by
  induction line with
  | nil => exact h
  | cons c t ih =>
    have hc := hline c (List.mem_cons_self _ _)
    exact noTerm_cons c (t ++ l) hc.1 hc.2 (ih (fun d hd => hline d (List.mem_cons_of_mem _ hd)))

/-- After an end of line, no header block ends before a line that starts
with neither `\r` nor `\n`, nor before a lone `\r`. -/
theorem noTerm_crlf (l : GoString)
    (hstart : l = ['\r'] ∨ ∃ c t, l = c :: t ∧ c ≠ '\r' ∧ c ≠ '\n')
    (h : ¬ crlfcrlf <:+: l ∧ ¬ lflf <:+: l) :
    ¬ crlfcrlf <:+: '\r' :: '\n' :: l ∧ ¬ lflf <:+: '\r' :: '\n' :: l := by
  have e1 : crlfcrlf = ['\r', '\n', '\r', '\n'] := rfl
  have e2 : lflf = ['\n', '\n'] := rfl
  rw [e1, e2] at h ⊢
  constructor
  · intro hinf
    rcases List.infix_cons_iff.1 hinf with hp | hinf2
    · have h2 := (List.cons_prefix_cons.1 hp).2
      have h3 := (List.cons_prefix_cons.1 h2).2
      rcases hstart with rfl | ⟨c, t, rfl, hc1, _⟩
      · have := h3.length_le
        simp at this
      · exact hc1 (List.cons_prefix_cons.1 h3).1.symm
    · rcases List.infix_cons_iff.1 hinf2 with hp | hinf3
      · exact absurd (List.cons_prefix_cons.1 hp).1 (by decide)
      · exact h.1 hinf3
  · intro hinf
    rcases List.infix_cons_iff.1 hinf with hp | hinf2
    · exact absurd (List.cons_prefix_cons.1 hp).1 (by decide)
    · rcases List.infix_cons_iff.1 hinf2 with hp | hinf3
      · have h2 := (List.cons_prefix_cons.1 hp).2
        rcases hstart with rfl | ⟨c, t, rfl, _, hc2⟩
        · exact absurd (List.cons_prefix_cons.1 h2).1 (by decide)
        · exact hc2 (List.cons_prefix_cons.1 h2).1.symm
      · exact h.2 hinf3

theorem noTerm_lines (lines : List GoString)
    (hl : ∀ line ∈ lines, line ≠ [] ∧ ∀ c ∈ line, c ≠ '\r' ∧ c ≠ '\n') :
    (¬ crlfcrlf <:+: (lines.map (fun l => l ++ ['\r', '\n'])).flatten ++ ['\r'] ∧
      ¬ lflf <:+: (lines.map (fun l => l ++ ['\r', '\n'])).flatten ++ ['\r']) ∧
    ((lines.map (fun l => l ++ ['\r', '\n'])).flatten ++ ['\r'] = ['\r'] ∨
      ∃ c t, (lines.map (fun l => l ++ ['\r', '\n'])).flatten ++ ['\r'] = c :: t ∧
        c ≠ '\r' ∧ c ≠ '\n') := by
  induction lines with
  | nil =>
    refine ⟨⟨?_, ?_⟩, Or.inl rfl⟩
    · intro h
      have := h.length_le
      simp [crlfcrlf, str] at this
    · intro h
      have := h.length_le
      simp [lflf, str] at this
  | cons line rest ih =>
    have hline := hl line (List.mem_cons_self _ _)
    obtain ⟨hgood, hstart⟩ := ih (fun x hx => hl x (List.mem_cons_of_mem _ hx))
    have hform : ((line :: rest).map (fun l => l ++ ['\r', '\n'])).flatten ++ ['\r'] =
        line ++ '\r' :: '\n' :: ((rest.map (fun l => l ++ ['\r', '\n'])).flatten ++ ['\r']) := by
      simp
    rw [hform]
    refine ⟨noTerm_append line _ hline.2 (noTerm_crlf _ hstart hgood), Or.inr ?_⟩
    cases hlc : line with
    | nil => exact absurd hlc hline.1
    | cons c t =>
      have hc := hline.2 c (by rw [hlc]; exact List.mem_cons_self _ _)
      exact ⟨c, _, rfl, hc.1, hc.2⟩

/-! ## The resolver -/

theorem srvLoop_first (pre post : List RR) (hdr : RR_Header) (prio w port : Nat)
    (target : GoString) (st : Bool × Nat × GoString)
    (hpre : ∀ x ∈ pre, x.isSRV = false) :
    srvLoop (pre ++ RR.SRV hdr prio w port target :: post) st = (true, port, target) := by
  induction pre generalizing st with
  | nil =>
    obtain ⟨a, b, c⟩ := st
    rfl
  | cons x pre ih =>
    obtain ⟨a, b, c⟩ := st
    have hx := hpre x (List.mem_cons_self _ _)
    have ih2 := fun st => ih st (fun y hy => hpre y (List.mem_cons_of_mem _ hy))
    cases x with
    | SRV _ _ _ _ _ => simp [RR.isSRV] at hx
    | A _ _ => exact ih2 _
    | TXT _ _ => exact ih2 _
    | other _ => exact ih2 _

theorem aLoop_first (node : GoString) (pre post : List RR) (hdr : RR_Header) (ip : IP)
    (st : Bool × IP) (hname : hdr.Name = node) (hpre : ∀ x ∈ pre, x.isAFor node = false) :
    aLoop node (pre ++ RR.A hdr ip :: post) st = (true, ip) := by
  induction pre generalizing st with
  | nil =>
    obtain ⟨a, b⟩ := st
    simp [aLoop, hname]
  | cons x pre ih =>
    obtain ⟨a, b⟩ := st
    have hx := hpre x (List.mem_cons_self _ _)
    have ih2 := fun st => ih st (fun y hy => hpre y (List.mem_cons_of_mem _ hy))
    cases x with
    | SRV _ _ _ _ _ => exact ih2 _
    | A h2 _ =>
      have hne : h2.Name ≠ node := by simpa [RR.isAFor] using hx
      simp only [List.cons_append, aLoop, hne, if_false]
      exact ih2 _
    | TXT _ _ => exact ih2 _
    | other _ => exact ih2 _

/-- The results of `dnsSrvQuery` and its exchanges, by the final response. -/
theorem dnsSrvQuery_of_final (m : consulMatcher) (id : Nat) (fqdn : GoString) (r : Msg)
    (h : m.FinalResponse id fqdn r) :
    (m.dnsSrvQuery id fqdn).1 = dnsSrvQueryResult fqdn r := by
  obtain ⟨r0, hudp, hcase⟩ := h
  unfold srvQuestion at hudp hcase
  unfold consulMatcher.dnsSrvQuery
  simp only [hudp]
  rcases hcase with ⟨ht, rfl⟩ | ⟨ht, htcp⟩
  · simp [ht]
  · simp [ht, htcp]

/-- C6. For every service name and every final response with code success
whose answer section holds an SRV record, the first one with port `port` and
target `target` (records before it that are not SRV records are ignored), and
whose extra section holds an A record for `target`, the first one with
address `ip`: `lookupDns` returns no error and the address `<ip>:<port>`, the
port in decimal. -/
theorem lookupDns_address (m : consulMatcher) (id : Nat) (serviceName : GoString) (r : Msg)
    (pre post : List RR) (hdr : RR_Header) (prio w port : Nat) (target : GoString)
    (epre epost : List RR) (ahdr : RR_Header) (ip : IP)
    (hfinal : m.FinalResponse id (serviceFqdn serviceName) r)
    (hcode : r.Rcode = RcodeSuccess)
    (hans : r.Answer = pre ++ RR.SRV hdr prio w port target :: post)
    (hpre : ∀ x ∈ pre, x.isSRV = false)
    (hextra : r.Extra = epre ++ RR.A ahdr ip :: epost)
    (hname : ahdr.Name = target)
    (hepre : ∀ x ∈ epre, x.isAFor target = false) :
    (m.lookupDns id serviceName).1
      = (ip.String ++ str ":" ++ (Nat.repr port).toList, none) := by
  have hq := dnsSrvQuery_of_final m id _ r hfinal
  unfold dnsSrvQueryResult at hq
  rw [if_pos hcode, hans, hextra] at hq
  unfold serviceFqdn at hq
  rcases hdq : m.dnsSrvQuery id (str "_" ++ serviceName ++ str "._tcp.consul.") with
    ⟨⟨ans, extra, err⟩, ex⟩
  rw [hdq] at hq
  simp only [Prod.mk.injEq] at hq
  obtain ⟨rfl, rfl, rfl⟩ := hq
  unfold consulMatcher.lookupDns
  simp only [hdq, ne_eq, not_true_eq_false, if_false,
    srvLoop_first pre post hdr prio w port target _ hpre, Bool.not_true, Bool.false_eq_true,
    aLoop_first target epre epost ahdr ip _ hname hepre]

/-- C6, the instance of the test: an SRV record with port 51885 and target
`N`, and an A record `N -> 127.0.0.1`, yield `127.0.0.1:51885`. -/
theorem lookupDns_address_witness :
    (testMatcher.lookupDns 0 (str "foo")).1 = (str "127.0.0.1:51885", none) := by
  have h := lookupDns_address testMatcher 0 (str "foo")
    { Msg.new.SetReply (srvQuestion 0 (serviceFqdn (str "foo"))) with
      Truncated := false, Answer := testAnswer, Extra := testExtra }
    [] [] { Name := str "_foo._tcp.consul.", Rrtype := 33, Class := 1, Ttl := 0 } 1 1 51885
    testNode [] [RR.TXT { Name := testNode, Rrtype := 16, Class := 1, Ttl := 0 }
      [str "consul-network-segment="]]
    { Name := testNode, Rrtype := 1, Class := 1, Ttl := 0 }
    [0, 0, 0, 0, 0, 0, 0, 0, 0, 0, 255, 255, 127, 0, 0, 1]
    ⟨_, rfl, Or.inl ⟨rfl, rfl⟩⟩ rfl rfl (by simp) rfl rfl (by simp)
  rw [h]
  decide

/-- Without an A record for `node`, the second loop of `lookupDns` leaves
`host` as it is and ends with `ok` telling whether the last record of the
section is an A record. -/
theorem aLoop_unmatched (node : GoString) (l : List RR) (st : Bool × IP)
    (h : ∀ x ∈ l, x.isAFor node = false) :
    aLoop node l st = ((l.getLast?.map RR.isA).getD st.1, st.2) := by
  induction l generalizing st with
  | nil => rfl
  | cons x rest ih =>
    obtain ⟨ok, host⟩ := st
    have hx := h x (List.mem_cons_self _ _)
    have ih2 := fun st => ih st (fun y hy => h y (List.mem_cons_of_mem _ hy))
    have hcases : ((x :: rest).getLast?.map RR.isA).getD ok =
        (rest.getLast?.map RR.isA).getD x.isA := by
      cases rest with
      | nil => rfl
      | cons y ys => rw [List.getLast?_cons_cons]; rfl
    rw [hcases]
    cases x with
    | SRV _ _ _ _ _ => exact ih2 _
    | A h2 _ =>
      have hne : h2.Name ≠ node := by simpa [RR.isAFor] using hx
      simp only [aLoop, hne, if_false]
      exact ih2 _
    | TXT _ _ => exact ih2 _
    | other _ => exact ih2 _

/-- C7 fails on the code. For a successful final response whose answer
section holds an SRV record and whose extra section holds no A record for
the SRV target: when the last record of the extra section is an A record
(for another name), `lookupDns` returns no error and an address built from
the `nil` host; only otherwise does it fail with the error
`no valid A record found`. -/
theorem lookupDns_no_matching_A (m : consulMatcher) (id : Nat) (serviceName : GoString)
    (r : Msg) (pre post : List RR) (hdr : RR_Header) (prio w port : Nat) (target : GoString)
    (hfinal : m.FinalResponse id (serviceFqdn serviceName) r)
    (hcode : r.Rcode = RcodeSuccess)
    (hans : r.Answer = pre ++ RR.SRV hdr prio w port target :: post)
    (hpre : ∀ x ∈ pre, x.isSRV = false)
    (hnone : ∀ x ∈ r.Extra, x.isAFor target = false) :
    (m.lookupDns id serviceName).1 =
      if r.Extra.getLast?.map RR.isA = some true then
        (IP.String [] ++ str ":" ++ (Nat.repr port).toList, none)
      else
        (str "", some (Error.Errorf (str "no valid A record found for: %s\n%s")
          [FmtArg.string (serviceFqdn serviceName), FmtArg.rrs r.Answer])) := by
  have hq := dnsSrvQuery_of_final m id _ r hfinal
  unfold dnsSrvQueryResult at hq
  rw [if_pos hcode] at hq
  unfold serviceFqdn at hq ⊢
  rcases hdq : m.dnsSrvQuery id (str "_" ++ serviceName ++ str "._tcp.consul.") with
    ⟨⟨ans, extra, err⟩, ex⟩
  rw [hdq] at hq
  simp only [Prod.mk.injEq] at hq
  obtain ⟨rfl, rfl, rfl⟩ := hq
  unfold consulMatcher.lookupDns
  simp only [hdq, ne_eq, not_true_eq_false, if_false]
  rw [hans, srvLoop_first pre post hdr prio w port target _ hpre]
  simp only [Bool.not_true, Bool.false_eq_true, if_false]
  rw [aLoop_unmatched target r.Extra _ hnone]
  cases hl : r.Extra.getLast?.map RR.isA with
  | none => simp
  | some b => cases b <;> simp

/-- C7, at a response whose extra section holds only an A record for another
node: the second loop of `lookupDns` ends with `ok` true, so no error is
returned, and the address is built from the `nil` host. -/
theorem lookupDns_unmatched_A :
    (otherNodeMatcher.lookupDns 0 (str "foo")).1 = (str "<nil>:51885", none) := by
  have h := lookupDns_no_matching_A otherNodeMatcher 0 (str "foo")
    { Msg.new.SetReply (srvQuestion 0 (serviceFqdn (str "foo"))) with
      Truncated := false, Answer := testAnswer,
      Extra := [RR.A { Name := str "other.node.dc1.consul.", Rrtype := 1, Class := 1, Ttl := 0 }
        [10, 0, 0, 1]] }
    [] [] { Name := str "_foo._tcp.consul.", Rrtype := 33, Class := 1, Ttl := 0 } 1 1 51885
    testNode ⟨_, rfl, Or.inl ⟨rfl, rfl⟩⟩ rfl rfl (by simp) (by decide)
  rw [h]
  decide

/-- C8. Truncation fallback: when the UDP exchange succeeds with a truncated
response, `dnsSrvQuery` issues two exchanges, the UDP one and then a TCP one
with the same query to the same address, and its results are those of the TCP
exchange alone (its error, or the results by the code of its response); when
the UDP response is not truncated, the UDP exchange is the only one. -/
theorem dnsSrvQuery_truncation (m : consulMatcher) (id : Nat) (fqdn : GoString) (r : Msg)
    (hudp : m.udpClient.ExchangeContext (srvQuestion id fqdn) m.consulDnsAddr = Except.ok r) :
    (r.Truncated = true →
      (m.dnsSrvQuery id fqdn).2 =
        [{ net := Transport.udp, msg := srvQuestion id fqdn, addr := m.consulDnsAddr },
         { net := Transport.tcp, msg := srvQuestion id fqdn, addr := m.consulDnsAddr }] ∧
      (m.dnsSrvQuery id fqdn).1 =
        match m.tcpClient.ExchangeContext (srvQuestion id fqdn) m.consulDnsAddr with
        | Except.error e => ([], [], some e)
        | Except.ok r2 => dnsSrvQueryResult fqdn r2) ∧
    (r.Truncated = false →
      (m.dnsSrvQuery id fqdn).2 =
        [{ net := Transport.udp, msg := srvQuestion id fqdn, addr := m.consulDnsAddr }] ∧
      (m.dnsSrvQuery id fqdn).1 = dnsSrvQueryResult fqdn r) := by
  unfold srvQuestion at hudp ⊢
  unfold consulMatcher.dnsSrvQuery
  simp only [hudp]
  constructor
  · intro ht
    simp only [ht, if_true]
    cases m.tcpClient.ExchangeContext (Msg.new.SetQuestion id fqdn TypeSRV) m.consulDnsAddr
      <;> exact ⟨rfl, rfl⟩
  · intro ht
    simp [ht]

/-- C8, an instance: a truncated UDP response and a TCP response with the
answer of the test. -/
theorem dnsSrvQuery_truncation_witness :
    ({ testMatcher with
        udpClient := mockDnsClient [] [] true none,
        tcpClient := mockDnsClient testAnswer testExtra false none }
      : consulMatcher).dnsSrvQuery 0 (serviceFqdn (str "foo"))
    = ((testAnswer, testExtra, none),
       [{ net := Transport.udp, msg := srvQuestion 0 (serviceFqdn (str "foo")), addr := str "" },
        { net := Transport.tcp, msg := srvQuestion 0 (serviceFqdn (str "foo")),
          addr := str "" }]) := by
  have h := (dnsSrvQuery_truncation
    { testMatcher with
        udpClient := mockDnsClient [] [] true none,
        tcpClient := mockDnsClient testAnswer testExtra false none }
    0 (serviceFqdn (str "foo")) _ rfl).1 rfl
  exact Prod.ext h.2 h.1

/-- C9. For every query whose final response has a code other than success,
`dnsSrvQuery` returns an error and no records: for the code name-error the
error `non-existent name: <fqdn>`, for every other code the error
`lookup failed for: <fqdn>` with the response; a final response with code
success gives its answer and extra sections and no error. -/
theorem dnsSrvQuery_rcode (m : consulMatcher) (id : Nat) (fqdn : GoString) (r : Msg)
    (hfinal : m.FinalResponse id fqdn r) :
    (r.Rcode = RcodeNameError →
      (m.dnsSrvQuery id fqdn).1 =
        ([], [], some (Error.Errorf (str "non-existent name: %s") [FmtArg.string fqdn]))) ∧
    (r.Rcode ≠ RcodeSuccess → r.Rcode ≠ RcodeNameError →
      (m.dnsSrvQuery id fqdn).1 =
        ([], [], some (Error.Errorf (str "lookup failed for: %s\n%s")
          [FmtArg.string fqdn, FmtArg.msg r]))) ∧
    (r.Rcode = RcodeSuccess → (m.dnsSrvQuery id fqdn).1 = (r.Answer, r.Extra, none)) := by
  rw [dnsSrvQuery_of_final m id fqdn r hfinal]
  unfold dnsSrvQueryResult
  refine ⟨fun h => ?_, fun h1 h2 => ?_, fun h => ?_⟩
  · rw [if_neg (by rw [h]; decide), if_pos h]
  · rw [if_neg h1, if_neg h2]
  · rw [if_pos h]

/-- C9, an instance: a registry that answers with the code name-error. -/
theorem dnsSrvQuery_rcode_witness :
    (({ testMatcher with udpClient := rcodeClient RcodeNameError } : consulMatcher).dnsSrvQuery 0
      (serviceFqdn (str "foo"))).1 =
      ([], [], some (Error.Errorf (str "non-existent name: %s")
        [FmtArg.string (str "_foo._tcp.consul.")])) :=
  (dnsSrvQuery_rcode { testMatcher with udpClient := rcodeClient RcodeNameError } 0
    (serviceFqdn (str "foo"))
    { Msg.new.SetReply (srvQuestion 0 (serviceFqdn (str "foo"))) with Rcode := RcodeNameError }
    ⟨_, rfl, Or.inl ⟨rfl, rfl⟩⟩).1 rfl

/-- C10. For every suffix, every hostname `h` that passes the suffix check
with subdomain `p`, and every registry for which the resolver succeeds on the
service `p` with address `a`: `consulMatcher.Lookup h` reports a match and
its target is `To a`, a `DialProxy` whose `Addr` is `a`. -/
theorem consulMatcher_Lookup_match (suffix addr : GoString) (udp tcp : dnsClient) (id : Nat)
    (h p a : GoString)
    (hsuf : (newSuffixMatcher suffix none).hasSuffix h = (true, p))
    (hres : ((ConsulMatcher suffix addr udp tcp).lookupDns id p).1 = (a, none)) :
    ((ConsulMatcher suffix addr udp tcp).Lookup id h).ok = true ∧
    ((ConsulMatcher suffix addr udp tcp).Lookup id h).target = some (To a) ∧
    To a = Target.dialProxy { Addr := a } := by
  have hsuf2 : (ConsulMatcher suffix addr udp tcp).matchSuffix.hasSuffix h = (true, p) := hsuf
  rcases hl : (ConsulMatcher suffix addr udp tcp).lookupDns id p with ⟨⟨a2, err⟩, ex⟩
  rw [hl] at hres
  simp only [Prod.mk.injEq] at hres
  obtain ⟨rfl, rfl⟩ := hres
  unfold consulMatcher.Lookup
  simp only [hsuf2, hl, Bool.not_true, Bool.false_eq_true, if_false]
  exact ⟨trivial, trivial, rfl⟩

/-- C10, the instance of the test: suffix `.localhost`, hostname
`foo.localhost` (as extracted from the request of the test), a registry
returning the SRV record with port 51885 and the matching A record 127.0.0.1:
the target is a `DialProxy` with `Addr` `127.0.0.1:51885`. -/
theorem consulMatcher_Lookup_match_witness :
    (testMatcher.Lookup 0 (str "foo.localhost")).ok = true ∧
    (testMatcher.Lookup 0 (str "foo.localhost")).target
      = some (Target.dialProxy { Addr := str "127.0.0.1:51885" }) ∧
    (httpHostHeader http.ReadRequest (NewReader (stringsReader testRequest))).map
      (fun r => (testMatcher.Lookup 0 r.1).target)
      = some (some (Target.dialProxy { Addr := str "127.0.0.1:51885" })) := by
  have h := consulMatcher_Lookup_match (str ".localhost") (str "")
    (mockDnsClient testAnswer testExtra false none)
    (mockDnsClient [] [] false (some (Error.other 0))) 0 (str "foo.localhost") (str "foo")
    (str "127.0.0.1:51885") (by decide) (by decide)
  exact ⟨h.1, h.2.1, by decide⟩

/-! ## The composed matcher -/

theorem Lookup_of_not_ok (m : consulMatcher) (id : Nat) (h : GoString)
    (hf : (m.matchSuffix.hasSuffix h).1 = false) :
    m.Lookup id h = { ok := false, target := none, exchanges := [], logged := [] } := by
  unfold consulMatcher.Lookup
  rcases hs : m.matchSuffix.hasSuffix h with ⟨ok, p⟩
  rw [hs] at hf
  simp only at hf
  subst hf
  rfl

theorem Lookup_of_err (m : consulMatcher) (id : Nat) (h p : GoString) (e : Error)
    (hsuf : m.matchSuffix.hasSuffix h = (true, p))
    (hres : (m.lookupDns id p).1.2 = some e) :
    m.Lookup id h =
      { ok := false, target := none, exchanges := (m.lookupDns id p).2, logged := [e] } := by
  unfold consulMatcher.Lookup
  rcases hl : m.lookupDns id p with ⟨⟨a, err⟩, ex⟩
  rw [hl] at hres
  simp only at hres
  subst hres
  simp only [hsuf, hl, Bool.not_true, Bool.false_eq_true, if_false]

/-- C11. For every matcher and every hostname that fails the suffix check
(`hasSuffix` answers false: the hostname does not end with the matcher's
suffix, or the part before the suffix is empty or holds a dot),
`consulMatcher.Lookup` returns `(false, nil)`, issues no exchange on either
client and logs nothing. -/
theorem consulMatcher_Lookup_suffix_fails (m : consulMatcher) (id : Nat) (h : GoString)
    (hfail : (m.matchSuffix.hasSuffix h).1 = false) :
    (m.Lookup id h).ok = false ∧ (m.Lookup id h).target = none ∧
    (m.Lookup id h).exchanges = [] ∧ (m.Lookup id h).logged = [] := by
  rw [Lookup_of_not_ok m id h hfail]
  exact ⟨rfl, rfl, rfl, rfl⟩

/-- C11, the hostname of the test: `foo.bar.localhost` under the suffix
`.localhost` is not looked up. -/
theorem consulMatcher_Lookup_suffix_fails_witness :
    (testMatcher.Lookup 0 (str "foo.bar.localhost")).ok = false ∧
    (testMatcher.Lookup 0 (str "foo.bar.localhost")).target = none ∧
    (testMatcher.Lookup 0 (str "foo.bar.localhost")).exchanges = [] ∧
    (testMatcher.Lookup 0 (str "foo.bar.localhost")).logged = [] :=
  consulMatcher_Lookup_suffix_fails testMatcher 0 (str "foo.bar.localhost") (by decide)

/-- C12. For every matcher and every hostname that passes the suffix check
with subdomain `p`: when the resolver returns an error `e` for the service
`p`, whatever its reason, `consulMatcher.Lookup` returns `(false, nil)`, the
same pair as for every hostname that fails the suffix check; the error goes
to the log only. -/
theorem consulMatcher_Lookup_resolver_fails (m : consulMatcher) (id : Nat) (h p : GoString)
    (e : Error)
    (hsuf : m.matchSuffix.hasSuffix h = (true, p))
    (hres : (m.lookupDns id p).1.2 = some e) :
    ((m.Lookup id h).ok, (m.Lookup id h).target) = (false, none) ∧
    (m.Lookup id h).logged = [e] ∧
    ∀ h2, (m.matchSuffix.hasSuffix h2).1 = false →
      ((m.Lookup id h).ok, (m.Lookup id h).target) =
        ((m.Lookup id h2).ok, (m.Lookup id h2).target) := by
  rw [Lookup_of_err m id h p e hsuf hres]
  refine ⟨rfl, rfl, fun h2 hf => ?_⟩
  rw [Lookup_of_not_ok m id h2 hf]

/-- C12, instances for `foo.localhost`: the UDP exchange fails; the UDP
response is truncated and the TCP exchange fails; the response has the code
name-error; the answer section holds no SRV record; the extra section is
empty. -/
theorem consulMatcher_Lookup_resolver_fails_witness :
    (((udpFailMatcher (Error.other 7)).Lookup 0 (str "foo.localhost")).ok,
      ((udpFailMatcher (Error.other 7)).Lookup 0 (str "foo.localhost")).target) = (false, none) ∧
    ((udpFailMatcher (Error.other 7)).Lookup 0 (str "foo.localhost")).logged
      = [Error.other 7] ∧
    (((tcpFailMatcher (Error.other 8)).Lookup 0 (str "foo.localhost")).ok,
      ((tcpFailMatcher (Error.other 8)).Lookup 0 (str "foo.localhost")).target) = (false, none) ∧
    ((({ testMatcher with udpClient := rcodeClient RcodeNameError } : consulMatcher).Lookup 0
        (str "foo.localhost")).ok,
      (({ testMatcher with udpClient := rcodeClient RcodeNameError } : consulMatcher).Lookup 0
        (str "foo.localhost")).target) = (false, none) ∧
    ((noSrvMatcher.Lookup 0 (str "foo.localhost")).ok,
      (noSrvMatcher.Lookup 0 (str "foo.localhost")).target) = (false, none) ∧
    ((({ testMatcher with udpClient := mockDnsClient testAnswer [] false none }
        : consulMatcher).Lookup 0 (str "foo.localhost")).ok,
      (({ testMatcher with udpClient := mockDnsClient testAnswer [] false none }
        : consulMatcher).Lookup 0 (str "foo.localhost")).target) = (false, none) :=
  have h := consulMatcher_Lookup_resolver_fails (udpFailMatcher (Error.other 7)) 0
    (str "foo.localhost") (str "foo") (Error.other 7) (by decide) (by decide)
  ⟨h.1, h.2.1,
    (consulMatcher_Lookup_resolver_fails (tcpFailMatcher (Error.other 8)) 0
      (str "foo.localhost") (str "foo") (Error.other 8) (by decide) (by decide)).1,
    (consulMatcher_Lookup_resolver_fails { testMatcher with udpClient := rcodeClient RcodeNameError }
      0 (str "foo.localhost") (str "foo")
      (Error.Errorf (str "non-existent name: %s") [FmtArg.string (str "_foo._tcp.consul.")])
      (by decide) (by decide)).1,
    (consulMatcher_Lookup_resolver_fails noSrvMatcher 0 (str "foo.localhost") (str "foo")
      (Error.Errorf (str "no valid SRV record found for: %s\n%s")
        [FmtArg.string (str "_foo._tcp.consul."),
         FmtArg.rrs [RR.TXT { Name := str "_foo._tcp.consul.", Rrtype := 16, Class := 1, Ttl := 0 }
           [str "x"]]])
      (by decide) (by decide)).1,
    (consulMatcher_Lookup_resolver_fails
      { testMatcher with udpClient := mockDnsClient testAnswer [] false none }
      0 (str "foo.localhost") (str "foo")
      (Error.Errorf (str "no valid A record found for: %s\n%s")
        [FmtArg.string (str "_foo._tcp.consul."), FmtArg.rrs testAnswer])
      (by decide) (by decide)).1⟩

/-! ## The suffix rule and the trimmed suffix -/

theorem SuffixMatcher_true_iff (s h : GoString) (t : Option Target) :
    (SuffixMatcher s t h).1 = true ↔
      ∃ p, h = p ++ str "." ++ TrimLeft s (str ".") ∧ p ≠ [] ∧ '.' ∉ p := by
  rw [TrimLeft_dot]
  unfold SuffixMatcher suffixMatcher.Lookup
  simp only
  constructor
  · intro hh
    rcases hasSuffix_false_or s h t with h0 | ⟨p, hp⟩
    · rw [h0] at hh
      simp at hh
    · exact ⟨p, (hasSuffix_true_iff s h p t).1 hp⟩
  · rintro ⟨p, hp⟩
    rw [(hasSuffix_true_iff s h p t).2 hp]
    rfl

theorem dropWhile_getLast (f : Char → Bool) (s : GoString) (h : s.dropWhile f ≠ []) :
    (s.dropWhile f).getLast? = s.getLast? := by
  obtain ⟨pre, hpre⟩ := List.dropWhile_suffix f (l := s)
  conv_rhs => rw [← hpre]
  cases hd : s.dropWhile f with
  | nil => exact absurd hd h
  | cons a l =>
    rw [List.getLast?_append]
    cases hg : (a :: l).getLast? with
    | none => simp at hg
    | some x => rfl

theorem Trim_eq_TrimLeft (s : GoString) (h : s.getLast? ≠ some '.') :
    Trim s (str ".") = TrimLeft s (str ".") := by
  unfold Trim
  change ((TrimLeft s (str ".")).reverse.dropWhile _).reverse = _
  rw [TrimLeft_dot]
  have e : (fun c => (str ".").contains c) = (fun c => c == '.') := by
    funext c
    by_cases hc : c = '.' <;> simp [str, List.contains, hc]
  rw [e]
  by_cases hd : s.dropWhile (fun c => c == '.') = []
  · rw [hd]; rfl
  · have hl := dropWhile_getLast (fun c => c == '.') s hd
    generalize s.dropWhile (fun c => c == '.') = d at hd hl
    have hr : d.reverse ≠ [] := by simpa using hd
    cases hrev : d.reverse with
    | nil => exact absurd hrev hr
    | cons a l =>
      have hlast : d.getLast? = some a := by
        rw [List.getLast?_eq_head?_reverse, hrev]; rfl
      have ha : a ≠ '.' := by
        intro ha
        apply h
        rw [← hl, hlast, ha]
      have : (a == '.') = false := by simpa using ha
      rw [List.dropWhile_cons, this]
      simp only [Bool.false_eq_true, if_false]
      rw [← hrev, List.reverse_reverse]

/-- C13, as the code has it. For all hostnames `h` and suffixes `s`,
`SuffixMatcher s _` matches `h` exactly when `h = p ++ "." ++ s'` with `p`
non-empty and free of dots, where `s'` is `s` without its LEADING dots
(`strings.TrimLeft`); trailing dots of `s` are kept. For every suffix that
does not end with a dot this is the trimmed suffix of the specification. -/
theorem suffix_matcher_leading_dots (s h : GoString) (t : Option Target) :
    ((SuffixMatcher s t h).1 = true ↔
      ∃ p, h = p ++ str "." ++ TrimLeft s (str ".") ∧ p ≠ [] ∧ '.' ∉ p) ∧
    (s.getLast? ≠ some '.' →
      ((SuffixMatcher s t h).1 = true ↔
        ∃ p, h = p ++ str "." ++ Trim s (str ".") ∧ p ≠ [] ∧ '.' ∉ p)) := by
  refine ⟨SuffixMatcher_true_iff s h t, fun hl => ?_⟩
  rw [Trim_eq_TrimLeft s hl]
  exact SuffixMatcher_true_iff s h t

/-- C13, an instance: the suffix `localhost.` matches `foo.localhost.`, with
the trailing dot. -/
theorem suffix_matcher_leading_dots_witness :
    (SuffixMatcher (str "localhost.") none (str "foo.localhost.")).1 = true :=
  (suffix_matcher_leading_dots (str "localhost.") (str "foo.localhost.") none).1.2
    ⟨str "foo", by decide, by decide, by decide⟩

/-- C13 fails for a suffix with a trailing dot: `foo.localhost` is
`"foo" ++ "." ++ trim("localhost.", ".")` with `foo` non-empty and free of
dots, yet the suffix `localhost.` does not match it, while the suffix
`localhost` does. -/
theorem suffix_matcher_trailing_dot :
    str "foo.localhost" = str "foo" ++ str "." ++ Trim (str "localhost.") (str ".") ∧
    str "foo" ≠ [] ∧ '.' ∉ str "foo" ∧
    (SuffixMatcher (str "localhost.") none (str "foo.localhost")).1 = false ∧
    (SuffixMatcher (str "localhost") none (str "foo.localhost")).1 = true := by
  decide

/-! ## The query of the resolver -/

theorem srvLoop_no_SRV (l : List RR) (port : Nat) (node : GoString)
    (h : ∀ x ∈ l, x.isSRV = false) :
    srvLoop l (false, port, node) = (false, port, node) := by
  induction l with
  | nil => rfl
  | cons x rest ih =>
    have hx := h x (List.mem_cons_self _ _)
    have ih2 := ih (fun y hy => h y (List.mem_cons_of_mem _ hy))
    cases x with
    | SRV _ _ _ _ _ => simp [RR.isSRV] at hx
    | A _ _ => exact ih2
    | TXT _ _ => exact ih2
    | other _ => exact ih2

theorem dnsSrvQuery_exchanges (m : consulMatcher) (id : Nat) (fqdn : GoString) :
    (m.dnsSrvQuery id fqdn).2 ≠ [] ∧
    ∀ ex ∈ (m.dnsSrvQuery id fqdn).2,
      ex.msg = srvQuestion id fqdn ∧ ex.addr = m.consulDnsAddr := by
  unfold consulMatcher.dnsSrvQuery srvQuestion
  simp only
  cases m.udpClient.ExchangeContext (Msg.new.SetQuestion id fqdn TypeSRV) m.consulDnsAddr with
  | error e => simp
  | ok r =>
    simp only
    by_cases ht : r.Truncated = true
    · simp only [ht, if_true]
      cases m.tcpClient.ExchangeContext (Msg.new.SetQuestion id fqdn TypeSRV) m.consulDnsAddr
        <;> simp
    · simp [ht]

theorem lookupDns_exchanges (m : consulMatcher) (id : Nat) (s : GoString) :
    (m.lookupDns id s).2 = (m.dnsSrvQuery id (serviceFqdn s)).2 := by
  unfold serviceFqdn
  rcases hdq : m.dnsSrvQuery id (str "_" ++ s ++ str "._tcp.consul.") with ⟨⟨ans, extra, err⟩, ex⟩
  unfold consulMatcher.lookupDns
  simp only [hdq]
  split
  · rfl
  · split
    · rfl
    · split <;> rfl

theorem lookupDns_of_err (m : consulMatcher) (id : Nat) (s : GoString) (e : Error)
    (h : (m.dnsSrvQuery id (serviceFqdn s)).1.2.2 = some e) :
    (m.lookupDns id s).1 = (str "", some e) := by
  unfold serviceFqdn at h
  rcases hdq : m.dnsSrvQuery id (str "_" ++ s ++ str "._tcp.consul.") with ⟨⟨ans, extra, err⟩, ex⟩
  rw [hdq] at h
  simp only at h
  subst h
  unfold consulMatcher.lookupDns
  simp only [hdq]
  simp

theorem lookupDns_eq (m : consulMatcher) (id : Nat) (s : GoString) :
    m.lookupDns id s = ((m.lookupDns id s).1, (m.dnsSrvQuery id (serviceFqdn s)).2) := by
  rw [← lookupDns_exchanges]

theorem dnsSrvQueryResult_err (fqdn : GoString) (r : Msg) (e : Error)
    (h : (dnsSrvQueryResult fqdn r).2.2 = some e) :
    ∃ format rest, e = Error.Errorf format (FmtArg.string fqdn :: rest) := by
  unfold dnsSrvQueryResult at h
  split at h
  · simp at h
  · split at h
    · simp only [Option.some.injEq] at h
      exact ⟨_, _, h.symm⟩
    · simp only [Option.some.injEq] at h
      exact ⟨_, _, h.symm⟩

theorem dnsSrvQuery_err_cases (m : consulMatcher) (id : Nat) (fqdn : GoString) (e : Error)
    (h : (m.dnsSrvQuery id fqdn).1.2.2 = some e) :
    (m.udpClient.ExchangeContext (srvQuestion id fqdn) m.consulDnsAddr = Except.error e ∨
      m.tcpClient.ExchangeContext (srvQuestion id fqdn) m.consulDnsAddr = Except.error e) ∨
    ∃ format rest, e = Error.Errorf format (FmtArg.string fqdn :: rest) := by
  unfold consulMatcher.dnsSrvQuery at h
  unfold srvQuestion
  simp only at h
  cases hu : m.udpClient.ExchangeContext (Msg.new.SetQuestion id fqdn TypeSRV)
      m.consulDnsAddr with
  | error e1 =>
    simp only [hu, Option.some.injEq] at h
    exact Or.inl (Or.inl (by rw [h]))
  | ok r =>
    simp only [hu] at h
    by_cases ht : r.Truncated = true
    · simp only [ht, if_true] at h
      cases htc : m.tcpClient.ExchangeContext (Msg.new.SetQuestion id fqdn TypeSRV)
          m.consulDnsAddr with
      | error e1 =>
        simp only [htc, Option.some.injEq] at h
        exact Or.inl (Or.inr (by rw [h]))
      | ok r2 =>
        simp only [htc] at h
        exact Or.inr (dnsSrvQueryResult_err fqdn r2 e h)
    · simp only [ht, Bool.false_eq_true, if_false] at h
      exact Or.inr (dnsSrvQueryResult_err fqdn r e h)

theorem lookupDns_err_cases (m : consulMatcher) (id : Nat) (s : GoString) (e : Error)
    (h : (m.lookupDns id s).1.2 = some e) :
    (m.dnsSrvQuery id (serviceFqdn s)).1.2.2 = some e ∨
    ∃ format rest, e = Error.Errorf format (FmtArg.string (serviceFqdn s) :: rest) := by
  unfold serviceFqdn
  rcases hdq : m.dnsSrvQuery id (str "_" ++ s ++ str "._tcp.consul.") with ⟨⟨ans, extra, err⟩, ex⟩
  unfold consulMatcher.lookupDns at h
  simp only [hdq] at h
  split at h
  · exact Or.inl h
  · split at h
    · simp only [Option.some.injEq] at h
      exact Or.inr ⟨_, _, h.symm⟩
    · split at h
      · simp only [Option.some.injEq] at h
        exact Or.inr ⟨_, _, h.symm⟩
      · simp at h

/-- C15, as amended. For every service name `s`, `lookupDns` issues at least
one exchange, and every exchange it issues goes to the configured address with
a message whose question section is the single question
`("_" ++ s ++ "._tcp.consul.", SRV, IN)`. Every error it returns is either the
error of one of these exchanges, passed on unchanged, or an error it formats
itself, and then the first operand of the format is that same name. -/
theorem lookupDns_query_name (m : consulMatcher) (id : Nat) (s : GoString) :
    (m.lookupDns id s).2 ≠ [] ∧
    (∀ ex ∈ (m.lookupDns id s).2,
      ex.addr = m.consulDnsAddr ∧
      ex.msg.Question =
        [{ Name := str "_" ++ s ++ str "._tcp.consul.", Qtype := TypeSRV,
           Qclass := ClassINET }]) ∧
    (∀ e, (m.lookupDns id s).1.2 = some e →
      (m.udpClient.ExchangeContext (srvQuestion id (str "_" ++ s ++ str "._tcp.consul."))
          m.consulDnsAddr = Except.error e ∨
        m.tcpClient.ExchangeContext (srvQuestion id (str "_" ++ s ++ str "._tcp.consul."))
          m.consulDnsAddr = Except.error e) ∨
      ∃ format rest,
        e = Error.Errorf format (FmtArg.string (str "_" ++ s ++ str "._tcp.consul.") :: rest)) := by
  have hex := dnsSrvQuery_exchanges m id (serviceFqdn s)
  rw [lookupDns_exchanges]
  refine ⟨hex.1, fun ex hmem => ?_, fun e he => ?_⟩
  · obtain ⟨h1, h2⟩ := hex.2 ex hmem
    rw [h1]
    exact ⟨h2, rfl⟩
  · rcases lookupDns_err_cases m id s e he with h1 | h1
    · exact dnsSrvQuery_err_cases m id (serviceFqdn s) e h1
    · exact Or.inr h1

/-- C15, the service of the test: the query for `foo` asks for the SRV
records of `_foo._tcp.consul.`. -/
theorem lookupDns_query_name_witness :
    (testMatcher.lookupDns 0 (str "foo")).2 ≠ [] ∧
    (testMatcher.lookupDns 0 (str "foo")).2.map (fun ex => ex.msg.Question) =
      [[{ Name := str "_foo._tcp.consul.", Qtype := 33, Qclass := 1 }]] :=
  ⟨(lookupDns_query_name testMatcher 0 (str "foo")).1, by decide⟩

/-- C15 as stated fails for the error of an exchange, which need not report
the name. When the UDP exchange of the query for `foo` fails with an error `e`
of the DNS client (a timeout, say), `lookupDns` returns `e` as it is: the
error returned is not an error formatted with the name `_foo._tcp.consul.`. -/
theorem lookupDns_exchange_error_unnamed :
    (udpFailMatcher (Error.other 7)).udpClient.ExchangeContext
      (srvQuestion 0 (str "_foo._tcp.consul.")) (udpFailMatcher (Error.other 7)).consulDnsAddr
      = Except.error (Error.other 7) ∧
    ((udpFailMatcher (Error.other 7)).lookupDns 0 (str "foo")).1.2 = some (Error.other 7) ∧
    ¬ ∃ format rest, Error.other 7 =
      Error.Errorf format (FmtArg.string (str "_foo._tcp.consul.") :: rest) :=
  ⟨rfl, by decide, fun ⟨_, _, h⟩ => by cases h⟩

/-- C16. An error of an exchange ends the query at once. When the UDP
exchange returns an error `e`, `dnsSrvQuery` returns `e` and no records after
that one exchange, and `lookupDns` returns `e` and the empty address; the TCP
client is not called. When the UDP response is truncated and the TCP exchange
returns an error `e`, both return `e` after these two exchanges; there is no
third one. -/
theorem exchange_error_not_retried (m : consulMatcher) (id : Nat) (fqdn : GoString)
    (e : Error) :
    (m.udpClient.ExchangeContext (srvQuestion id fqdn) m.consulDnsAddr = Except.error e →
      m.dnsSrvQuery id fqdn =
        (([], [], some e),
          [{ net := Transport.udp, msg := srvQuestion id fqdn, addr := m.consulDnsAddr }]) ∧
      ∀ s, serviceFqdn s = fqdn →
        m.lookupDns id s =
          ((str "", some e),
            [{ net := Transport.udp, msg := srvQuestion id fqdn, addr := m.consulDnsAddr }])) ∧
    (∀ r, m.udpClient.ExchangeContext (srvQuestion id fqdn) m.consulDnsAddr = Except.ok r →
      r.Truncated = true →
      m.tcpClient.ExchangeContext (srvQuestion id fqdn) m.consulDnsAddr = Except.error e →
      m.dnsSrvQuery id fqdn =
        (([], [], some e),
          [{ net := Transport.udp, msg := srvQuestion id fqdn, addr := m.consulDnsAddr },
           { net := Transport.tcp, msg := srvQuestion id fqdn, addr := m.consulDnsAddr }]) ∧
      ∀ s, serviceFqdn s = fqdn →
        m.lookupDns id s =
          ((str "", some e),
            [{ net := Transport.udp, msg := srvQuestion id fqdn, addr := m.consulDnsAddr },
             { net := Transport.tcp, msg := srvQuestion id fqdn, addr := m.consulDnsAddr }])) := by
  constructor
  · intro hu
    have hq : m.dnsSrvQuery id fqdn =
        (([], [], some e),
          [{ net := Transport.udp, msg := srvQuestion id fqdn, addr := m.consulDnsAddr }]) := by
      unfold srvQuestion at hu ⊢
      unfold consulMatcher.dnsSrvQuery
      simp only [hu]
    refine ⟨hq, fun s hs => ?_⟩
    subst hs
    rw [lookupDns_eq, lookupDns_of_err m id s e (by rw [hq]), hq]
  · intro r hu ht htc
    have hq : m.dnsSrvQuery id fqdn =
        (([], [], some e),
          [{ net := Transport.udp, msg := srvQuestion id fqdn, addr := m.consulDnsAddr },
           { net := Transport.tcp, msg := srvQuestion id fqdn, addr := m.consulDnsAddr }]) := by
      unfold srvQuestion at hu htc ⊢
      unfold consulMatcher.dnsSrvQuery
      simp only [hu, ht, htc, if_true]
    refine ⟨hq, fun s hs => ?_⟩
    subst hs
    rw [lookupDns_eq, lookupDns_of_err m id s e (by rw [hq]), hq]

/-- C16, two instances: a UDP exchange that fails, and a truncated UDP
response followed by a TCP exchange that fails. -/
theorem exchange_error_not_retried_witness :
    (udpFailMatcher (Error.other 7)).lookupDns 0 (str "foo") =
      ((str "", some (Error.other 7)),
        [{ net := Transport.udp, msg := srvQuestion 0 (str "_foo._tcp.consul."),
           addr := str "" }]) ∧
    (tcpFailMatcher (Error.other 8)).lookupDns 0 (str "foo") =
      ((str "", some (Error.other 8)),
        [{ net := Transport.udp, msg := srvQuestion 0 (str "_foo._tcp.consul."),
           addr := str "" },
         { net := Transport.tcp, msg := srvQuestion 0 (str "_foo._tcp.consul."),
           addr := str "" }]) :=
  ⟨((exchange_error_not_retried (udpFailMatcher (Error.other 7)) 0 (str "_foo._tcp.consul.")
      (Error.other 7)).1 rfl).2 (str "foo") rfl,
   ((exchange_error_not_retried (tcpFailMatcher (Error.other 8)) 0 (str "_foo._tcp.consul.")
      (Error.other 8)).2 _ rfl rfl rfl).2 (str "foo") rfl⟩

/-- C17. For every final response with code success whose answer section
holds no SRV record, whatever its extra section holds, `lookupDns` returns the
empty address and the error `no valid SRV record found for: <fqdn>` with the
answer section. -/
theorem lookupDns_no_SRV (m : consulMatcher) (id : Nat) (s : GoString) (r : Msg)
    (hfinal : m.FinalResponse id (serviceFqdn s) r)
    (hcode : r.Rcode = RcodeSuccess)
    (hnone : ∀ x ∈ r.Answer, x.isSRV = false) :
    (m.lookupDns id s).1 =
      (str "", some (Error.Errorf (str "no valid SRV record found for: %s\n%s")
        [FmtArg.string (serviceFqdn s), FmtArg.rrs r.Answer])) := by
  have hq := dnsSrvQuery_of_final m id _ r hfinal
  unfold dnsSrvQueryResult at hq
  rw [if_pos hcode] at hq
  unfold serviceFqdn at hq ⊢
  rcases hdq : m.dnsSrvQuery id (str "_" ++ s ++ str "._tcp.consul.") with
    ⟨⟨ans, extra, err⟩, ex⟩
  rw [hdq] at hq
  simp only [Prod.mk.injEq] at hq
  obtain ⟨rfl, rfl, rfl⟩ := hq
  unfold consulMatcher.lookupDns
  simp only [hdq, ne_eq, not_true_eq_false, if_false, srvLoop_no_SRV r.Answer 0 (str "") hnone,
    Bool.not_false, if_true]

/-- C17, two instances: an empty answer section, and an answer section with
a TXT record only; the extra section holds the A record of the test. -/
theorem lookupDns_no_SRV_witness :
    (({ testMatcher with udpClient := mockDnsClient [] testExtra false none }
        : consulMatcher).lookupDns 0 (str "foo")).1 =
      (str "", some (Error.Errorf (str "no valid SRV record found for: %s\n%s")
        [FmtArg.string (str "_foo._tcp.consul."), FmtArg.rrs []])) ∧
    ((noSrvMatcher.lookupDns 0 (str "foo")).1.1 = str "" ∧
      (noSrvMatcher.lookupDns 0 (str "foo")).1.2 ≠ none) := by
  have h := lookupDns_no_SRV { testMatcher with udpClient := mockDnsClient [] testExtra false none }
    0 (str "foo")
    { Msg.new.SetReply (srvQuestion 0 (serviceFqdn (str "foo"))) with
      Truncated := false, Answer := [], Extra := testExtra }
    ⟨_, rfl, Or.inl ⟨rfl, rfl⟩⟩ rfl (by simp)
  exact ⟨h, by decide⟩

/-! ## Termination -/

/-- C20. For every request parser and every reader, `httpHostHeader` returns
within 4097 iterations of its loop: an iteration that does not return leaves
`peekSize` larger than it found it, and an iteration that finds `peekSize` at
4096 or more returns. -/
theorem httpHostHeader_terminates (rr : GoString → Option Request) (br : Reader) :
    (∃ r, httpHostHeaderLoop rr 4097 0 br = some r ∧ httpHostHeader rr br = some r) ∧
    (∀ k b k2 b2, httpHostHeaderStep rr k b = Step.next k2 b2 → k < k2 ∧ k < 4096) ∧
    (∀ k b, 4096 ≤ k → ∃ host b2, httpHostHeaderStep rr k b = Step.ret host b2) := by
  refine ⟨?_, fun k b k2 b2 h => ?_, fun k b hk => ?_⟩
  · obtain ⟨r, hr⟩ := httpHostHeader_returns rr br
    exact ⟨r, hr, hr⟩
  · rw [httpHostHeaderStep_eq, maxPeek_eq] at h
    split at h
    · cases h
    · rename_i hk
      split at h
      · cases h
      · cases h
        omega
  · rw [httpHostHeaderStep_eq, maxPeek_eq, if_pos (by omega)]
    exact ⟨_, _, rfl⟩

/-! ## Streams that end before the header block does -/

theorem Delivers_prefix (b : Reader) (D : GoString) (h : b.Delivers D) : b.data <+: D := by
  rcases h with ⟨_, h⟩ | ⟨_, h⟩
  · exact ⟨_, h⟩
  · rw [h]

theorem Reader.fillRead_delivers (i : Nat) (b : Reader) (D : GoString)
    (herr : b.err = none) (hr : b.r = 0) (hD : b.data ++ deliveredBytes i b.rd.events = D)
    (hsize : D.length ≤ b.size) :
    (Reader.fillRead i b).Delivers D := by
  induction i generalizing b with
  | zero =>
    right
    simp only [deliveredBytes, List.append_nil] at hD
    exact ⟨by simp [Reader.fillRead], hD⟩
  | succ i ih =>
    unfold Reader.fillRead Source.Read
    cases hev : b.rd.events with
    | nil =>
      rw [hev] at hD
      right
      simp only [deliveredBytes, List.append_nil] at hD
      simp [hD]
    | cons ev rest =>
      rw [hev] at hD
      simp only [deliveredBytes] at hD
      have hlen : ev.data.length ≤ b.size - (b.r + b.data.length) := by
        by_cases h0 : ev.data.length = 0
        · omega
        · have h1 : (b.data ++ ev.data).length ≤ D.length := by
            rw [← hD]
            split
            · simp
            · rw [if_pos (by omega)]
              simp
          rw [List.length_append] at h1
          omega
      simp only [hlen, if_true]
      cases he : ev.err with
      | some e =>
        right
        rw [he] at hD
        simp only [ne_eq, reduceCtorEq, not_false_eq_true, if_true] at hD
        simp [hD]
      | none =>
        rw [he] at hD
        simp only [ne_eq, not_true_eq_false, if_false] at hD
        simp only
        by_cases hpos : ev.data.length > 0
        · simp only [hpos, if_true] at hD ⊢
          left
          refine ⟨herr, ?_⟩
          simp only [Source.delivered, List.append_assoc]
          exact hD
        · simp only [hpos, if_false] at hD ⊢
          have h0 : ev.data = [] := List.length_eq_zero.1 (by omega)
          exact ih { b with data := b.data ++ ev.data, rd := { b.rd with events := rest } } herr hr
            (by simp only [h0, List.append_nil]; exact hD) hsize

theorem Reader.fill_delivers (b : Reader) (D : GoString) (h : b.Delivers D)
    (herr : b.err = none) (hsize : D.length ≤ b.size) : b.fill.Delivers D := by
  rcases h with ⟨_, hD⟩ | ⟨h1, _⟩
  · unfold Reader.fill
    by_cases hr : b.r > 0
    · simp only [hr, if_true]
      exact Reader.fillRead_delivers _ { b with r := 0 } D herr rfl hD hsize
    · simp only [hr, if_false]
      exact Reader.fillRead_delivers _ b D herr (by omega) hD hsize
  · exact absurd herr h1

theorem Reader.peekFill_delivers (n fuel : Nat) (b : Reader) (D : GoString)
    (h : b.Delivers D) (hsize : D.length ≤ b.size) :
    (Reader.peekFill n fuel b).Delivers D := by
  induction fuel generalizing b with
  | zero => exact h
  | succ fuel ih =>
    unfold Reader.peekFill
    split
    · rename_i hc
      exact ih b.fill (Reader.fill_delivers b D h hc.2.2 hsize)
        (by rw [Reader.fill_size]; exact hsize)
    · exact h

/-- The decision on a window that is the start of bytes without a blank line
whose first byte is an upper-case letter. -/
theorem decideWindow_of_start (rr : GoString → Option Request) (w D : GoString)
    (e : Option Error) (hw : w <+: D) (hterm : hasTerminator D = false)
    (hup : ∀ c, D.head? = some c → 'A' ≤ c ∧ c ≤ 'Z') :
    decideWindow rr w e = if e ≠ none then some (httpHostHeaderFromBytes w) else none := by
  unfold decideWindow
  have h1 : ¬ (w.length > 0 ∧ (w.headD ' ' < 'A' ∨ w.headD ' ' > 'Z')) := by
    rintro ⟨_, hlt⟩
    cases w with
    | nil => simp at *
    | cons d ds =>
      obtain ⟨x, hx⟩ := hw
      have := hup d (by rw [← hx]; rfl)
      simp only [List.headD_cons] at hlt
      rcases hlt with h | h
      · exact absurd this.1 (not_le.2 h)
      · exact absurd this.2 (not_le.2 h)
  have h2 : hasTerminator w = false := by
    cases hb : hasTerminator w
    · rfl
    · rw [hasTerminator_mono w D hw hb] at hterm
      cases hterm
  rw [if_neg h1, if_neg (by rw [h2]; simp)]

theorem httpHostHeaderLoop_line_scan (rr : GoString → Option Request) (D : GoString)
    (hlen : D.length ≤ maxPeek) (hterm : hasTerminator D = false)
    (hup : ∀ c, D.head? = some c → 'A' ≤ c ∧ c ≤ 'Z')
    (fuel k : Nat) (br : Reader) (hf : maxPeek ≤ k + fuel) (hk : k ≤ br.data.length)
    (hd : br.Delivers D) (hsize : D.length ≤ br.size) :
    ∃ br1, httpHostHeaderLoop rr (fuel + 1) k br = some (httpHostHeaderFromBytes D, br1) := by
  induction fuel generalizing k br with
  | zero =>
    rw [httpHostHeaderLoop_succ, if_pos (by omega)]
    have hp := Delivers_prefix br D hd
    have : br.data = D := hp.eq_of_length (by have := hp.length_le; omega)
    rw [this]
    exact ⟨_, rfl⟩
  | succ fuel ih =>
    rw [httpHostHeaderLoop_succ]
    have hp := Delivers_prefix br D hd
    by_cases hmax : k + 1 > maxPeek
    · rw [if_pos hmax]
      have : br.data = D := hp.eq_of_length (by have := hp.length_le; omega)
      rw [this]
      exact ⟨_, rfl⟩
    · rw [if_neg hmax]
      have hdone := Reader.peekFill_done (k + 1) (k + 1) br (by omega)
      have hd1 := Reader.peekFill_delivers (k + 1) (k + 1) br D hd hsize
      have hs1 := Reader.peekFill_size (k + 1) (k + 1) br
      generalize Reader.peekFill (k + 1) (k + 1) br = b1 at hdone hd1 hs1
      have hp1 := Delivers_prefix b1 D hd1
      rw [decideWindow_of_start rr b1.data D _ hp1 hterm hup]
      by_cases hpe : peekErr b1 (k + 1) = none
      · rw [hpe]
        simp only [ne_eq, not_true_eq_false, if_false]
        have hq := peekErr_eq_none b1 (k + 1) hpe
        rw [hq.2.2, max_eq_right hq.2.1]
        exact ih _ b1 (by omega) (le_refl _) hd1 (by rw [hs1]; exact hsize)
      · rw [if_pos hpe]
        have hlt : b1.data.length < k + 1 := by
          unfold peekErr at hpe
          by_contra hge
          have hle := hp1.length_le
          rw [if_neg (by omega), if_neg hge] at hpe
          exact hpe rfl
        have hfull : b1.data = D := by
          by_cases hfull : b1.data.length < b1.size
          · have herr : b1.err ≠ none := fun he => hdone ⟨hlt, hfull, he⟩
            rcases hd1 with ⟨h0, _⟩ | ⟨_, h0⟩
            · exact absurd h0 herr
            · exact h0
          · exact hp1.eq_of_length (by have := hp1.length_le; omega)
        rw [hfull]
        exact ⟨_, rfl⟩

/-- C18. For every stream that delivers at most 4096 bytes before it ends or
a read fails (with the end of the stream, with a read error, or with the error
`bufio` reports when the stream stalls), when these bytes hold neither
`\r\n\r\n` nor `\n\n` and the first of them, if any, is an upper-case ASCII
letter: `httpHostHeader` on a default reader over the stream returns
`httpHostHeaderFromBytes` of all these bytes. -/
theorem httpHostHeader_line_scan (rr : GoString → Option Request) (rd : Source)
    (hlen : rd.delivered.length ≤ 4096)
    (hterm : hasTerminator rd.delivered = false)
    (hup : ∀ c, rd.delivered.head? = some c → 'A' ≤ c ∧ c ≤ 'Z') :
    ∃ br1, httpHostHeader rr (NewReader rd) = some (httpHostHeaderFromBytes rd.delivered, br1) :=
  httpHostHeaderLoop_line_scan rr _ (by rw [maxPeek_eq]; exact hlen) hterm hup maxPeek 0
    (NewReader rd) (by omega) (Nat.zero_le _) (Or.inl ⟨rfl, rfl⟩) hlen

/-- C18, the examples: the empty stream yields the empty string; a request
line and a Host header line followed by the end of the stream yield `foo`,
and so do these bytes delivered in two reads, the second with a read error,
or after 99 reads that return nothing; after 100 such reads nothing is
delivered and the value is the empty string. -/
theorem httpHostHeader_line_scan_witness :
    (∃ br1, httpHostHeader http.ReadRequest (NewReader emptyStream) = some (str "", br1)) ∧
    (∃ br1, httpHostHeader http.ReadRequest
      (NewReader (stringsReader (str "GET / HTTP/1.1\r\nHost: foo\r\n"))) = some (str "foo", br1)) ∧
    (∃ br1, httpHostHeader http.ReadRequest (NewReader brokenStream) = some (str "foo", br1)) ∧
    (∃ br1, httpHostHeader http.ReadRequest (NewReader (stalledStream 99))
      = some (str "foo", br1)) ∧
    (∃ br1, httpHostHeader http.ReadRequest (NewReader (stalledStream 100))
      = some (str "", br1)) :=
  ⟨httpHostHeader_line_scan http.ReadRequest emptyStream (by decide) (by decide) (by decide),
   httpHostHeader_line_scan http.ReadRequest
      (stringsReader (str "GET / HTTP/1.1\r\nHost: foo\r\n")) (by decide) (by decide) (by decide),
   httpHostHeader_line_scan http.ReadRequest brokenStream (by decide) (by decide) (by decide),
   httpHostHeader_line_scan http.ReadRequest (stalledStream 99) (by decide) (by decide)
      (by decide),
   httpHostHeader_line_scan http.ReadRequest (stalledStream 100) (by decide) (by decide)
      (by decide)⟩

/-! ## The line scan -/

theorem afterFirst_eq (key b : GoString) (hk : key ≠ []) :
    afterFirst key b =
      if Index b key ≠ -1 then some (b.drop ((Index b key).toNat + key.length)) else none := by
  induction b with
  | nil =>
    unfold afterFirst Index
    cases key with
    | nil => exact absurd rfl hk
    | cons a t => simp
  | cons c s ih =>
    unfold afterFirst Index
    by_cases hp : HasPrefix (c :: s) key = true
    · have hp2 := (HasPrefix_iff _ _).1 hp
      simp only [hp, hp2, if_true]
      simp
    · have hp2 : ¬ key <+: c :: s := fun h => hp ((HasPrefix_iff _ _).2 h)
      simp only [hp, hp2, if_false, Bool.false_eq_true]
      rw [ih]
      have hge := Index_ge s key
      by_cases hi : Index s key = -1
      · simp [hi]
      · have h1 : Index s key + 1 ≠ -1 := by omega
        have h2 : (Index s key + 1).toNat = (Index s key).toNat + 1 := by omega
        simp only [hi, h1, h2, ne_eq, not_false_eq_true, if_true, if_false]
        congr 1
        rw [show (Index s key).toNat + 1 + key.length = ((Index s key).toNat + key.length) + 1 by
          omega]
        rfl

theorem afterFirst_eq_none (key b : GoString) (hk : key ≠ []) :
    afterFirst key b = none ↔ ¬ key <:+: b := by
  rw [afterFirst_eq key b hk, ← Index_eq_neg_one_iff]
  by_cases hi : Index b key = -1 <;> simp [hi]

/-- What `afterFirst` finds is what follows the first occurrence. -/
theorem afterFirst_eq_some (key b v : GoString) (h : afterFirst key b = some v) :
    ∃ pre, b = pre ++ key ++ v ∧ ∀ pre2 v2, b = pre2 ++ key ++ v2 → pre.length ≤ pre2.length := by
  induction b with
  | nil =>
    unfold afterFirst at h
    split at h
    · rename_i hk
      cases h
      exact ⟨[], by simp [hk], fun _ _ _ => Nat.zero_le _⟩
    · cases h
  | cons c s ih =>
    unfold afterFirst at h
    split at h
    · rename_i hp
      cases h
      refine ⟨[], ?_, fun _ _ _ => Nat.zero_le _⟩
      obtain ⟨t, ht⟩ := hp
      rw [← ht]
      simp
    · rename_i hp
      obtain ⟨pre, hpre, hmin⟩ := ih h
      refine ⟨c :: pre, by rw [hpre]; simp, fun pre2 v2 h2 => ?_⟩
      cases pre2 with
      | nil =>
        exfalso
        apply hp
        rw [h2]
        exact ⟨v2, by simp⟩
      | cons d pre2 =>
        simp only [List.cons_append, List.cons.injEq] at h2
        have := hmin pre2 v2 (by rw [h2.2])
        simp only [List.length_cons]
        omega

theorem untilEOL_eq (v : GoString) : untilEOL v = v.takeWhile (fun c => c != '\n') := by
  unfold untilEOL IndexByte
  simp only
  induction v with
  | nil => simp [Index]
  | cons c s ih =>
    unfold Index
    by_cases hc : c = '\n'
    · subst hc
      have hp : HasPrefix ('\n' :: s) ['\n'] = true := (HasPrefix_iff _ _).2 ⟨s, rfl⟩
      simp [hp]
    · have hp : ¬ HasPrefix (c :: s) ['\n'] = true := by
        intro h
        obtain ⟨t, ht⟩ := (HasPrefix_iff _ _).1 h
        simp only [List.cons_append, List.nil_append, List.cons.injEq] at ht
        exact hc ht.1.symm
      have hge := Index_ge s ['\n']
      have hne : (c != '\n') = true := by simpa using hc
      simp only [hp, if_false, List.takeWhile_cons, hne, if_true, Bool.false_eq_true]
      by_cases hi : Index s ['\n'] = -1
      · simp only [hi, ne_eq, not_true_eq_false, if_false, if_true] at ih ⊢
        rw [← ih]
      · have h1 : Index s ['\n'] + 1 ≠ -1 := by omega
        have h2 : (Index s ['\n'] + 1).toNat = (Index s ['\n']).toNat + 1 := by omega
        simp only [hi, ne_eq, not_false_eq_true, if_true, if_false] at ih ⊢
        simp only [h1, not_false_eq_true, if_true, h2, List.take_succ_cons]
        rw [ih]

theorem httpHostHeaderFromBytes_eq (b : GoString) :
    httpHostHeaderFromBytes b = hostLineReference b := by
  unfold httpHostHeaderFromBytes hostLineReference
  have k1 : str "\nHost:" ≠ [] := by decide
  have k2 : str "\nhost:" ≠ [] := by decide
  rw [afterFirst_eq _ b k1, afterFirst_eq _ b k2]
  simp only [untilEOL_eq]
  have e1 : lfHostColon = str "\nHost:" := rfl
  have e2 : lfhostColon = str "\nhost:" := rfl
  rw [e1, e2]
  by_cases h1 : Index b (str "\nHost:") = -1
  · simp only [h1, ne_eq, not_true_eq_false, if_false]
    by_cases h2 : Index b (str "\nhost:") = -1
    · simp only [h2, ne_eq, not_true_eq_false, if_false]
    · simp only [h2, ne_eq, not_false_eq_true, if_true]
  · simp only [h1, ne_eq, not_false_eq_true, if_true]

/-! ## `bytes.TrimSpace` -/

theorem asciiSpace_spec (c : Char) (h : asciiSpace c = true) :
    byteVal c < 0x80 ∧ IsSpace (byteVal c) = true := by
  unfold asciiSpace at h
  simp only [Bool.or_eq_true, beq_iff_eq] at h
  rcases h with ((((h | h) | h) | h) | h) | h <;> subst h <;> decide

theorem trimLeftSpace_suffix (fuel : Nat) (s : GoString) : trimLeftSpace fuel s <:+ s := by
  induction fuel generalizing s with
  | zero => rw [trimLeftSpace]; exact List.nil_suffix
  | succ fuel ih =>
    cases s with
    | nil => simp [trimLeftSpace]
    | cons c s =>
      unfold trimLeftSpace
      simp only
      generalize (if byteVal c < 0x80 then (byteVal c, 1) else DecodeRune (c :: s)) = q
      obtain ⟨r, w⟩ := q
      simp only
      split
      · exact (ih _).trans (List.drop_suffix _ _)
      · exact List.suffix_refl _

theorem trimLeftSpace_head (fuel : Nat) (s : GoString) (c : Char)
    (h : (trimLeftSpace fuel s).head? = some c) : asciiSpace c = false := by
  induction fuel generalizing s with
  | zero => simp [trimLeftSpace] at h
  | succ fuel ih =>
    cases s with
    | nil => simp [trimLeftSpace] at h
    | cons c0 s =>
      unfold trimLeftSpace at h
      simp only at h
      by_cases hb : byteVal c0 < 0x80
      · simp only [hb, if_true] at h
        by_cases hsp : IsSpace (byteVal c0) = true
        · simp only [hsp, if_true] at h
          exact ih _ h
        · simp only [hsp, if_false, List.head?_cons, Option.some.injEq,
            Bool.false_eq_true] at h
          subst h
          cases ha : asciiSpace c0
          · rfl
          · exact absurd (asciiSpace_spec c0 ha).2 hsp
      · simp only [hb, if_false] at h
        by_cases hsp : IsSpace (DecodeRune (c0 :: s)).1 = true
        · simp only [hsp, if_true] at h
          exact ih _ h
        · simp only [hsp, if_false, List.head?_cons, Option.some.injEq,
            Bool.false_eq_true] at h
          subst h
          cases ha : asciiSpace c0
          · rfl
          · exact absurd (asciiSpace_spec c0 ha).1 hb

theorem trimRightSpace_start (s : GoString) : trimRightSpace s <+: s := by
  unfold trimRightSpace
  simp only
  split
  · exact List.take_prefix _ _
  · exact List.take_prefix _ _

theorem TrimSpace_within (s : GoString) : TrimSpace s <:+: s :=
  ((trimRightSpace_start _).isInfix).trans (trimLeftSpace_suffix _ _).isInfix

theorem DecodeRune_width (c0 : Char) (rest : GoString) (r w : Nat)
    (h : DecodeRune (c0 :: rest) = (r, w)) :
    1 ≤ w ∧
    (2 ≤ w →
      0x80 ≤ byteVal c0 ∧ w ≤ (c0 :: rest).length ∧
      0x80 ≤ byteVal ((c0 :: rest).getD (w - 1) ' ')) := by
  unfold DecodeRune at h
  simp only at h
  obtain ⟨lo, hlo, hlo2⟩ : ∃ lo, (if byteVal c0 = 0xE0 then 0xA0 else
      if byteVal c0 = 0xF0 then 0x90 else 0x80) = lo ∧ 0x80 ≤ lo :=
    ⟨_, rfl, by split_ifs <;> omega⟩
  obtain ⟨hi, hhi⟩ : ∃ hi, (if byteVal c0 = 0xED then 0x9F else
      if byteVal c0 = 0xF4 then 0x8F else 0xBF) = hi := ⟨_, rfl⟩
  obtain ⟨sz, hsz⟩ : ∃ sz, (if byteVal c0 < 0xE0 then 2 else
      if byteVal c0 < 0xF0 then 3 else 4) = sz := ⟨_, rfl⟩
  simp only [Nat.reduceLeDiff] at hlo hhi hsz h
  rw [hlo, hhi, hsz] at h
  by_cases h0 : byteVal c0 < 0x80
  · simp only [h0, if_true, Prod.mk.injEq] at h
    obtain ⟨-, rfl⟩ := h
    simp
  · simp only [h0, if_false] at h
    split at h
    · simp only [Prod.mk.injEq] at h
      obtain ⟨-, rfl⟩ := h
      simp
    · split at h
      · simp only [Prod.mk.injEq] at h
        obtain ⟨-, rfl⟩ := h
        simp
      · rename_i hlen
        cases rest with
        | nil =>
          simp only [Prod.mk.injEq] at h
          obtain ⟨-, rfl⟩ := h
          simp
        | cons c1 rest1 =>
          simp only at h
          split at h
          · simp only [Prod.mk.injEq] at h
            obtain ⟨-, rfl⟩ := h
            simp
          · rename_i hb1
            split at h
            · simp only [Prod.mk.injEq] at h
              obtain ⟨-, rfl⟩ := h
              refine ⟨by omega, fun _ => ⟨by omega, by simp, ?_⟩⟩
              simp only [Nat.add_one_sub_one, List.getD_cons_succ, List.getD_cons_zero]
              omega
            · cases rest1 with
              | nil =>
                simp only [Prod.mk.injEq] at h
                obtain ⟨-, rfl⟩ := h
                simp
              | cons c2 rest2 =>
                simp only at h
                split at h
                · simp only [Prod.mk.injEq] at h
                  obtain ⟨-, rfl⟩ := h
                  simp
                · rename_i hb2
                  split at h
                  · simp only [Prod.mk.injEq] at h
                    obtain ⟨-, rfl⟩ := h
                    refine ⟨by omega, fun _ => ⟨by omega, by simp, ?_⟩⟩
                    simp only [Nat.add_one_sub_one, List.getD_cons_succ, List.getD_cons_zero]
                    omega
                  · cases rest2 with
                    | nil =>
                      simp only [Prod.mk.injEq] at h
                      obtain ⟨-, rfl⟩ := h
                      simp
                    | cons c3 rest3 =>
                      simp only at h
                      split at h
                      · simp only [Prod.mk.injEq] at h
                        obtain ⟨-, rfl⟩ := h
                        simp
                      · rename_i hb3
                        simp only [Prod.mk.injEq] at h
                        obtain ⟨-, rfl⟩ := h
                        refine ⟨by omega, fun _ => ⟨by omega, by simp, ?_⟩⟩
                        simp only [Nat.add_one_sub_one, List.getD_cons_succ,
                          List.getD_cons_zero]
                        omega

theorem lastRuneStart_range (p : GoString) (lim k : Nat) :
    lastRuneStart p lim k = (lim : Int) - 1 ∨
      ∃ j, j < k ∧ lastRuneStart p lim k = ((lim + j : Nat) : Int) := by
  induction k with
  | zero => left; rfl
  | succ k ih =>
    unfold lastRuneStart
    split
    · right; exact ⟨k, by omega, rfl⟩
    · rcases ih with h | ⟨j, hj, h⟩
      · left; exact h
      · right; exact ⟨j, by omega, h⟩

/-- The last rune of a slice that ends with a byte of `0x80` or more starts
with such a byte. -/
theorem DecodeLastRune_width (p : GoString) (hp : p ≠ [])
    (hlast : 0x80 ≤ byteVal (p.getD (p.length - 1) ' ')) :
    1 ≤ (DecodeLastRune p).2 ∧ (DecodeLastRune p).2 ≤ p.length ∧
      0x80 ≤ byteVal (p.getD (p.length - (DecodeLastRune p).2) ' ') := by
  have he : p.length ≠ 0 := fun h => hp (List.length_eq_zero.1 h)
  unfold DecodeLastRune
  simp only [he, if_false, not_lt.2 hlast]
  obtain ⟨start, hstart, hlt⟩ : ∃ start,
      (if lastRuneStart p (p.length - 4) (p.length - 1 - (p.length - 4)) < ((p.length - 4 : Nat) : Int)
        then p.length - 4
        else (lastRuneStart p (p.length - 4) (p.length - 1 - (p.length - 4))).toNat) = start ∧
      start < p.length := by
    refine ⟨_, rfl, ?_⟩
    rcases lastRuneStart_range p (p.length - 4) (p.length - 1 - (p.length - 4)) with h | ⟨j, hj, h⟩
    · rw [h, if_pos (by omega)]
      omega
    · rw [h, if_neg (by omega)]
      simp only [Int.toNat_ofNat]
      omega
  rw [hstart]
  have hdrop : p.drop start = p.getD start ' ' :: p.drop (start + 1) := by
    rw [List.getD_eq_getElem _ _ hlt]
    exact List.drop_eq_getElem_cons hlt
  rcases hd : DecodeRune (p.drop start) with ⟨r, size⟩
  have hw := DecodeRune_width _ _ r size (hdrop ▸ hd)
  simp only
  split
  · exact ⟨le_refl _, by omega, hlast⟩
  · rename_i heq
    simp only [ne_eq, not_not] at heq
    refine ⟨hw.1, by omega, ?_⟩
    have e1 : p.length - size = start := by omega
    rw [e1]
    by_cases h2 : 2 ≤ size
    · exact (hw.2 h2).1
    · have : start = p.length - 1 := by omega
      rw [this]
      exact hlast

theorem lastIndexNotSpace_spec (s : GoString) (fuel i : Nat) (hi : i ≤ s.length) :
    lastIndexNotSpace s fuel i = -1 ∨
      ∃ j : Nat, lastIndexNotSpace s fuel i = (j : Int) ∧ j < i ∧
        (byteVal (s.getD j ' ') < 0x80 → asciiSpace (s.getD j ' ') = false) := by
  induction fuel generalizing i with
  | zero => left; simp [lastIndexNotSpace]
  | succ fuel ih =>
    cases i with
    | zero => left; simp [lastIndexNotSpace]
    | succ i =>
      unfold lastIndexNotSpace
      simp only
      by_cases hb : byteVal (s.getD i ' ') < 0x80
      · simp only [hb, if_true]
        by_cases hsp : IsSpace (byteVal (s.getD i ' ')) = true
        · simp only [hsp, if_true]
          rcases ih (i + 1 - 1) (by omega) with h | ⟨j, h1, h2, h3⟩
          · left; exact h
          · right; exact ⟨j, h1, by omega, h3⟩
        · simp only [hsp, if_false, Bool.false_eq_true]
          right
          refine ⟨i + 1 - 1, rfl, by omega, fun _ => ?_⟩
          simp only [Nat.add_one_sub_one]
          cases ha : asciiSpace (s.getD i ' ')
          · rfl
          · exact absurd (asciiSpace_spec _ ha).2 hsp
      · simp only [hb, if_false]
        have htake : (s.take (i + 1)).length = i + 1 := by
          rw [List.length_take]; omega
        have hne : s.take (i + 1) ≠ [] := by
          intro h0
          rw [h0] at htake
          simp at htake
        have hget : ∀ j, j < i + 1 → (s.take (i + 1)).getD j ' ' = s.getD j ' ' := by
          intro j hj
          rw [List.getD_eq_getElem?_getD, List.getD_eq_getElem?_getD, List.getElem?_take, if_pos hj]
        have hw := DecodeLastRune_width (s.take (i + 1)) hne (by
          rw [htake, hget _ (by omega)]
          simp only [Nat.add_one_sub_one]
          omega)
        rw [htake] at hw
        by_cases hsp : IsSpace (DecodeLastRune (s.take (i + 1))).1 = true
        · simp only [hsp, if_true]
          rcases ih (i + 1 - (DecodeLastRune (s.take (i + 1))).2) (by omega) with
            h | ⟨j, h1, h2, h3⟩
          · left; exact h
          · right; exact ⟨j, h1, by omega, h3⟩
        · simp only [hsp, if_false, Bool.false_eq_true]
          right
          refine ⟨_, rfl, by omega, fun hlt => ?_⟩
          rw [hget _ (by omega)] at hw
          omega

theorem getLast?_take_succ (s : GoString) (n : Nat) (h : n < s.length) :
    (s.take (n + 1)).getLast? = some (s.getD n ' ') := by
  rw [List.getLast?_eq_getElem?, List.length_take, Nat.min_eq_left (by omega),
    Nat.add_one_sub_one, List.getElem?_take, if_pos (by omega), List.getD_eq_getElem _ _ h,
    List.getElem?_eq_getElem h]

/-- What `TrimRightFunc(s, unicode.IsSpace)` returns does not end with an
ASCII white space byte. -/
theorem trimRightSpace_last (s : GoString) (c : Char)
    (h : (trimRightSpace s).getLast? = some c) : asciiSpace c = false := by
  have hhigh : ∀ c : Char, 0x80 ≤ byteVal c → asciiSpace c = false := by
    intro c hc
    cases ha : asciiSpace c
    · rfl
    · have := (asciiSpace_spec c ha).1
      omega
  unfold trimRightSpace at h
  simp only at h
  rcases lastIndexNotSpace_spec s s.length s.length (le_refl _) with h0 | ⟨j, h1, h2, h3⟩
  · rw [h0] at h
    simp at h
  · rw [h1] at h
    simp only [Int.toNat_ofNat, Int.ofNat_nonneg, true_and] at h
    have hdrop : s.drop j = s.getD j ' ' :: s.drop (j + 1) := by
      rw [List.getD_eq_getElem _ _ h2]
      exact List.drop_eq_getElem_cons h2
    split at h
    · rename_i hb
      rcases hd : DecodeRune (s.drop j) with ⟨r, w⟩
      have hw := DecodeRune_width _ _ r w (hdrop ▸ hd)
      rw [hd] at h
      simp only at h
      by_cases h2w : 2 ≤ w
      · obtain ⟨-, hlen, hbyte⟩ := hw.2 h2w
        rw [← hdrop, List.length_drop] at hlen
        have e : j + w = (j + w - 1) + 1 := by omega
        rw [e, getLast?_take_succ s _ (by omega)] at h
        cases h
        apply hhigh
        rw [← hdrop, List.getD_eq_getElem?_getD, List.getElem?_drop] at hbyte
        rw [List.getD_eq_getElem?_getD]
        have e2 : j + (w - 1) = j + w - 1 := by omega
        rw [e2] at hbyte
        exact hbyte
      · have e : w = 1 := by omega
        rw [e, getLast?_take_succ s _ h2] at h
        cases h
        exact hhigh _ hb
    · rename_i hb
      have e : ((j : Int) + 1).toNat = j + 1 := by omega
      rw [e, getLast?_take_succ s _ h2] at h
      cases h
      exact h3 (by omega)


theorem TrimSpace_ends (s : GoString) (c : Char)
    (h : (TrimSpace s).head? = some c ∨ (TrimSpace s).getLast? = some c) :
    asciiSpace c = false := by
  unfold TrimSpace at h
  rcases h with h | h
  · obtain ⟨x, hx⟩ := trimRightSpace_start (trimLeftSpace s.length s)
    apply trimLeftSpace_head s.length s c
    rw [← hx]
    cases ht : trimRightSpace (trimLeftSpace s.length s) with
    | nil => rw [ht] at h; cases h
    | cons d t => rw [ht] at h; exact h
  · exact trimRightSpace_last _ c h

theorem hostLineReference_cases (b : GoString) :
    hostLineReference b = str "" ∨
      ∃ v : GoString, hostLineReference b = TrimSpace (v.takeWhile (fun c => c != '\n')) := by
  unfold hostLineReference
  cases afterFirst (str "\nHost:") b with
  | some v => exact Or.inr ⟨v, rfl⟩
  | none =>
    cases afterFirst (str "\nhost:") b with
    | some v => exact Or.inr ⟨v, rfl⟩
    | none => exact Or.inl rfl

/-- C14. The line scan `httpHostHeaderFromBytes` equals the reference on
every byte string: the bytes after the first `\nHost:`, or else after the
first `\nhost:`, up to the next `\n` or the end, trimmed by `bytes.TrimSpace`,
and the empty string when neither occurs (`afterFirst` yields what follows
the first occurrence, and nothing exactly when there is no occurrence). The
value never holds a `\n`, and its first and last bytes are never ASCII white
space (`\t`, `\n`, `\v`, `\f`, `\r`, blank). A `Host:` at the very start and
the spelling `HOST:` are not found. -/
theorem httpHostHeaderFromBytes_reference :
    (∀ b, httpHostHeaderFromBytes b = hostLineReference b) ∧
    (∀ key b v, afterFirst key b = some v →
      ∃ pre, b = pre ++ key ++ v ∧
        ∀ pre2 v2, b = pre2 ++ key ++ v2 → pre.length ≤ pre2.length) ∧
    (∀ key b, key ≠ [] → (afterFirst key b = none ↔ ¬ key <:+: b)) ∧
    (∀ b, '\n' ∉ httpHostHeaderFromBytes b) ∧
    (∀ b c, (httpHostHeaderFromBytes b).head? = some c ∨
        (httpHostHeaderFromBytes b).getLast? = some c → asciiSpace c = false) ∧
    (∀ b, ¬ str "\nHost:" <:+: b → ¬ str "\nhost:" <:+: b →
      httpHostHeaderFromBytes b = str "") ∧
    httpHostHeaderFromBytes (str "Host: foo\r\nX: y\r\n") = str "" ∧
    httpHostHeaderFromBytes (str "GET / HTTP/1.1\r\nHOST: foo\r\n") = str "" ∧
    httpHostHeaderFromBytes (str "GET / HTTP/1.1\r\nhost: foo \r\nHost:\t bar \r\n") = str "bar" := by
  refine ⟨httpHostHeaderFromBytes_eq, afterFirst_eq_some,
    fun key b hk => afterFirst_eq_none key b hk, fun b => ?_, fun b c h => ?_,
    fun b h1 h2 => ?_, by decide, by decide, by decide⟩
  · rw [httpHostHeaderFromBytes_eq]
    rcases hostLineReference_cases b with h | ⟨v, h⟩
    · rw [h]; decide
    · rw [h]
      intro hmem
      have h2 := (TrimSpace_within _).subset hmem
      have h3 := List.mem_takeWhile_imp h2
      simp at h3
  · rw [httpHostHeaderFromBytes_eq] at h
    rcases hostLineReference_cases b with h0 | ⟨v, h0⟩
    · rw [h0] at h
      rcases h with h | h <;> cases h
    · rw [h0] at h
      exact TrimSpace_ends _ c h
  · rw [httpHostHeaderFromBytes_eq]
    unfold hostLineReference
    rw [(afterFirst_eq_none _ b (by decide)).2 h1, (afterFirst_eq_none _ b (by decide)).2 h2]

/-! ## The window of `httpHostHeader` -/

theorem httpHostHeaderWindow_eq (k : Nat) (br : Reader) :
    httpHostHeaderWindow k br =
      if k + 1 > maxPeek then br.data else (Reader.peekFill (k + 1) (k + 1) br).data := by
  unfold httpHostHeaderWindow
  simp only
  by_cases hk : k + 1 > maxPeek
  · simp only [hk, if_true]
    exact (Reader.Peek_buffered br).1
  · simp only [hk, if_false]
    rw [Reader.Peek_eq]
    generalize Reader.peekFill (k + 1) (k + 1) br = b1
    simp only
    have hb := Reader.Peek_buffered (peekReader b1 (k + 1))
    by_cases hgt : (peekReader b1 (k + 1)).Buffered > k + 1
    · simp only [hgt, if_true]
      rw [hb.1, peekReader_data]
    · simp only [hgt, if_false]
      simp only [Reader.Buffered, peekReader_data] at hgt
      split
      · rw [List.take_of_length_le (by omega)]
      · rfl

theorem httpHostHeaderWindows_succ (rr : GoString → Option Request) (fuel k : Nat)
    (br : Reader) :
    httpHostHeaderWindows rr (fuel + 1) k br =
      if k + 1 > maxPeek then [br.data]
      else
        (Reader.peekFill (k + 1) (k + 1) br).data ::
          match decideWindow rr (Reader.peekFill (k + 1) (k + 1) br).data
              (peekErr (Reader.peekFill (k + 1) (k + 1) br) (k + 1)) with
          | some _ => []
          | none => httpHostHeaderWindows rr fuel
              (max (k + 1) (Reader.peekFill (k + 1) (k + 1) br).data.length)
              (peekReader (Reader.peekFill (k + 1) (k + 1) br) (k + 1)) := by
  rw [httpHostHeaderWindows, httpHostHeaderStep_eq, httpHostHeaderWindow_eq]
  by_cases hk : k + 1 > maxPeek
  · simp only [hk, if_true]
  · simp only [hk, if_false]
    cases decideWindow rr (Reader.peekFill (k + 1) (k + 1) br).data
      (peekErr (Reader.peekFill (k + 1) (k + 1) br) (k + 1)) <;> rfl

theorem Reader.fillRead_le (i : Nat) (b : Reader) (h : b.data.length ≤ b.size) :
    (Reader.fillRead i b).data.length ≤ b.size := by
  induction i generalizing b with
  | zero => exact h
  | succ i ih =>
    unfold Reader.fillRead
    have hl := Source.Read_length b.rd (b.size - (b.r + b.data.length))
    rcases hr : b.rd.Read (b.size - (b.r + b.data.length)) with ⟨bytes, err, rd⟩
    rw [hr] at hl
    simp only at hl
    have hnew : (b.data ++ bytes).length ≤ b.size := by
      rw [List.length_append]; omega
    cases err with
    | some e => exact hnew
    | none =>
      simp only
      split
      · exact hnew
      · exact ih { b with data := b.data ++ bytes, rd := rd } hnew

theorem Reader.fill_le (b : Reader) (h : b.data.length ≤ b.size) :
    b.fill.data.length ≤ b.size := by
  unfold Reader.fill
  split
  · exact Reader.fillRead_le _ { b with r := 0 } h
  · exact Reader.fillRead_le _ b h

theorem Reader.peekFill_le (n fuel : Nat) (b : Reader) (h : b.data.length ≤ b.size) :
    (Reader.peekFill n fuel b).data.length ≤ b.size := by
  induction fuel generalizing b with
  | zero => exact h
  | succ fuel ih =>
    unfold Reader.peekFill
    split
    · have := ih b.fill (by rw [Reader.fill_size]; exact Reader.fill_le b h)
      rw [Reader.fill_size] at this
      exact this
    · exact h

theorem httpHostHeaderWindows_le (rr : GoString → Option Request) (fuel k : Nat)
    (br : Reader) (h : br.data.length ≤ br.size) :
    ∀ w ∈ httpHostHeaderWindows rr fuel k br, w.length ≤ br.size := by
  induction fuel generalizing k br with
  | zero => intro w hw; simp [httpHostHeaderWindows] at hw
  | succ fuel ih =>
    intro w hw
    rw [httpHostHeaderWindows_succ] at hw
    split at hw
    · simp only [List.mem_singleton] at hw
      rw [hw]; exact h
    · have hle := Reader.peekFill_le (k + 1) (k + 1) br h
      have hs := Reader.peekFill_size (k + 1) (k + 1) br
      generalize Reader.peekFill (k + 1) (k + 1) br = b1 at hw hle hs
      simp only [List.mem_cons] at hw
      rcases hw with rfl | hw
      · exact hle
      · split at hw
        · simp at hw
        · have := ih _ (peekReader b1 (k + 1))
            (by rw [peekReader_data, peekReader_size, hs]; exact hle) w hw
          rw [peekReader_size, hs] at this
          exact this

/-! ## Streams that agree until the buffer is full -/

theorem eventBytes_cons (ev : ReadEvent) (l : List ReadEvent) :
    eventBytes (ev :: l) = ev.data.length + eventBytes l := by
  simp [eventBytes]

theorem Source.Read_agree (rd1 rd2 : Source) (max : Nat) (pre rest1 rest2 : List ReadEvent)
    (e1 : rd1.events = pre ++ rest1) (e2 : rd2.events = pre ++ rest2) (hmax : 0 < max)
    (hb : max ≤ eventBytes pre) :
    (rd1.Read max).1 = (rd2.Read max).1 ∧ (rd1.Read max).2.1 = (rd2.Read max).2.1 ∧
    ∃ pre2, (rd1.Read max).2.2.events = pre2 ++ rest1 ∧
      (rd2.Read max).2.2.events = pre2 ++ rest2 ∧
      (max ≤ (rd1.Read max).1.length + eventBytes pre2) := by
  unfold Source.Read
  rw [e1, e2]
  cases pre with
  | nil =>
    simp only [eventBytes, List.map_nil, List.sum_nil] at hb
    omega
  | cons ev pre =>
    rw [eventBytes_cons] at hb
    simp only [List.cons_append]
    by_cases hle : ev.data.length ≤ max
    · simp only [hle, if_true]
      exact ⟨trivial, trivial, pre, rfl, rfl, by omega⟩
    · simp only [hle, if_false]
      refine ⟨trivial, trivial, { ev with data := ev.data.drop max } :: pre, rfl, rfl, ?_⟩
      simp only [List.length_take]
      omega

theorem Reader.fillRead_agree (i : Nat) (b1 b2 : Reader) (h : b1.Agree b2) (hr : b1.r = 0)
    (hfree : b1.data.length < b1.size) :
    (Reader.fillRead i b1).Agree (Reader.fillRead i b2) := by
  induction i generalizing b1 b2 with
  | zero =>
    obtain ⟨h1, h2, h3, h4, h5⟩ := h
    exact ⟨h1, h2, h3, rfl, h5⟩
  | succ i ih =>
    obtain ⟨h1, h2, h3, h4, pre, rest1, rest2, e1, e2, hb⟩ := h
    have hmaxeq : b2.size - (b2.r + b2.data.length) = b1.size - (b1.r + b1.data.length) := by
      rw [h1, h2, h3]
    have hra := Source.Read_agree b1.rd b2.rd (b1.size - (b1.r + b1.data.length)) pre rest1 rest2
      e1 e2 (by omega) (by omega)
    unfold Reader.fillRead
    rw [hmaxeq]
    rcases hr1 : b1.rd.Read (b1.size - (b1.r + b1.data.length)) with ⟨bytes1, err1, rd1⟩
    rcases hr2 : b2.rd.Read (b1.size - (b1.r + b1.data.length)) with ⟨bytes2, err2, rd2⟩
    rw [hr1, hr2] at hra
    simp only at hra
    obtain ⟨rfl, rfl, pre2, f1, f2, hb2⟩ := hra
    have hag : Reader.Agree { b1 with data := b1.data ++ bytes1, rd := rd1 }
        { b2 with data := b2.data ++ bytes1, rd := rd2 } :=
      ⟨h1, h2, by simp only [h3], h4, pre2, rest1, rest2, f1, f2, by
        simp only [List.length_append]; omega⟩
    cases err1 with
    | some e =>
      obtain ⟨g1, g2, g3, _, g5⟩ := hag
      exact ⟨g1, g2, g3, rfl, g5⟩
    | none =>
      simp only
      split
      · exact hag
      · rename_i hlen
        have h0 : bytes1 = [] := by
          cases bytes1 with
          | nil => rfl
          | cons c t => simp at hlen
        subst h0
        exact ih _ _ hag hr (by simpa using hfree)

theorem Reader.fill_agree (b1 b2 : Reader) (h : b1.Agree b2)
    (hfree : b1.data.length < b1.size) : b1.fill.Agree b2.fill := by
  unfold Reader.fill
  have h2 := h.2.1
  by_cases hr : b1.r > 0
  · have hr2 : b2.r > 0 := by omega
    simp only [hr, hr2, if_true]
    obtain ⟨g1, g2, g3, g4, g5⟩ := h
    exact Reader.fillRead_agree _ { b1 with r := 0 } { b2 with r := 0 }
      ⟨g1, rfl, g3, g4, g5⟩ rfl hfree
  · have hr2 : ¬ b2.r > 0 := by omega
    simp only [hr, hr2, if_false]
    exact Reader.fillRead_agree _ b1 b2 h (by omega) hfree

theorem Reader.peekFill_agree (n fuel : Nat) (b1 b2 : Reader) (h : b1.Agree b2) :
    (Reader.peekFill n fuel b1).Agree (Reader.peekFill n fuel b2) := by
  induction fuel generalizing b1 b2 with
  | zero => exact h
  | succ fuel ih =>
    unfold Reader.peekFill
    obtain ⟨h1, h2, h3, h4, h5⟩ := id h
    rw [← h1, ← h3, ← h4]
    split
    · rename_i hc
      exact ih _ _ (Reader.fill_agree b1 b2 h hc.2.1)
    · exact h

theorem peekReader_agree (b1 b2 : Reader) (p : Nat) (h : b1.Agree b2) :
    (peekReader b1 p).Agree (peekReader b2 p) := by
  obtain ⟨h1, h2, h3, h4, h5⟩ := id h
  have hlen : b2.data.length = b1.data.length := by rw [h3]
  unfold peekReader
  by_cases c1 : p > b1.size
  · have c1b : p > b2.size := by omega
    simp only [c1, c1b, if_true]
    exact h
  · have c1b : ¬ p > b2.size := by omega
    simp only [c1, c1b, if_false]
    by_cases c2 : b1.data.length < p
    · have c2b : b2.data.length < p := by omega
      simp only [c2, c2b, if_true]
      exact ⟨h1, h2, h3, rfl, h5⟩
    · have c2b : ¬ b2.data.length < p := by omega
      simp only [c2, c2b, if_false]
      exact h

theorem peekErr_agree (b1 b2 : Reader) (p : Nat) (h : b1.Agree b2) :
    peekErr b1 p = peekErr b2 p := by
  obtain ⟨h1, h2, h3, h4, h5⟩ := h
  unfold peekErr
  rw [← h1, ← h3, ← h4]

theorem httpHostHeaderLoop_agree (rr : GoString → Option Request) (fuel k : Nat)
    (b1 b2 : Reader) (h : b1.Agree b2) :
    (httpHostHeaderLoop rr fuel k b1).map Prod.fst =
      (httpHostHeaderLoop rr fuel k b2).map Prod.fst := by
  induction fuel generalizing k b1 b2 with
  | zero => rfl
  | succ fuel ih =>
    rw [httpHostHeaderLoop_succ, httpHostHeaderLoop_succ]
    by_cases hk : k + 1 > maxPeek
    · rw [if_pos hk, if_pos hk, h.2.2.1]
      rfl
    · rw [if_neg hk, if_neg hk]
      have ha := Reader.peekFill_agree (k + 1) (k + 1) b1 b2 h
      generalize Reader.peekFill (k + 1) (k + 1) b1 = c1 at ha
      generalize Reader.peekFill (k + 1) (k + 1) b2 = c2 at ha
      rw [← peekErr_agree c1 c2 _ ha, ← ha.2.2.1]
      cases decideWindow rr c1.data (peekErr c1 (k + 1)) with
      | some host => rfl
      | none => exact ih _ _ _ (peekReader_agree c1 c2 _ ha)

/-- C19, as the code has it. The slices that `httpHostHeader` examines are
never longer than the buffer of the reader: the bound is the capacity of the
buffer, not `maxPeek`. For a reader whose buffer has at most 4096 bytes (the
default reader has 4096) no slice is longer than 4096 bytes, and the value
returned is the same on every stream whose reads are the same until 4096
bytes are delivered or buffered, whatever follows. -/
theorem httpHostHeader_window_bound (rr : GoString → Option Request) (br : Reader)
    (hinv : br.data.length ≤ br.size) :
    (∀ w ∈ httpHostHeaderWindows rr (maxPeek + 1) 0 br, w.length ≤ br.size) ∧
    (br.size ≤ 4096 →
      (∀ w ∈ httpHostHeaderWindows rr (maxPeek + 1) 0 br, w.length ≤ 4096) ∧
      ∀ pre rest rest2 final2, br.rd.events = pre ++ rest →
        4096 ≤ br.data.length + eventBytes pre →
        (httpHostHeader rr { br with rd := { events := pre ++ rest2, final := final2 } }).map
          Prod.fst = (httpHostHeader rr br).map Prod.fst) := by
  have hw := httpHostHeaderWindows_le rr (maxPeek + 1) 0 br hinv
  refine ⟨hw, fun hs => ⟨fun w hmem => le_trans (hw w hmem) hs, ?_⟩⟩
  intro pre rest rest2 final2 hev hlen
  exact (httpHostHeaderLoop_agree rr _ 0 br
    { br with rd := { events := pre ++ rest2, final := final2 } }
    ⟨rfl, rfl, rfl, rfl, pre, rest, rest2, hev, rfl, by omega⟩).symm

/-! ## A buffer larger than `maxPeek` -/

theorem afterFirst_skip (key pre v : GoString) (c0 : Char) (kt : GoString)
    (hk : key = c0 :: kt) (hpre : c0 ∉ pre) :
    afterFirst key (pre ++ (key ++ v)) = some v := by
  induction pre with
  | nil =>
    subst hk
    simp only [List.nil_append, List.cons_append]
    unfold afterFirst
    rw [if_pos ⟨v, rfl⟩]
    simp
  | cons c pre ih =>
    simp only [List.cons_append]
    unfold afterFirst
    have hc : ¬ key <+: c :: (pre ++ (key ++ v)) := by
      rintro ⟨t, ht⟩
      subst hk
      simp only [List.cons_append, List.cons.injEq] at ht
      exact hpre (by rw [ht.1]; exact List.mem_cons_self _ _)
    rw [if_neg hc]
    exact ih (fun h => hpre (List.mem_cons_of_mem _ h))

theorem httpHostHeaderFromBytes_after_line (line tail : GoString) (h : '\n' ∉ line) :
    httpHostHeaderFromBytes (line ++ '\r' :: (str "\nHost:" ++ tail)) =
      TrimSpace (tail.takeWhile (fun c => c != '\n')) := by
  rw [httpHostHeaderFromBytes_eq]
  unfold hostLineReference
  have e : line ++ '\r' :: (str "\nHost:" ++ tail) = (line ++ ['\r']) ++ (str "\nHost:" ++ tail) := by
    simp
  rw [e, afterFirst_skip (str "\nHost:") (line ++ ['\r']) tail '\n' (str "Host:") rfl (by
    intro hm
    rcases List.mem_append.1 hm with h1 | h1
    · exact h h1
    · simp at h1)]

theorem hasTerminator_after_line (line tail : GoString)
    (hline : ∀ c ∈ line, c ≠ '\r' ∧ c ≠ '\n') (htail : hasTerminator tail = false) :
    hasTerminator (line ++ tail) = false := by
  rw [hasTerminator_eq_false] at htail ⊢
  exact noTerm_append line tail hline htail

theorem longRequestLine_plain : ∀ c ∈ longRequestLine, c ≠ '\r' ∧ c ≠ '\n' := by
  intro c hc
  unfold longRequestLine at hc
  rcases List.mem_append.1 hc with h1 | h1
  · rcases List.mem_append.1 h1 with h2 | h2
    · exact (by decide : ∀ c ∈ str "GET /", c ≠ '\r' ∧ c ≠ '\n') c h2
    · rw [List.eq_of_mem_replicate h2]
      decide
  · exact (by decide : ∀ c ∈ str " HTTP/1.1", c ≠ '\r' ∧ c ≠ '\n') c h1

theorem longRequestLine_length : longRequestLine.length = 4114 := by
  unfold longRequestLine
  rw [List.length_append, List.length_append, List.length_replicate]
  rfl

theorem longRequestLine_head : longRequestLine.head? = some 'G' := by
  unfold longRequestLine
  rw [List.append_assoc]
  rfl

/-- A reader over a stream that delivers more than `maxPeek` bytes in one
read, with a buffer that holds them: the first iteration buffers them all and
examines them all, and the second one line-scans them all. -/
theorem httpHostHeader_one_read (rr : GoString → Option Request) (L : GoString) (size : Nat)
    (h16 : 16 ≤ size) (hL : maxPeek < L.length) (hsize : L.length ≤ size)
    (hterm : hasTerminator L = false)
    (hup : ∀ c, L.head? = some c → 'A' ≤ c ∧ c ≤ 'Z') :
    (httpHostHeader rr (NewReaderSize (stringsReader L) size)).map Prod.fst
      = some (httpHostHeaderFromBytes L) ∧
    L ∈ httpHostHeaderWindows rr (maxPeek + 1) 0 (NewReaderSize (stringsReader L) size) := by
  have hpos : 0 < L.length := by omega
  have hfill : Reader.peekFill (0 + 1) (0 + 1) (NewReaderSize (stringsReader L) size) =
      { size := size, r := 0, data := L, err := none,
        rd := { events := [], final := Error.EOF } } := by
    have h1 : ¬ size < 16 := by omega
    simp only [NewReaderSize, stringsReader, h1, if_false, Reader.peekFill, List.length_nil,
      Nat.zero_add, Nat.lt_one_iff, true_and, and_true, Reader.fill, gt_iff_lt, lt_self_iff_false,
      maxConsecutiveEmptyReads, Reader.fillRead, Source.Read, Nat.add_zero, Nat.sub_zero, hsize,
      if_true, List.nil_append, hpos]
    have h2 : 0 < size := by omega
    simp only [h2, if_true]
  obtain ⟨b1, hfill, hsz1, hdt1⟩ : ∃ b1,
      Reader.peekFill (0 + 1) (0 + 1) (NewReaderSize (stringsReader L) size) = b1 ∧
        b1.size = size ∧ b1.data = L := ⟨_, hfill, rfl, rfl⟩
  have hpe : peekErr b1 (0 + 1) = none := by
    unfold peekErr
    rw [hsz1, hdt1, if_neg (by omega), if_neg (by omega)]
  have hpr := (peekErr_eq_none _ _ hpe).2.2
  have hdw : decideWindow rr L none = none := by
    rw [decideWindow_of_start rr L L none (List.prefix_refl _) hterm hup]
    simp
  have hmax : max (0 + 1) L.length = L.length := max_eq_right (by omega)
  constructor
  · unfold httpHostHeader
    rw [httpHostHeaderLoop_succ, if_neg (by rw [maxPeek_eq]; omega), hfill, hpe, hdt1]
    simp only [hdw, hpr, hmax]
    have hf : maxPeek = (maxPeek - 1) + 1 := by rw [maxPeek_eq]
    rw [hf, httpHostHeaderLoop_succ, if_pos (by omega), hdt1]
    rfl
  · rw [httpHostHeaderWindows_succ, if_neg (by rw [maxPeek_eq]; omega), hfill, hdt1]
    exact List.mem_cons_self _ _

/-- C19 fails for a buffer larger than `maxPeek`. Through a reader with a
buffer of 8192 bytes, over a stream that delivers a request line of 4114
bytes and a Host header line in one read, `httpHostHeader` examines all 4127
bytes at once, and the value it returns is taken from the bytes after the
first 4096: two streams with the same first 4096 bytes yield `foo` and `bar`. -/
theorem httpHostHeader_large_buffer :
    (∃ w ∈ httpHostHeaderWindows http.ReadRequest (maxPeek + 1) 0
        (NewReaderSize (stringsReader (longRequestLine ++ str "\r\nHost: foo\r\n")) 8192),
      4096 < w.length) ∧
    4096 ≤ longRequestLine.length ∧
    (httpHostHeader http.ReadRequest
      (NewReaderSize (stringsReader (longRequestLine ++ str "\r\nHost: foo\r\n")) 8192)).map
        Prod.fst = some (str "foo") ∧
    (httpHostHeader http.ReadRequest
      (NewReaderSize (stringsReader (longRequestLine ++ str "\r\nHost: bar\r\n")) 8192)).map
        Prod.fst = some (str "bar") := by
  have hlen : ∀ t : GoString, t.length = 13 → (longRequestLine ++ t).length = 4127 := by
    intro t ht
    rw [List.length_append, longRequestLine_length, ht]
  have hup : ∀ t : GoString, ∀ c, (longRequestLine ++ t).head? = some c → 'A' ≤ c ∧ c ≤ 'Z' := by
    intro t c hc
    rw [List.head?_append_of_ne_nil _ (by
      intro h0
      have := longRequestLine_length
      rw [h0] at this
      cases this), longRequestLine_head] at hc
    cases hc
    decide
  have h1 := httpHostHeader_one_read http.ReadRequest
    (longRequestLine ++ str "\r\nHost: foo\r\n") 8192 (by omega)
    (by rw [hlen (str "\r\nHost: foo\r\n") (by decide), maxPeek_eq]; omega)
    (by rw [hlen (str "\r\nHost: foo\r\n") (by decide)]; omega)
    (hasTerminator_after_line _ _ longRequestLine_plain (by decide)) (hup _)
  have h2 := httpHostHeader_one_read http.ReadRequest
    (longRequestLine ++ str "\r\nHost: bar\r\n") 8192 (by omega)
    (by rw [hlen (str "\r\nHost: bar\r\n") (by decide), maxPeek_eq]; omega)
    (by rw [hlen (str "\r\nHost: bar\r\n") (by decide)]; omega)
    (hasTerminator_after_line _ _ longRequestLine_plain (by decide)) (hup _)
  have hn : '\n' ∉ longRequestLine := fun h => (longRequestLine_plain _ h).2 rfl
  refine ⟨⟨_, h1.2, by rw [hlen (str "\r\nHost: foo\r\n") (by decide)]; omega⟩, by rw [longRequestLine_length]; omega, ?_, ?_⟩
  · rw [h1.1]
    have := httpHostHeaderFromBytes_after_line longRequestLine (str " foo\r\n") hn
    rw [show longRequestLine ++ str "\r\nHost: foo\r\n" =
      longRequestLine ++ '\r' :: (str "\nHost:" ++ str " foo\r\n") from rfl, this]
    decide
  · rw [h2.1]
    have := httpHostHeaderFromBytes_after_line longRequestLine (str " bar\r\n") hn
    rw [show longRequestLine ++ str "\r\nHost: bar\r\n" =
      longRequestLine ++ '\r' :: (str "\nHost:" ++ str " bar\r\n") from rfl, this]
    decide

/-- C19, an instance: the default reader over the request of the test; every
slice examined has at most 4096 bytes. -/
theorem httpHostHeader_window_bound_witness :
    (NewReader (stringsReader testRequest)).data.length
      ≤ (NewReader (stringsReader testRequest)).size ∧
    (∀ w ∈ httpHostHeaderWindows http.ReadRequest (maxPeek + 1) 0
      (NewReader (stringsReader testRequest)), w.length ≤ 4096) :=
  ⟨by decide,
    ((httpHostHeader_window_bound http.ReadRequest (NewReader (stringsReader testRequest))
      (by decide)).2 (by decide)).1⟩

/-! ## The parser model on well-formed heads -/

theorem dropWhile_append_cons (p : Char → Bool) (a b : GoString) (c : Char) (hc : p c = false) :
    (a ++ c :: b).dropWhile p = a.dropWhile p ++ c :: b := by
  induction a with
  | nil => simp [List.dropWhile, hc]
  | cons x a ih =>
    simp only [List.cons_append, List.dropWhile_cons]
    split
    · exact ih
    · rfl

theorem isBlank_of_token (c : Char) (h : http.isToken c = true) : isBlank c = false := by
  cases hb : isBlank c
  · rfl
  · exfalso
    unfold isBlank at hb
    simp only [Bool.or_eq_true, beq_iff_eq] at hb
    rcases hb with h1 | h1
    · exact http.isToken_ne c ' ' (by decide) h h1
    · exact http.isToken_ne c '\t' (by decide) h h1

/-- The trimmed form of a header line whose name starts with a token byte. -/
theorem http.trim_headerLine (name raw : GoString) (k0 : Char) (kt : GoString)
    (hk : name = k0 :: kt) (hk0 : http.isToken k0 = true) :
    http.trim (name ++ ':' :: raw) = name ++ ':' :: (raw.reverse.dropWhile isBlank).reverse := by
  unfold http.trim
  have hp : (fun c : Char => c == ' ' || c == '\t') = isBlank := rfl
  rw [hp]
  have e1 : (name ++ ':' :: raw).dropWhile isBlank = name ++ ':' :: raw := by
    rw [hk, List.cons_append, List.dropWhile_cons_of_neg]
    rw [isBlank_of_token k0 hk0]
    simp
  rw [e1]
  have e2 : (name ++ ':' :: raw).reverse = raw.reverse ++ ':' :: name.reverse := by
    simp
  rw [e2, dropWhile_append_cons isBlank _ _ ':' (by decide)]
  simp

theorem http.canonicalKey_isEmpty (u : Bool) (k : GoString) :
    (http.canonicalKey u k).isEmpty = k.isEmpty := by
  cases k with
  | nil => rfl
  | cons c t => rfl

theorem http.canonicalMIMEHeaderKey_token (k : GoString) (h : ∀ c ∈ k, http.isToken c = true) :
    http.canonicalMIMEHeaderKey k = some (http.canonicalKey true k) := by
  unfold http.canonicalMIMEHeaderKey
  have h1 : k.all (fun c => http.isToken c || c == ' ') = true := by
    rw [List.all_eq_true]
    intro c hc
    rw [h c hc]
    rfl
  have h2 : k.any (fun c => c == ' ') = false := by
    rw [List.any_eq_false]
    intro c hc
    simp only [beq_iff_eq]
    exact http.isToken_ne c ' ' (by decide) (h c hc)
  rw [h1, h2]
  rfl

theorem http.readContinued_of_not (fuel : Nat) (buf rest : GoString)
    (h : ¬ (rest.head? = some ' ' ∨ rest.head? = some '\t')) :
    http.readContinued fuel buf rest = (buf, rest) := by
  cases fuel with
  | zero => rfl
  | succ f => simp only [http.readContinued, h, if_false]

theorem http.headerGet_headers (headers : List (GoString × GoString))
    (m : List (GoString × List GoString)) (key : GoString) :
    http.headerGet
      (headers.foldl (fun m kv => http.headerAdd m (http.canonicalKey true kv.1) (fieldValue kv.2))
        m) key = http.headerGet m key ++ fieldValues key headers := by
  unfold fieldValues
  induction headers generalizing m with
  | nil => simp
  | cons kv hs ih =>
    simp only [List.foldl_cons, ih, http.headerGet_headerAdd, List.filter_cons]
    by_cases h : http.canonicalKey true kv.1 = key
    · simp [h]
    · simp [h]

theorem headerBlock_cons (eol : GoString) (kv : GoString × GoString)
    (hs : List (GoString × GoString)) (rest : GoString) :
    headerBlock eol (kv :: hs) ++ rest =
      (kv.1 ++ ':' :: kv.2) ++ (eol ++ (headerBlock eol hs ++ rest)) := by
  unfold headerBlock headerLine
  simp [str]

theorem http.readLine_lf (line rest : GoString) (h : ∀ c ∈ line, c ≠ '\r' ∧ c ≠ '\n') :
    http.readLine (line ++ '\n' :: rest) = some (line, rest) := by
  have ht : (line ++ '\n' :: rest).takeWhile (fun c => c != '\n') = line :=
    takeWhile_ne_append line rest '\n' (fun c hc => (h c hc).2)
  rw [http.readLine_eq _ (by simp), ht]
  have hd : List.drop (line.length + 1) (line ++ '\n' :: rest) = rest := by
    rw [List.drop_append]
    rfl
  rw [hd]
  have hl : ¬ line.getLast? = some '\r' := by
    intro hg
    exact (h '\r' (List.mem_of_getLast?_eq_some hg)).1 rfl
  rw [if_neg (fun hc => hl hc.2)]

/-- Reading a line that ends with `\r\n` or with `\n`. -/
theorem http.readLine_eol (eol : GoString) (heol : LineEnd eol) (line rest : GoString)
    (h : ∀ c ∈ line, c ≠ '\r' ∧ c ≠ '\n') :
    http.readLine (line ++ (eol ++ rest)) = some (line, rest) := by
  rcases heol with rfl | rfl
  · exact http.readLine_crlf line rest (fun c hc => (h c hc).2)
  · exact http.readLine_lf line rest h

theorem headerLine_length (eol : GoString) (kv : GoString × GoString) :
    1 ≤ (headerLine eol kv).length := by
  unfold headerLine
  simp only [str, List.length_append]
  have : ":".toList.length = 1 := rfl
  omega

theorem headerBlock_length (eol : GoString) (headers : List (GoString × GoString)) :
    headers.length ≤ (headerBlock eol headers).length := by
  induction headers with
  | nil => simp
  | cons kv hs ih =>
    unfold headerBlock at ih ⊢
    simp only [List.map_cons, List.flatten_cons, List.length_append, List.length_cons]
    have := headerLine_length eol kv
    omega

/-- What follows a header line of a well-formed block does not start with a
blank: it is the name of the next header or the blank line. -/
theorem headerBlock_head (eol : GoString) (heol : LineEnd eol)
    (headers : List (GoString × GoString))
    (hwf : ∀ kv ∈ headers, WellFormedHeader kv) (extra : GoString) :
    ¬ ((headerBlock eol headers ++ (eol ++ extra)).head? = some ' ' ∨
      (headerBlock eol headers ++ (eol ++ extra)).head? = some '\t') := by
  cases headers with
  | nil =>
    rcases heol with rfl | rfl
    · simp [headerBlock, crlf, str]
    · simp [headerBlock, lf, str]
  | cons kv hs =>
    obtain ⟨hk0, hktok, _⟩ := hwf kv (List.mem_cons_self _ _)
    obtain ⟨k0, kt, hk⟩ : ∃ k0 kt, kv.1 = k0 :: kt := by
      cases hkv : kv.1 with
      | nil => exact absurd hkv hk0
      | cons a b => exact ⟨a, b, rfl⟩
    have hk0tok : http.isToken k0 = true := hktok k0 (by rw [hk]; exact List.mem_cons_self _ _)
    rw [headerBlock_cons, hk]
    simp only [List.cons_append, List.head?_cons, Option.some.injEq]
    rintro (h | h)
    · exact http.isToken_ne k0 ' ' (by decide) hk0tok h
    · exact http.isToken_ne k0 '\t' (by decide) hk0tok h

/-- The header block of well-formed headers is read line by line into the
header map, up to the blank line. -/
theorem http.readMIMEHeader_block (eol : GoString) (heol : LineEnd eol)
    (headers : List (GoString × GoString))
    (hwf : ∀ kv ∈ headers, WellFormedHeader kv) (extra : GoString) (fuel : Nat)
    (m : List (GoString × List GoString)) (hf : headers.length < fuel) :
    http.readMIMEHeader fuel (headerBlock eol headers ++ (eol ++ extra)) m =
      some (headers.foldl
        (fun m kv => http.headerAdd m (http.canonicalKey true kv.1) (fieldValue kv.2)) m) := by
  induction headers generalizing fuel m with
  | nil =>
    obtain ⟨f, rfl⟩ : ∃ f, fuel = f + 1 := ⟨fuel - 1, by omega⟩
    have hr := http.readLine_eol eol heol [] extra (by simp)
    simp only [List.nil_append] at hr
    simp [headerBlock, http.readMIMEHeader, hr]
  | cons kv hs ih =>
    obtain ⟨f, rfl⟩ : ∃ f, fuel = f + 1 := ⟨fuel - 1, by omega⟩
    obtain ⟨hk0, hktok, hvval⟩ := hwf kv (List.mem_cons_self _ _)
    have hline : ∀ c ∈ kv.1 ++ ':' :: kv.2, c ≠ '\r' ∧ c ≠ '\n' := by
      intro c hc
      simp only [List.mem_append, List.mem_cons] at hc
      rcases hc with hc | rfl | hc
      · exact ⟨http.isToken_ne c '\r' (by decide) (hktok c hc),
          http.isToken_ne c '\n' (by decide) (hktok c hc)⟩
      · decide
      · exact ⟨http.validHeaderValueByte_ne c '\r' (by decide) (hvval c hc),
          http.validHeaderValueByte_ne c '\n' (by decide) (hvval c hc)⟩
    rw [headerBlock_cons, http.readMIMEHeader, http.readLine_eol eol heol _ _ hline]
    obtain ⟨k0, kt, hk⟩ : ∃ k0 kt, kv.1 = k0 :: kt := by
      cases hkv : kv.1 with
      | nil => exact absurd hkv hk0
      | cons a b => exact ⟨a, b, rfl⟩
    have hk0tok : http.isToken k0 = true := hktok k0 (by rw [hk]; exact List.mem_cons_self _ _)
    have hne : (kv.1 ++ ':' :: kv.2).isEmpty = false := by rw [hk]; rfl
    have hcolon : (kv.1 ++ ':' :: kv.2).contains ':' = true := by
      simp
    have htrim := http.trim_headerLine kv.1 kv.2 k0 kt hk hk0tok
    have hcont := http.readContinued_of_not (headerBlock eol hs ++ (eol ++ extra)).length
      (kv.1 ++ ':' :: (kv.2.reverse.dropWhile isBlank).reverse)
      (headerBlock eol hs ++ (eol ++ extra))
      (headerBlock_head eol heol hs (fun x hx => hwf x (List.mem_cons_of_mem _ hx)) extra)
    have hne2 : (kv.1 ++ ':' :: (kv.2.reverse.dropWhile isBlank).reverse).isEmpty = false := by
      rw [hk]; rfl
    have hcut : http.cut (kv.1 ++ ':' :: (kv.2.reverse.dropWhile isBlank).reverse) ':' =
        (kv.1, (kv.2.reverse.dropWhile isBlank).reverse, true) :=
      http.cut_append kv.1 _ ':' (fun c hc => http.isToken_ne c ':' (by decide) (hktok c hc))
    have hkey := http.canonicalMIMEHeaderKey_token kv.1 hktok
    have hvall : ((kv.2.reverse.dropWhile isBlank).reverse).all http.validHeaderValueByte
        = true := by
      rw [List.all_eq_true]
      intro c hc
      rw [List.mem_reverse] at hc
      exact hvval c (List.mem_reverse.1 ((List.dropWhile_sublist _).subset hc))
    have hkne : (http.canonicalKey true kv.1).isEmpty = false := by
      rw [http.canonicalKey_isEmpty, hk]; rfl
    have hp : (fun c : Char => c == ' ' || c == '\t') = isBlank := rfl
    simp only [hne, hcolon, htrim, hcont, hne2, hcut, hkey, hvall, hkne, hp, Bool.false_eq_true,
      if_false, Bool.not_true]
    exact ih (fun x hx => hwf x (List.mem_cons_of_mem _ hx)) f _
      (by simp only [List.length_cons] at hf; omega)

theorem http.ReadMIMEHeader_block (eol : GoString) (heol : LineEnd eol)
    (headers : List (GoString × GoString))
    (hwf : ∀ kv ∈ headers, WellFormedHeader kv) (extra : GoString) :
    http.ReadMIMEHeader (headerBlock eol headers ++ (eol ++ extra)) =
      some (headers.foldl
        (fun m kv => http.headerAdd m (http.canonicalKey true kv.1) (fieldValue kv.2)) []) := by
  unfold http.ReadMIMEHeader
  rw [if_neg (headerBlock_head eol heol headers hwf extra)]
  apply http.readMIMEHeader_block eol heol headers hwf
  have := headerBlock_length eol headers
  have h2 : 1 ≤ eol.length := by
    rcases heol with rfl | rfl <;> decide
  simp only [List.length_append]
  omega

theorem requestLine_plain (method target : GoString) (minor : Char)
    (hline : ∀ c ∈ method ++ target ++ [minor], c ≠ '\r' ∧ c ≠ '\n') :
    ∀ c ∈ method ++ ' ' :: (target ++ ' ' :: ['H', 'T', 'T', 'P', '/', '1', '.', minor]),
      c ≠ '\r' ∧ c ≠ '\n' := by
  intro c hc
  simp only [List.mem_append, List.mem_cons, List.mem_singleton] at hc
  rcases hc with hc | rfl | hc | rfl | rfl | rfl | rfl | rfl | rfl | rfl | rfl | hc
  · exact hline c (by simp [hc])
  · decide
  · exact hline c (by simp [hc])
  · decide
  · decide
  · decide
  · decide
  · decide
  · decide
  · decide
  · decide
  · rcases hc with rfl | hc
    · exact hline c (by simp)
    · cases hc

/-- No byte of the request line of a well-formed head is `\r` or `\n`. -/
theorem WellFormedLines_plain (method target : GoString) (minor : Char)
    (headers : List (GoString × GoString)) (hwf : WellFormedLines method target minor headers) :
    ∀ c ∈ method ++ target ++ [minor], c ≠ '\r' ∧ c ≠ '\n' := by
  obtain ⟨_, hmtok, _, htvis, _, hminor, _⟩ := hwf
  intro c hc
  simp only [List.mem_append, List.mem_singleton] at hc
  rcases hc with (hc | hc) | rfl
  · exact ⟨http.isToken_ne c '\r' (by decide) (hmtok c hc),
      http.isToken_ne c '\n' (by decide) (hmtok c hc)⟩
  · exact ⟨visible_ne c '\r' (by decide) (htvis c hc),
      visible_ne c '\n' (by decide) (htvis c hc)⟩
  · constructor
    · intro h
      rw [h] at hminor
      cases hminor
    · intro h
      rw [h] at hminor
      cases hminor

theorem requestHead_eq (eol method target : GoString) (minor : Char)
    (headers : List (GoString × GoString)) (extra : GoString) :
    requestHead eol method target minor headers ++ extra =
      (method ++ ' ' :: (target ++ ' ' :: ['H', 'T', 'T', 'P', '/', '1', '.', minor])) ++
        (eol ++ (headerBlock eol headers ++ (eol ++ extra))) := by
  unfold requestHead
  have e1 : str " " = [' '] := rfl
  have e2 : str " HTTP/1." = [' ', 'H', 'T', 'T', 'P', '/', '1', '.'] := rfl
  rw [e1, e2]
  simp

theorem http.readLine_requestHead (eol : GoString) (heol : LineEnd eol)
    (method target : GoString) (minor : Char)
    (headers : List (GoString × GoString)) (extra : GoString)
    (hline : ∀ c ∈ method ++ target ++ [minor], c ≠ '\r' ∧ c ≠ '\n') :
    http.readLine (requestHead eol method target minor headers ++ extra) =
      some (method ++ ' ' :: (target ++ ' ' :: ['H', 'T', 'T', 'P', '/', '1', '.', minor]),
        headerBlock eol headers ++ (eol ++ extra)) := by
  rw [requestHead_eq, http.readLine_eol eol heol _ _ (requestLine_plain method target minor hline)]

/-- The parser model reports an error for every head with two or more `Host`
headers in a well-formed header block, whatever follows the head: when the
request line is accepted, the header block is read and the test for more than
one `Host` header fails the request. -/
theorem http.ReadRequest_too_many_hosts (eol : GoString) (heol : LineEnd eol)
    (method target : GoString) (minor : Char)
    (headers : List (GoString × GoString)) (extra : GoString)
    (hline : ∀ c ∈ method ++ target ++ [minor], c ≠ '\r' ∧ c ≠ '\n')
    (hh : ∀ kv ∈ headers, WellFormedHeader kv)
    (hdup : 2 ≤ (hostValues headers).length) :
    http.ReadRequest (requestHead eol method target minor headers ++ extra) = none := by
  have hmime := http.ReadMIMEHeader_block eol heol headers hh extra
  have hcount : (http.headerGet
      (headers.foldl (fun m kv => http.headerAdd m (http.canonicalKey true kv.1) (fieldValue kv.2))
        []) (str "Host")).length > 1 := by
    rw [http.headerGet_headers]
    simp only [http.headerGet, List.nil_append]
    exact hdup
  unfold http.ReadRequest
  rw [http.readLine_requestHead eol heol method target minor headers extra hline]
  simp only
  cases http.parseRequestLine
    (method ++ ' ' :: (target ++ ' ' :: ['H', 'T', 'T', 'P', '/', '1', '.', minor])) with
  | none => rfl
  | some t =>
    obtain ⟨m, u, p⟩ := t
    simp only
    cases hm : http.validMethod m with
    | false => rfl
    | true =>
      simp only [Bool.not_true, Bool.false_eq_true, if_false]
      cases http.ParseHTTPVersion p with
      | none => rfl
      | some mm =>
        obtain ⟨ma, mi⟩ := mm
        simp only
        generalize http.parseRequestURIHost
          (if m = str "CONNECT" ∧ u.head? ≠ some '/' then str "http://" ++ u else u) = ru
        cases ru with
        | none => rfl
        | some uh =>
          simp only [hmime]
          rw [if_pos hcount]

/-- The parser model on a head of well-formed lines, whatever follows the
head: the request line is accepted and the header block is read; what is left
are the test for more than one `Host` header and the checks of `readTransfer`. -/
theorem http.ReadRequest_lines (eol : GoString) (heol : LineEnd eol)
    (method target : GoString) (minor : Char)
    (headers : List (GoString × GoString)) (extra : GoString)
    (hwf : WellFormedLines method target minor headers) :
    http.ReadRequest (requestHead eol method target minor headers ++ extra) =
      if (hostValues headers).length > 1 then none
      else if !http.readTransfer 1 (minor.toNat - 48)
          (fieldValues (str "Transfer-Encoding") headers)
          (fieldValues (str "Content-Length") headers) (fieldValues (str "Trailer") headers) then
        none
      else
        some {
          Host := (hostValues headers).headD []
          Header := fun key => if key = str "Host" then [] else
            http.headerGet (headers.foldl
              (fun m kv => http.headerAdd m (http.canonicalKey true kv.1) (fieldValue kv.2)) [])
              key } := by
  have hplain := WellFormedLines_plain method target minor headers hwf
  obtain ⟨hm0, hmtok, hthead, htvis, htesc, hminor, hh⟩ := hwf
  have hcut1 := http.cut_append method (target ++ ' ' :: ['H', 'T', 'T', 'P', '/', '1', '.', minor])
    ' ' (fun c hc => http.isToken_ne c ' ' (by decide) (hmtok c hc))
  have hcut2 := http.cut_append target ['H', 'T', 'T', 'P', '/', '1', '.', minor] ' '
    (fun c hc => visible_ne c ' ' (by decide) (htvis c hc))
  have hparse : http.parseRequestLine
      (method ++ ' ' :: (target ++ ' ' :: ['H', 'T', 'T', 'P', '/', '1', '.', minor])) =
      some (method, target, ['H', 'T', 'T', 'P', '/', '1', '.', minor]) := by
    unfold http.parseRequestLine
    rw [hcut1]
    simp only
    rw [hcut2]
    rfl
  have hmethod : http.validMethod method = true := by
    unfold http.validMethod
    have h1 : method.isEmpty = false := by
      obtain ⟨c, t, hc, _⟩ := hm0
      rw [hc]
      rfl
    rw [h1, List.all_eq_true.2 hmtok]
    rfl
  have hvers : http.ParseHTTPVersion ['H', 'T', 'T', 'P', '/', '1', '.', minor] =
      some (1, minor.toNat - 48) := by
    unfold http.ParseHTTPVersion
    simp only [hminor, Bool.and_true]
    rfl
  have huri : http.parseRequestURIHost
      (if method = str "CONNECT" ∧ target.head? ≠ some '/' then str "http://" ++ target
        else target) = some [] := by
    rw [if_neg (fun h => h.2 hthead)]
    obtain ⟨t, ht⟩ : ∃ t, target = '/' :: t := by
      cases target with
      | nil => cases hthead
      | cons a b =>
        simp only [List.head?_cons, Option.some.injEq] at hthead
        exact ⟨b, by rw [hthead]⟩
    unfold http.parseRequestURIHost
    have hany : target.any (fun c => decide (byteVal c < 0x20) || byteVal c == 0x7f) = false := by
      rw [List.any_eq_false]
      intro c hc
      have := htvis c hc
      simp only [Bool.or_eq_true, decide_eq_true_eq, beq_iff_eq, not_or]
      omega
    have hnil : target ≠ [] := by rw [ht]; simp
    have hstar : target ≠ ['*'] := by
      rw [ht]
      intro h
      cases h
    have hsch : http.getScheme target = some ([], target) := by
      rw [ht]
      rfl
    have hhead : (http.cut target '?').1.head? = some '/' := by
      rw [ht]
      unfold http.cut
      simp only [List.takeWhile_cons, show (('/' : Char) != '?') = true from rfl, if_true]
      split <;> rfl
    rw [hany]
    simp only [Bool.false_eq_true, if_false, hnil, hstar, hsch, hhead, ne_eq, not_true_eq_false,
      false_and, htesc, if_true]
  have hmime := http.ReadMIMEHeader_block eol heol headers hh extra
  have hget : ∀ key, http.headerGet
      (headers.foldl (fun m kv => http.headerAdd m (http.canonicalKey true kv.1) (fieldValue kv.2))
        []) key = fieldValues key headers := by
    intro key
    rw [http.headerGet_headers]
    rfl
  unfold http.ReadRequest
  rw [http.readLine_requestHead eol heol method target minor headers extra hplain]
  simp only [hparse, hmethod, hvers, huri, hmime, Bool.not_true, Bool.false_eq_true, if_false]
  rw [hget (str "Host"), hget (str "Transfer-Encoding"), hget (str "Content-Length"),
    hget (str "Trailer")]
  simp only [if_true]
  rfl

/-- The parser model reads every well-formed head with at most one `Host`
header, whatever follows it: the Host of the request is the value of the
`Host` header (empty when there is none), and no `Host` entry is left in the
header map. -/
theorem http.ReadRequest_requestHead (eol : GoString) (heol : LineEnd eol)
    (method target : GoString) (minor : Char)
    (headers : List (GoString × GoString)) (extra : GoString)
    (hwf : WellFormedHead method target minor headers)
    (hhost : (hostValues headers).length ≤ 1) :
    ∃ req, http.ReadRequest (requestHead eol method target minor headers ++ extra) = some req ∧
      req.Host = (hostValues headers).headD [] ∧ req.Header (str "Host") = [] := by
  have hfr := hwf.2
  unfold FramingAccepted at hfr
  rw [http.ReadRequest_lines eol heol method target minor headers extra hwf.1, if_neg (by omega),
    hfr]
  exact ⟨_, rfl, rfl, by simp⟩

/-- The parser model reports an error for every head of well-formed lines
whose headers that govern the body `net/http` rejects. -/
theorem http.ReadRequest_framing_rejected (eol : GoString) (heol : LineEnd eol)
    (method target : GoString) (minor : Char)
    (headers : List (GoString × GoString)) (extra : GoString)
    (hwf : WellFormedLines method target minor headers)
    (hfr : ¬ FramingAccepted minor headers) :
    http.ReadRequest (requestHead eol method target minor headers ++ extra) = none := by
  unfold FramingAccepted at hfr
  rw [http.ReadRequest_lines eol heol method target minor headers extra hwf]
  split
  · rfl
  · rw [Bool.not_eq_true] at hfr
    rw [hfr]
    rfl

/-! ## The blank line of a request head -/

/-- After a bare `\n`, no header block ends before a line that starts with
neither `\r` nor `\n`, nor before the end of the bytes. -/
theorem noTerm_lf (l : GoString)
    (hstart : l = [] ∨ ∃ c t, l = c :: t ∧ c ≠ '\r' ∧ c ≠ '\n')
    (h : ¬ crlfcrlf <:+: l ∧ ¬ lflf <:+: l) :
    ¬ crlfcrlf <:+: '\n' :: l ∧ ¬ lflf <:+: '\n' :: l := by
  have e1 : crlfcrlf = ['\r', '\n', '\r', '\n'] := rfl
  have e2 : lflf = ['\n', '\n'] := rfl
  rw [e1, e2] at h ⊢
  constructor
  · intro hinf
    rcases List.infix_cons_iff.1 hinf with hp | hinf2
    · exact absurd (List.cons_prefix_cons.1 hp).1 (by decide)
    · exact h.1 hinf2
  · intro hinf
    rcases List.infix_cons_iff.1 hinf with hp | hinf2
    · have h2 := (List.cons_prefix_cons.1 hp).2
      rcases hstart with rfl | ⟨c, t, rfl, _, hc2⟩
      · have := h2.length_le
        simp at this
      · exact hc2 (List.cons_prefix_cons.1 h2).1.symm
    · exact h.2 hinf2

theorem noTerm_lines_lf (lines : List GoString)
    (hl : ∀ line ∈ lines, line ≠ [] ∧ ∀ c ∈ line, c ≠ '\r' ∧ c ≠ '\n') :
    (¬ crlfcrlf <:+: (lines.map (fun l => l ++ ['\n'])).flatten ∧
      ¬ lflf <:+: (lines.map (fun l => l ++ ['\n'])).flatten) ∧
    ((lines.map (fun l => l ++ ['\n'])).flatten = [] ∨
      ∃ c t, (lines.map (fun l => l ++ ['\n'])).flatten = c :: t ∧ c ≠ '\r' ∧ c ≠ '\n') := by
  induction lines with
  | nil =>
    refine ⟨⟨?_, ?_⟩, Or.inl rfl⟩
    · intro h
      have := h.length_le
      simp [crlfcrlf, str] at this
    · intro h
      have := h.length_le
      simp [lflf, str] at this
  | cons line rest ih =>
    have hline := hl line (List.mem_cons_self _ _)
    obtain ⟨hgood, hstart⟩ := ih (fun x hx => hl x (List.mem_cons_of_mem _ hx))
    have hform : ((line :: rest).map (fun l => l ++ ['\n'])).flatten =
        line ++ '\n' :: (rest.map (fun l => l ++ ['\n'])).flatten := by
      simp
    rw [hform]
    refine ⟨noTerm_append line _ hline.2 (noTerm_lf _ hstart hgood), Or.inr ?_⟩
    cases hlc : line with
    | nil => exact absurd hlc hline.1
    | cons c t =>
      have hc := hline.2 c (by rw [hlc]; exact List.mem_cons_self _ _)
      exact ⟨c, _, rfl, hc.1, hc.2⟩

theorem hasTerminator_of_lflf (s : GoString) (h : lflf <:+ s) : hasTerminator s = true := by
  cases hb : hasTerminator s
  · exact absurd h.isInfix ((hasTerminator_eq_false s).1 hb).2
  · rfl

theorem requestHead_lines (eol method target : GoString) (minor : Char)
    (headers : List (GoString × GoString)) :
    requestHead eol method target minor headers =
      (((method ++ ' ' :: (target ++ ' ' :: ['H', 'T', 'T', 'P', '/', '1', '.', minor])) ::
        headers.map (fun kv => kv.1 ++ ':' :: kv.2)).map
          (fun l => l ++ eol)).flatten ++ eol := by
  have h := requestHead_eq eol method target minor headers []
  rw [List.append_nil] at h
  rw [h]
  have hb : ∀ hs : List (GoString × GoString), headerBlock eol hs =
      ((hs.map (fun kv => kv.1 ++ ':' :: kv.2)).map (fun l => l ++ eol)).flatten := by
    intro hs
    induction hs with
    | nil => rfl
    | cons kv hs ih =>
      have := headerBlock_cons eol kv hs []
      simp only [List.append_nil] at this
      rw [this, ih]
      simp
  rw [hb]
  simp

theorem requestHead_plain_lines (method target : GoString) (minor : Char)
    (headers : List (GoString × GoString))
    (hline : ∀ c ∈ method ++ target ++ [minor], c ≠ '\r' ∧ c ≠ '\n')
    (hh : ∀ kv ∈ headers, WellFormedHeader kv) :
    ∀ line ∈ (method ++ ' ' :: (target ++ ' ' :: ['H', 'T', 'T', 'P', '/', '1', '.', minor])) ::
        headers.map (fun kv => kv.1 ++ ':' :: kv.2),
      line ≠ [] ∧ ∀ c ∈ line, c ≠ '\r' ∧ c ≠ '\n' := by
  intro line hmem
  rw [List.mem_cons] at hmem
  rcases hmem with rfl | hmem
  · exact ⟨by simp, requestLine_plain method target minor hline⟩
  · rw [List.mem_map] at hmem
    obtain ⟨kv, hkv, rfl⟩ := hmem
    obtain ⟨_, hktok, hvval⟩ := hh kv hkv
    refine ⟨by simp, ?_⟩
    intro c hc
    simp only [List.mem_append, List.mem_cons] at hc
    rcases hc with hc | rfl | hc
    · exact ⟨http.isToken_ne c '\r' (by decide) (hktok c hc),
        http.isToken_ne c '\n' (by decide) (hktok c hc)⟩
    · decide
    · exact ⟨http.validHeaderValueByte_ne c '\r' (by decide) (hvval c hc),
        http.validHeaderValueByte_ne c '\n' (by decide) (hvval c hc)⟩

/-- A request head of plain lines ends with its first blank line. -/
theorem requestHead_terminator (eol : GoString) (heol : LineEnd eol)
    (method target : GoString) (minor : Char)
    (headers : List (GoString × GoString))
    (hline : ∀ c ∈ method ++ target ++ [minor], c ≠ '\r' ∧ c ≠ '\n')
    (hh : ∀ kv ∈ headers, WellFormedHeader kv) :
    hasTerminator (requestHead eol method target minor headers) = true ∧
    hasTerminator (requestHead eol method target minor headers).dropLast = false := by
  have hp := requestHead_plain_lines method target minor headers hline hh
  have hl := requestHead_lines eol method target minor headers
  have hne : (method ++ ' ' :: (target ++ ' ' :: ['H', 'T', 'T', 'P', '/', '1', '.', minor])) ::
    headers.map (fun kv => kv.1 ++ ':' :: kv.2) ≠ [] := by simp
  generalize (method ++ ' ' :: (target ++ ' ' :: ['H', 'T', 'T', 'P', '/', '1', '.', minor])) ::
    headers.map (fun kv => kv.1 ++ ':' :: kv.2) = lines at hp hl hne
  rcases heol with rfl | rfl
  · have e3 : crlf = ['\r', '\n'] := rfl
    rw [e3] at hl ⊢
    constructor
    · apply hasTerminator_of_suffix
      rw [hl]
      rcases List.eq_nil_or_concat lines with h0 | ⟨init, last, rfl⟩
      · exact absurd h0 hne
      · refine ⟨(init.map (fun l => l ++ ['\r', '\n'])).flatten ++ last, ?_⟩
        simp [crlfcrlf, str]
    · rw [hl]
      have hd : ((lines.map (fun l => l ++ ['\r', '\n'])).flatten ++ ['\r', '\n']).dropLast =
          (lines.map (fun l => l ++ ['\r', '\n'])).flatten ++ ['\r'] := by
        have : (lines.map (fun l => l ++ ['\r', '\n'])).flatten ++ ['\r', '\n'] =
            ((lines.map (fun l => l ++ ['\r', '\n'])).flatten ++ ['\r']) ++ ['\n'] := by simp
        rw [this, List.dropLast_concat]
      rw [hd, hasTerminator_eq_false]
      exact (noTerm_lines lines hp).1
  · have e3 : lf = ['\n'] := rfl
    rw [e3] at hl ⊢
    constructor
    · apply hasTerminator_of_lflf
      rw [hl]
      rcases List.eq_nil_or_concat lines with h0 | ⟨init, last, rfl⟩
      · exact absurd h0 hne
      · refine ⟨(init.map (fun l => l ++ ['\n'])).flatten ++ last, ?_⟩
        simp [lflf, str]
    · rw [hl, List.dropLast_concat, hasTerminator_eq_false]
      exact (noTerm_lines_lf lines hp).1

/-! ## Readers that deliver a complete request head -/

theorem Reader.fillRead_delivers_any (i : Nat) (b : Reader) (D : GoString)
    (herr : b.err = none) (hfree : b.r + b.data.length < b.size)
    (hD : b.data ++ deliveredBytes i b.rd.events = D) :
    (Reader.fillRead i b).Delivers D := by
  induction i generalizing b with
  | zero =>
    right
    simp only [deliveredBytes, List.append_nil] at hD
    exact ⟨by simp [Reader.fillRead], hD⟩
  | succ i ih =>
    unfold Reader.fillRead Source.Read
    cases hev : b.rd.events with
    | nil =>
      rw [hev] at hD
      right
      simp only [deliveredBytes, List.append_nil] at hD
      simp [hD]
    | cons ev rest =>
      rw [hev] at hD
      simp only [deliveredBytes] at hD
      by_cases hlen : ev.data.length ≤ b.size - (b.r + b.data.length)
      · simp only [hlen, if_true]
        cases he : ev.err with
        | some e =>
          right
          rw [he] at hD
          simp only [ne_eq, reduceCtorEq, not_false_eq_true, if_true] at hD
          simp [hD]
        | none =>
          rw [he] at hD
          simp only [ne_eq, not_true_eq_false, if_false] at hD
          simp only
          by_cases hpos : ev.data.length > 0
          · simp only [hpos, if_true] at hD ⊢
            left
            refine ⟨herr, ?_⟩
            simp only [Source.delivered, List.append_assoc]
            exact hD
          · simp only [hpos, if_false] at hD ⊢
            have h0 : ev.data = [] := List.length_eq_zero.1 (by omega)
            exact ih { b with data := b.data ++ ev.data, rd := { b.rd with events := rest } } herr
              (by simp only [h0, List.append_nil]; exact hfree)
              (by simp only [h0, List.append_nil]; exact hD)
      · simp only [hlen, if_false]
        have hpos : ev.data.length > 0 := by omega
        have htake : (ev.data.take (b.size - (b.r + b.data.length))).length > 0 := by
          rw [List.length_take]
          omega
        simp only [htake, if_true]
        left
        refine ⟨herr, ?_⟩
        have hdrop : (ev.data.drop (b.size - (b.r + b.data.length))).length > 0 := by
          rw [List.length_drop]
          omega
        simp only [Source.delivered, maxConsecutiveEmptyReads, deliveredBytes, hdrop, if_true]
        simp only [hpos, if_true, maxConsecutiveEmptyReads] at hD
        rw [← hD]
        by_cases he : ev.err = none
        · simp only [he, ne_eq, not_true_eq_false, if_false, List.append_assoc]
          rw [← List.append_assoc (List.take _ ev.data), List.take_append_drop]
        · simp only [he, ne_eq, not_false_eq_true, if_true, List.append_assoc,
            List.take_append_drop]

theorem Reader.fill_delivers_any (b : Reader) (D : GoString) (h : b.Delivers D)
    (herr : b.err = none) (hfree : b.data.length < b.size) : b.fill.Delivers D := by
  rcases h with ⟨_, hD⟩ | ⟨h1, _⟩
  · unfold Reader.fill
    by_cases hr : b.r > 0
    · simp only [hr, if_true]
      exact Reader.fillRead_delivers_any _ { b with r := 0 } D herr (by simpa using hfree) hD
    · simp only [hr, if_false]
      exact Reader.fillRead_delivers_any _ b D herr (by omega) hD
  · exact absurd herr h1

theorem Reader.peekFill_delivers_any (n fuel : Nat) (b : Reader) (D : GoString)
    (h : b.Delivers D) : (Reader.peekFill n fuel b).Delivers D := by
  induction fuel generalizing b with
  | zero => exact h
  | succ fuel ih =>
    unfold Reader.peekFill
    split
    · rename_i hc
      exact ih b.fill (Reader.fill_delivers_any b D h hc.2.2 hc.2.1)
    · exact h

/-- The loop on a reader that delivers a complete head `head` and whose
buffer holds it, for any request parser: when every window that holds the
head decides for `v`, and every window that is a part of the head decides for
`v` or for another iteration, the loop returns `v`. -/
theorem httpHostHeaderLoop_complete (rr : GoString → Option Request) (head D v : GoString)
    (hlen : head.length ≤ maxPeek) (hD : head <+: D)
    (hfullw : ∀ w e, head <+: w → w <+: D → decideWindow rr w e = some v)
    (hpartw : ∀ w, w <+: head → w ≠ head →
      decideWindow rr w none = none ∨ decideWindow rr w none = some v)
    (fuel k : Nat) (br : Reader) (hf : maxPeek ≤ k + fuel) (hk : k ≤ br.data.length)
    (hk0 : k = 0 ∨ decideWindow rr br.data none = none)
    (hd : br.Delivers D) (hsize : head.length ≤ br.size) :
    ∃ br1, httpHostHeaderLoop rr (fuel + 1) k br = some (v, br1) := by
  induction fuel generalizing k br with
  | zero =>
    have hp := Delivers_prefix br D hd
    have hhead : head <+: br.data := List.prefix_of_prefix_length_le hD hp (by omega)
    have hdec := hfullw br.data none hhead hp
    rcases hk0 with h0 | h0
    · rw [maxPeek_eq] at hf; omega
    · rw [h0] at hdec; cases hdec
  | succ fuel ih =>
    have hp := Delivers_prefix br D hd
    rw [httpHostHeaderLoop_succ]
    by_cases hhead : head <+: br.data
    · have hdec : ∀ e, decideWindow rr br.data e = some v := fun e => hfullw _ e hhead hp
      have hk00 : k = 0 := by
        rcases hk0 with h0 | h0
        · exact h0
        · rw [hdec] at h0; cases h0
      subst hk00
      by_cases hpos : 1 ≤ br.data.length
      · rw [if_neg (by rw [maxPeek_eq]; omega),
          Reader.peekFill_of_not _ _ br (by omega), hdec]
        exact ⟨_, rfl⟩
      · rw [if_neg (by rw [maxPeek_eq]; omega)]
        have hd1 := Reader.peekFill_delivers_any (0 + 1) (0 + 1) br D hd
        generalize Reader.peekFill (0 + 1) (0 + 1) br = b1 at hd1
        have hp1 := Delivers_prefix b1 D hd1
        have h0 : head = [] := by
          have := hhead.length_le
          exact List.length_eq_zero.1 (by omega)
        rw [hfullw b1.data _ (by rw [h0]; exact List.nil_prefix) hp1]
        exact ⟨_, rfl⟩
    · have hshort : br.data.length < head.length := by
        by_contra hge
        exact hhead (List.prefix_of_prefix_length_le hD hp (by omega))
      rw [if_neg (by omega)]
      have hdone := Reader.peekFill_done (k + 1) (k + 1) br (by omega)
      have hd1 := Reader.peekFill_delivers_any (k + 1) (k + 1) br D hd
      have hs1 := Reader.peekFill_size (k + 1) (k + 1) br
      generalize Reader.peekFill (k + 1) (k + 1) br = b1 at hdone hd1 hs1
      have hp1 := Delivers_prefix b1 D hd1
      by_cases hhead1 : head <+: b1.data
      · rw [hfullw b1.data _ hhead1 hp1]
        exact ⟨_, rfl⟩
      · have hshort1 : b1.data.length < head.length := by
          by_contra hge1
          exact hhead1 (List.prefix_of_prefix_length_le hD hp1 (by omega))
        have herr1 : b1.err = none := by
          rcases hd1 with ⟨h0, _⟩ | ⟨_, h0⟩
          · exact h0
          · exact absurd (h0 ▸ hD) hhead1
        have hge : k + 1 ≤ b1.data.length := by
          by_contra hlt
          exact hdone ⟨by omega, by omega, herr1⟩
        have hpe : peekErr b1 (k + 1) = none := by
          unfold peekErr
          rw [if_neg (by omega), if_neg (by omega)]
        have hpr := (peekErr_eq_none b1 (k + 1) hpe).2.2
        rw [hpe, hpr]
        have hpart : b1.data <+: head :=
          List.prefix_of_prefix_length_le hp1 hD (by omega)
        have hne : b1.data ≠ head := fun h => by rw [h] at hshort1; omega
        rcases hpartw b1.data hpart hne with hnone | hsome
        · rw [hnone]
          simp only
          rw [max_eq_right hge]
          exact ih _ b1 (by omega) (le_refl _) (Or.inr hnone) hd1 (by omega)
        · rw [hsome]
          exact ⟨_, rfl⟩

/-- A head that starts with an upper-case letter and ends with its first
blank line, of at most 4096 bytes, on a reader whose buffer holds it and whose
stream delivers it: `httpHostHeader` returns what the parser makes of the
window, for any request parser that gives the same value on the head whatever
follows it. -/
theorem httpHostHeader_of_parsed (rr : GoString → Option Request) (head v : GoString)
    (br : Reader) (hup : ∃ c t, head = c :: t ∧ 'A' ≤ c ∧ c ≤ 'Z')
    (hterm : hasTerminator head = true) (hfirst : hasTerminator head.dropLast = false)
    (hlen : head.length ≤ 4096)
    (hparse : ∀ x, parsedHost rr (head ++ x) = v)
    (herr : br.err = none) (hdel : head <+: br.data ++ br.rd.delivered)
    (hsize : head.length ≤ br.size) :
    ∃ br1, httpHostHeader rr br = some (v, br1) := by
  obtain ⟨c, t, hc, hupc⟩ := hup
  refine httpHostHeaderLoop_complete rr head _ v (by rw [maxPeek_eq]; exact hlen) hdel ?_ ?_
    maxPeek 0 br (by omega) (Nat.zero_le _) (Or.inl rfl) (Or.inl ⟨herr, rfl⟩) hsize
  · intro w e hw _
    rw [decideWindow_of_head rr head w e c t hc hupc hterm hw]
    obtain ⟨x, rfl⟩ := hw
    rw [hparse x]
  · intro w hw hne
    exact Or.inl (decideWindow_of_part rr head w c t hc hupc
      (no_terminator_before_end head hfirst) hw hne)

/-- A head whose first byte is not an upper-case letter, on a reader whose
buffer holds it and whose stream delivers it: `httpHostHeader` returns the
empty string. -/
theorem httpHostHeader_of_not_upper (rr : GoString → Option Request) (head : GoString)
    (br : Reader) (c : Char) (t : GoString) (hc : head = c :: t) (hnu : c < 'A' ∨ c > 'Z')
    (hlen : head.length ≤ 4096)
    (herr : br.err = none) (hdel : head <+: br.data ++ br.rd.delivered)
    (hsize : head.length ≤ br.size) :
    ∃ br1, httpHostHeader rr br = some (str "", br1) := by
  refine httpHostHeaderLoop_complete rr head _ (str "") (by rw [maxPeek_eq]; exact hlen) hdel
    ?_ ?_ maxPeek 0 br (by omega) (Nat.zero_le _) (Or.inl rfl) (Or.inl ⟨herr, rfl⟩) hsize
  · intro w e hw _
    obtain ⟨x, rfl⟩ := hw
    subst hc
    unfold decideWindow
    rw [if_pos ⟨by simp, by simpa using hnu⟩]
  · intro w hw hne
    cases w with
    | nil =>
      left
      unfold decideWindow
      simp
    | cons d ds =>
      right
      obtain ⟨x, hx⟩ := hw
      subst hc
      simp only [List.cons_append, List.cons.injEq] at hx
      unfold decideWindow
      rw [if_pos ⟨by simp, by rw [List.headD_cons, hx.1]; exact hnu⟩]

/-! ## `httpHostHeader` on well-formed heads -/

theorem requestHead_upper (eol method target : GoString) (minor : Char)
    (headers : List (GoString × GoString)) (hwf : WellFormedLines method target minor headers) :
    ∃ c t, requestHead eol method target minor headers = c :: t ∧ 'A' ≤ c ∧ c ≤ 'Z' := by
  obtain ⟨⟨c, t, hm, hc⟩, _⟩ := hwf
  rw [hm]
  exact ⟨c, (requestHead eol (c :: t) target minor headers).tail, rfl, hc⟩

/-- A head of well-formed lines whose headers that govern the body `net/http`
rejects, on a reader whose buffer holds the head and whose stream delivers it:
the parse error makes `httpHostHeader` return the empty string. -/
theorem httpHostHeader_framing_rejected (eol method target : GoString) (minor : Char)
    (headers : List (GoString × GoString)) (br : Reader) (heol : LineEnd eol)
    (hwf : WellFormedLines method target minor headers)
    (hfr : ¬ FramingAccepted minor headers)
    (hlen : (requestHead eol method target minor headers).length ≤ 4096)
    (herr : br.err = none)
    (hdel : requestHead eol method target minor headers <+: br.data ++ br.rd.delivered)
    (hsize : (requestHead eol method target minor headers).length ≤ br.size) :
    ∃ br1, httpHostHeader http.ReadRequest br = some (str "", br1) := by
  have hplain := WellFormedLines_plain method target minor headers hwf
  have hterm := requestHead_terminator eol heol method target minor headers hplain
    hwf.2.2.2.2.2.2
  refine httpHostHeader_of_parsed http.ReadRequest _ (str "") br
    (requestHead_upper eol method target minor headers hwf) hterm.1 hterm.2 hlen ?_ herr hdel
    hsize
  intro x
  unfold parsedHost
  rw [http.ReadRequest_framing_rejected eol heol method target minor headers x hwf hfr]

theorem Reader.fillRead_cut (i : Nat) (b : Reader) (ev : ReadEvent) (rest : List ReadEvent)
    (hev : b.rd.events = ev :: rest) (hfree : b.r + b.data.length < b.size)
    (hlong : b.size - (b.r + b.data.length) < ev.data.length) :
    Reader.fillRead (i + 1) b =
      { b with
        data := b.data ++ ev.data.take (b.size - (b.r + b.data.length))
        rd := { b.rd with
          events := { ev with data := ev.data.drop (b.size - (b.r + b.data.length)) } :: rest } } := by
  unfold Reader.fillRead Source.Read
  rw [hev]
  simp only
  rw [if_neg (by omega)]
  simp only
  rw [if_pos (by rw [List.length_take]; omega)]

theorem peekFill_first_cut (L : GoString) (size : Nat) (h16 : 16 ≤ size) (hL : size < L.length) :
    Reader.peekFill (0 + 1) (0 + 1) (NewReaderSize (stringsReader L) size) =
      { size := size, r := 0, data := L.take size, err := none,
        rd := { events := [{ data := L.drop size, err := none }], final := Error.EOF } } := by
  have h1 : ¬ size < 16 := by omega
  have e0 : NewReaderSize (stringsReader L) size =
      { size := size, r := 0, data := [], err := none,
        rd := { events := [{ data := L, err := none }], final := Error.EOF } } := by
    simp only [NewReaderSize, stringsReader, h1, if_false]
  rw [e0]
  unfold Reader.peekFill
  rw [if_pos ⟨by simp, by simp; omega, rfl⟩]
  unfold Reader.fill
  rw [if_neg (by simp)]
  rw [show maxConsecutiveEmptyReads = 99 + 1 from rfl,
    Reader.fillRead_cut 99 _ { data := L, err := none } [] rfl (by simp; omega) (by simpa using hL)]
  simp [Reader.peekFill]

/-- A reader with a buffer of at least `maxPeek` bytes over a stream that
delivers more bytes than the buffer holds in one read: the first iteration
buffers and examines as many bytes as the buffer holds, and the second one
line-scans them. -/
theorem httpHostHeader_cut (rr : GoString → Option Request) (L : GoString) (size : Nat)
    (hsize : maxPeek ≤ size) (hL : size < L.length)
    (hterm : hasTerminator (L.take size) = false)
    (hup : ∀ c, L.head? = some c → 'A' ≤ c ∧ c ≤ 'Z') :
    (httpHostHeader rr (NewReaderSize (stringsReader L) size)).map Prod.fst
      = some (httpHostHeaderFromBytes (L.take size)) := by
  rw [maxPeek_eq] at hsize
  have hlt : (L.take size).length = size := by
    rw [List.length_take]
    omega
  have hfill := peekFill_first_cut L size (by omega) hL
  obtain ⟨b1, hfill, hsz1, hdt1⟩ : ∃ b1,
      Reader.peekFill (0 + 1) (0 + 1) (NewReaderSize (stringsReader L) size) = b1 ∧
        b1.size = size ∧ b1.data = L.take size := ⟨_, hfill, rfl, rfl⟩
  have hpe : peekErr b1 (0 + 1) = none := by
    unfold peekErr
    rw [hsz1, hdt1, if_neg (by omega), if_neg (by omega)]
  have hpr := (peekErr_eq_none _ _ hpe).2.2
  have hdw : decideWindow rr (L.take size) none = none := by
    rw [decideWindow_of_start rr (L.take size) (L.take size) none (List.prefix_refl _) hterm (by
      intro c hc
      apply hup c
      cases L with
      | nil => simp at hL
      | cons a l =>
        obtain ⟨n, rfl⟩ : ∃ n, size = n + 1 := ⟨size - 1, by omega⟩
        simpa using hc)]
    simp
  have hmax : max (0 + 1) (L.take size).length = size := by
    rw [hlt]
    exact max_eq_right (by omega)
  unfold httpHostHeader
  rw [httpHostHeaderLoop_succ, if_neg (by rw [maxPeek_eq]; omega), hfill, hpe, hdt1]
  simp only [hdw, hpr, hmax]
  have hf : maxPeek = (maxPeek - 1) + 1 := by rw [maxPeek_eq]
  rw [hf, httpHostHeaderLoop_succ, if_pos (by rw [maxPeek_eq]; omega), hdt1]
  rfl

theorem longHead_eq (r : GoString) :
    requestHead crlf (str "GET") (str "/") '1'
      [(str "Host", str " a"), (str "Host", str " b"), (str "X", r)] =
    str "GET / HTTP/1.1" ++ '\r' :: (str "\nHost:" ++
      (str " a\r" ++ '\n' :: (str "Host: b\r\nX:" ++ (r ++ str "\r\n\r\n")))) := by
  simp [requestHead, headerBlock, headerLine, str, crlf]

theorem longHeaders_wellformed : ∀ kv ∈ longHeaders, WellFormedHeader kv := by
  intro kv hkv
  unfold longHeaders at hkv
  simp only [List.mem_cons, List.mem_singleton, List.not_mem_nil, or_false] at hkv
  rcases hkv with rfl | rfl | rfl
  · decide
  · decide
  · refine ⟨by decide, by decide, ?_⟩
    intro c hc
    rcases List.mem_cons.1 hc with rfl | hc
    · decide
    · rw [List.eq_of_mem_replicate hc]
      decide

theorem longHead_line_scan :
    4096 < (requestHead crlf (str "GET") (str "/") '1' longHeaders).length ∧
    (httpHostHeader http.ReadRequest
      (NewReader (stringsReader (requestHead crlf (str "GET") (str "/") '1' longHeaders)))).map
        Prod.fst = some (str "a") := by
  have hplain : ∀ c ∈ str "GET" ++ str "/" ++ ['1'], c ≠ '\r' ∧ c ≠ '\n' := by decide
  have hterm := requestHead_terminator crlf (Or.inl rfl) (str "GET") (str "/") '1' longHeaders
    hplain
    longHeaders_wellformed
  have heq := longHead_eq (' ' :: List.replicate 4100 'a')
  have hlen : (requestHead crlf (str "GET") (str "/") '1' longHeaders).length = 4141 := by
    unfold longHeaders
    rw [heq]
    simp only [List.length_append, List.length_cons, List.length_replicate]
    rfl
  generalize hL : requestHead crlf (str "GET") (str "/") '1' longHeaders = L at hterm hlen
  have heq2 : L = str "GET / HTTP/1.1" ++ '\r' :: (str "\nHost:" ++
      (str " a\r" ++ '\n' :: (str "Host: b\r\nX:" ++
        ((' ' :: List.replicate 4100 'a') ++ str "\r\n\r\n")))) := by
    rw [← hL]
    exact heq
  refine ⟨by omega, ?_⟩
  generalize (' ' :: List.replicate 4100 'a') = r at heq2
  have htake : L.take 4096 <+: L.dropLast :=
    List.prefix_of_prefix_length_le (List.take_prefix _ _) (List.dropLast_prefix _) (by
      rw [List.length_take, List.length_dropLast]
      omega)
  have hnt : hasTerminator (L.take 4096) = false := by
    cases hb : hasTerminator (L.take 4096)
    · rfl
    · rw [hasTerminator_mono _ _ htake hb] at hterm
      cases hterm.2
  have hup : ∀ c, L.head? = some c → 'A' ≤ c ∧ c ≤ 'Z' := by
    intro c hc
    rw [heq2] at hc
    cases hc
    decide
  rw [show NewReader (stringsReader L) = NewReaderSize (stringsReader L) 4096 from rfl,
    httpHostHeader_cut http.ReadRequest L 4096 (by rw [maxPeek_eq]) (by omega) hnt hup]
  have hstart : str "GET / HTTP/1.1" ++ '\r' :: (str "\nHost:" ++ (str " a\r" ++ ['\n']))
      <+: L.take 4096 := by
    apply List.prefix_of_prefix_length_le _ (List.take_prefix _ _)
    · rw [List.length_take]
      have : (str "GET / HTTP/1.1" ++ '\r' :: (str "\nHost:" ++ (str " a\r" ++ ['\n']))).length
          = 25 := rfl
      omega
    · rw [heq2]
      refine ⟨str "Host: b\r\nX:" ++ (r ++ str "\r\n\r\n"), ?_⟩
      simp
  obtain ⟨X, hX⟩ := hstart
  have hform : L.take 4096 = str "GET / HTTP/1.1" ++ '\r' :: (str "\nHost:" ++
      (str " a\r" ++ '\n' :: X)) := by
    rw [← hX]
    simp
  rw [hform, httpHostHeaderFromBytes_after_line _ _ (by decide),
    takeWhile_ne_append (str " a\r") X '\n' (by decide)]
  decide

end tcpproxy
